import Mathlib

/-! SimpleArithmeticParser

A shallow embedding of `evaluate` from `lib/SimpleArithmeticParser.h`, the
character-at-a-time state machine that scans an arithmetic expression and
evaluates it from left to right, together with the properties of it that the
specification states.

Modelling conventions.

* The input `const char *expression` is the list of the characters in front of
  the terminating NUL.  Reading past the end of the list yields `'\0'`; a NUL
  inside the list ends the scan exactly as the terminator does, so the
  properties of C strings are stated for lists without NUL.
* `int` is a mathematical integer, and every arithmetic operation wraps its
  result to 32 bits in two's complement (`wrapInt`).  Signed overflow is
  undefined in C++; the wrap-around is what the usual targets compute, and no
  property below depends on it except where it is stated for values that
  overflow.
* The division of `INT_MIN` by `-1` is the one operation without a value: the
  quotient does not fit `int`, the behaviour is undefined, and on the usual
  targets the processor raises a divide error that stops the process.  It is
  neither a return nor an exception, and it has an outcome of its own.
* `std::vector<std::pair<int, Op>>` is a list whose head is `back()`.
* A call of `evaluate` has one of four outcomes: it returns `true` and leaves
  a value in `result`, it returns `false`, the `std::invalid_argument` thrown
  by `processNumber` leaves the function, or it divides `INT_MIN` by `-1`.
-/

namespace SimpleArithmeticParser

/-! ## Data model -/

/-- The enumeration `Op`. -/
inductive Op where
  | Add
  | Minus
  | Multiply
  | Divide
  deriving DecidableEq, Repr

/-- The enumeration `State`. -/
inductive State where
  | Expression
  | Evaluation
  | Number
  deriving DecidableEq, Repr

/-- What a call of `evaluate` does: `accepted v` is `return true` with `result = v`,
`rejected` is `return false`, `uncaught` is an exception leaving the function,
`undefined` is the division of `INT_MIN` by `-1`, after which the function
neither returns nor throws. -/
inductive Outcome where
  | accepted (result : Int)
  | rejected
  | uncaught
  | undefined
  deriving DecidableEq, Repr

/-- What a call of the lambda `processNumber` does: `value a` is the return
with the new value of `a`, `thrown` is the `throw std::invalid_argument`,
`undefined` is the division of `INT_MIN` by `-1`. -/
inductive Computed where
  | value (a : Int)
  | thrown
  | undefined
  deriving DecidableEq, Repr

/-- Smallest value of `int`. -/
def INT_MIN : Int := -2147483648

/-- Largest value of `int`. -/
def INT_MAX : Int := 2147483647

/-- The 32-bit two's complement value of a mathematical integer. -/
def wrapInt (x : Int) : Int := (x + 2147483648) % 4294967296 - 2147483648

/-- The lambda `processNumber`: the new value of `a`; the division throws
`std::invalid_argument` when `b` is 0, and `a / b` has no value when `a` is
`INT_MIN` and `b` is `-1`. -/
def processNumber (a b : Int) : Op → Computed
  | .Add => .value (wrapInt (a + b))
  | .Minus => .value (wrapInt (a - b))
  | .Multiply => .value (wrapInt (a * b))
  | .Divide =>
    if b = 0 then .thrown
    else if a = INT_MIN ∧ b = -1 then .undefined
    else .value (wrapInt (Int.tdiv a b))

/-- The characters of the `case '0': ... case '9':` labels. -/
def isDigit (c : Char) : Bool :=
  c == '0' || c == '1' || c == '2' || c == '3' || c == '4' ||
  c == '5' || c == '6' || c == '7' || c == '8' || c == '9'

/-- The characters of the whitespace labels `' '`, `'\t'`, `'\n'`, `'\r'`. -/
def isSpace (c : Char) : Bool :=
  c == ' ' || c == '\t' || c == '\n' || c == '\r'

/-- The terminator `'\0'`. -/
def NUL : Char := Char.ofNat 0

/-- Value of a decimal digit character. -/
def digitValue (c : Char) : Nat := c.toNat - 48

/-- Value of a run of decimal digits, most significant first. -/
def digitsValue (ds : List Char) : Nat :=
  ds.foldl (fun acc c => 10 * acc + digitValue c) 0

/-- The call `stoi(numberString)`: an optional `-`, then the longest run of
digits.  `none` stands for either exception of `std::stoi`: `invalid_argument`
when there is no digit, `out_of_range` when the value does not fit `int`.
(Leading whitespace and a `+` sign, which `std::stoi` also accepts, never occur
in `numberString`.) -/
def stoi (s : List Char) : Option Int :=
  let neg := s.head? == some '-'
  let body := if neg then s.tail else s
  let ds := body.takeWhile isDigit
  if ds = [] then none
  else
    let v : Int := if neg then -(digitsValue ds : Int) else (digitsValue ds : Int)
    if INT_MIN ≤ v ∧ v ≤ INT_MAX then some v else none

/-- The local variables of `evaluate` that live across loop iterations. -/
structure Machine where
  result : Int
  op : Op
  stack : List (Int × Op)
  state : State
  numberString : List Char
  deriving DecidableEq, Repr

/-- The variables after `reset()` and the declarations in front of the loop. -/
def Machine.init : Machine :=
  { result := 0, op := .Add, stack := [], state := .Expression, numberString := [] }

/-- How one iteration of the `while(true)` body ends in front of the
`if(c == '\0')` test: `advance` falls out of the `switch`, `again` is the
`continue` of `State::Number`, `halt` leaves the function. -/
inductive Step where
  | advance (m : Machine)
  | again (m : Machine)
  | halt (o : Outcome)
  deriving DecidableEq, Repr

/-- The block `if(!numberString.empty()) { ... }` at the head of
`State::Evaluation`: the variables behind it, or the outcome with which it
leaves the function.  `rejected` is one of its three `return false`, the one
of the `catch` among them; `undefined` is the division of `INT_MIN` by `-1`
in `processNumber`, which no `catch` sees. -/
def parseNumber (m : Machine) : Except Outcome Machine :=
  if m.numberString = [] then .ok m
  else if m.numberString = ['-'] then .error .rejected
  else
    match stoi m.numberString with
    | none => .error .rejected
    | some number =>
      if number = 0 ∧ m.op = .Divide then .error .rejected
      else
        match processNumber m.result number m.op with
        | .thrown => .error .rejected
        | .undefined => .error .undefined
        | .value r => .ok { m with result := r, numberString := [] }

/-- The `switch(c)` of `State::Expression`. -/
def expressionArm (m : Machine) (c : Char) : Step :=
  if c = '-' ∨ isDigit c then
    .advance { m with numberString := m.numberString ++ [c], state := .Number }
  else if c = '(' then
    .advance { m with stack := (m.result, m.op) :: m.stack, result := 0, op := .Add }
  else if isSpace c then .advance m
  else .halt .rejected

/-- The `switch(c)` of `State::Evaluation`, entered after `parseNumber`. -/
def evaluationArm (m : Machine) (c : Char) : Step :=
  if c = '+' then .advance { m with op := .Add, state := .Expression }
  else if c = '-' then .advance { m with op := .Minus, state := .Expression }
  else if c = '*' then .advance { m with op := .Multiply, state := .Expression }
  else if c = '/' then .advance { m with op := .Divide, state := .Expression }
  else if c = ')' then
    match m.stack with
    | [] => .halt .rejected
    | (saved, savedOp) :: rest =>
      match processNumber saved m.result savedOp with
      | .thrown => .halt .uncaught
      | .undefined => .halt .undefined
      | .value r => .advance { m with result := r, stack := rest }
  else if c = NUL then .advance m
  else if isSpace c then .advance m
  else .halt .rejected

/-- The `switch(c)` of `State::Number`. -/
def numberArm (m : Machine) (c : Char) : Step :=
  if isDigit c then .advance { m with numberString := m.numberString ++ [c] }
  else if c = '+' ∨ c = '-' ∨ c = '*' ∨ c = '/' ∨ c = ')' ∨ c = NUL then
    .again { m with state := .Evaluation }
  else if isSpace c then .advance { m with state := .Evaluation }
  else .halt .rejected

/-- One iteration of the loop body, the `switch(state)`. -/
def dispatch (m : Machine) (c : Char) : Step :=
  match m.state with
  | .Expression => expressionArm m c
  | .Evaluation =>
    match parseNumber m with
    | .error o => .halt o
    | .ok m' => evaluationArm m' c
  | .Number => numberArm m c

/-- The code behind the loop: the stack has to be empty. -/
def finish (m : Machine) : Outcome :=
  if m.stack = [] then .accepted m.result else .rejected

/-- The loop `while(true)`, run for at most `fuel` iterations on the characters
from the current one on; `none` when the iterations are used up. -/
def loop : Nat → Machine → List Char → Option Outcome
  | 0, _, _ => none
  | fuel + 1, m, cs =>
    match dispatch m (cs.headD NUL) with
    | .halt o => some o
    | .again m' => loop fuel m' cs
    | .advance m' =>
      if cs.headD NUL = NUL then some (finish m') else loop fuel m' cs.tail

/-- The function `evaluate`, with two iterations allowed for each character and
for the terminator. -/
def evaluate (expression : List Char) : Option Outcome :=
  loop (2 * (expression.length + 1)) Machine.init expression

/-! ## The scan, one character at a time

The loop spends one or two iterations on every character.  `feed` collects
them, `scan` is the loop written by recursion on the input. -/

/-- The way a `Step` of the evaluation arm leaves the iteration. -/
def evaluationFeed (m : Machine) (c : Char) : Except Outcome Machine :=
  match evaluationArm m c with
  | .halt o => .error o
  | .advance m' => .ok m'
  | .again _ => .error .rejected

/-- The iterations spent on the character `c`: the variables afterwards, or
the outcome when the function is left. -/
def feed (m : Machine) (c : Char) : Except Outcome Machine :=
  match dispatch m c with
  | .halt o => .error o
  | .advance m' => .ok m'
  | .again m' =>
    match dispatch m' c with
    | .halt o => .error o
    | .advance m'' => .ok m''
    | .again _ => .error .rejected

/-- The iterations spent on the terminator and the code behind the loop. -/
def atEnd (m : Machine) : Outcome :=
  match feed m NUL with
  | .ok m' => finish m'
  | .error o => o

/-- The loop from the variables `m` on, over the characters `cs` and the
terminator that follows them. -/
def scan : Machine → List Char → Outcome
  | m, [] => atEnd m
  | m, c :: cs =>
    if c = NUL then atEnd m
    else
      match feed m c with
      | .ok m' => scan m' cs
      | .error o => o

/-- The variables after the characters `cs` have been consumed, none of them
the terminator; or the outcome when the function is left on the way. -/
def feedAll : Machine → List Char → Except Outcome Machine
  | m, [] => .ok m
  | m, c :: cs =>
    match feed m c with
    | .ok m' => feedAll m' cs
    | .error o => .error o

/-- The variables once a numeral still held in `numberString` has been
converted and combined, as the evaluation arm does first. -/
def settle (m : Machine) : Except Outcome Machine :=
  parseNumber { m with state := .Evaluation }

/-- The character of an operator, as the evaluation arm reads it. -/
def opChar : Op → Char
  | .Add => '+'
  | .Minus => '-'
  | .Multiply => '*'
  | .Divide => '/'

/-- The next character to read is no digit: the list is empty or begins with a
character that is no digit. -/
def noDigitAhead : List Char → Prop
  | [] => True
  | c :: _ => isDigit c = false

instance : DecidablePred noDigitAhead := fun cs =>
  match cs with
  | [] => isTrue trivial
  | c :: _ => inferInstanceAs (Decidable (isDigit c = false))

/-- The characters on which `State::Number` ends the numeral and goes through
the loop body again without moving on. -/
def endsNumeral (c : Char) : Prop :=
  c = '+' ∨ c = '-' ∨ c = '*' ∨ c = '/' ∨ c = ')' ∨ c = NUL

instance : DecidablePred endsNumeral := fun c => by
  unfold endsNumeral
  infer_instance

/-- The next character to read lets `State::Number` hand the numeral over to
`State::Evaluation`: the list is empty (the terminator is next) or begins with
an operator, `)`, the terminator or whitespace. -/
def numeralEndsAhead : List Char → Prop
  | [] => True
  | c :: _ => endsNumeral c ∨ isSpace c = true

instance : DecidablePred numeralEndsAhead := fun cs =>
  match cs with
  | [] => isTrue trivial
  | c :: _ => inferInstanceAs (Decidable (endsNumeral c ∨ isSpace c = true))

/-- Every character of the list is whitespace. -/
def AllSpace (w : List Char) : Prop :=
  ∀ c ∈ w, isSpace c = true

instance : DecidablePred AllSpace := fun w => by
  unfold AllSpace
  infer_instance

/-! ## Numerals -/

/-- A signed decimal numeral as it is written: an optional `-` and digits. -/
structure Numeral where
  negative : Bool
  digits : List Char
  deriving DecidableEq, Repr

/-- The characters of a numeral. -/
def Numeral.chars (n : Numeral) : List Char :=
  (if n.negative then ['-'] else []) ++ n.digits

/-- A numeral has one digit or more, and digits only. -/
def Numeral.Valid (n : Numeral) : Prop :=
  n.digits ≠ [] ∧ ∀ c ∈ n.digits, isDigit c = true

instance (n : Numeral) : Decidable n.Valid := by
  unfold Numeral.Valid
  infer_instance

/-- The integer a numeral denotes; leading zeroes do not count. -/
def Numeral.value (n : Numeral) : Int :=
  if n.negative then -(digitsValue n.digits : Int) else (digitsValue n.digits : Int)

/-- The numeral denotes a value of `int`. -/
def Numeral.InRange (n : Numeral) : Prop :=
  INT_MIN ≤ n.value ∧ n.value ≤ INT_MAX

instance (n : Numeral) : Decidable n.InRange := by
  unfold Numeral.InRange
  infer_instance

/-- The loop has consumed exactly the characters `pre`, none of them the
terminator, without leaving the function, and holds the variables `m`. -/
def Reaches (pre : List Char) (m : Machine) : Prop :=
  NUL ∉ pre ∧ feedAll Machine.init pre = .ok m

/-! ## Expressions and the reference evaluator

The grammar `expr := term (op term)*`, `term := numeral | '(' expr ')'`, as a
syntax tree that also records the whitespace behind each token.  A chain
`t₀ o₁ t₁ o₂ t₂ ...` is the tree `binary (binary t₀ o₁ t₁) o₂ t₂ ...`, whose
right operands are terms. -/

/-- An expression with its layout. -/
inductive Expr where
  | num (n : Numeral) (w : List Char)
  | group (w₁ : List Char) (e : Expr) (w₂ : List Char)
  | binary (l : Expr) (o : Op) (w : List Char) (r : Expr)
  deriving Repr

/-- The characters of an expression. -/
def Expr.render : Expr → List Char
  | .num n w => n.chars ++ w
  | .group w₁ e w₂ => '(' :: w₁ ++ e.render ++ ')' :: w₂
  | .binary l o w r => l.render ++ opChar o :: w ++ r.render

/-- A term is a numeral or a parenthesised expression. -/
def Expr.IsTerm : Expr → Prop
  | .binary _ _ _ _ => False
  | _ => True

instance : DecidablePred Expr.IsTerm := fun e =>
  match e with
  | .num _ _ => isTrue trivial
  | .group _ _ _ => isTrue trivial
  | .binary _ _ _ _ => isFalse (fun h => h)

/-- The tree is one of the grammar: numerals have digits, the layout is
whitespace, right operands are terms. -/
def Expr.Valid : Expr → Prop
  | .num n w => n.Valid ∧ AllSpace w
  | .group w₁ e w₂ => AllSpace w₁ ∧ e.Valid ∧ AllSpace w₂
  | .binary l _ w r => l.Valid ∧ AllSpace w ∧ r.Valid ∧ r.IsTerm

/-- Deciding `Expr.Valid`. -/
def Expr.decValid : (e : Expr) → Decidable e.Valid
  | .num n w => inferInstanceAs (Decidable (n.Valid ∧ AllSpace w))
  | .group w₁ e w₂ =>
    have := Expr.decValid e
    inferInstanceAs (Decidable (AllSpace w₁ ∧ e.Valid ∧ AllSpace w₂))
  | .binary l _ w r =>
    have := Expr.decValid l
    have := Expr.decValid r
    inferInstanceAs (Decidable (l.Valid ∧ AllSpace w ∧ r.Valid ∧ r.IsTerm))

instance : DecidablePred Expr.Valid := Expr.decValid

/-- A string is a well-formed expression: whitespace, then the characters of
a tree of the grammar (which carry the whitespace behind every token). -/
def WellFormed (s : List Char) : Prop :=
  ∃ lead e, AllSpace lead ∧ Expr.Valid e ∧ s = lead ++ e.render

/-- An operator on the integers; division truncates toward zero. -/
def Op.apply : Op → Int → Int → Int
  | .Add, a, b => a + b
  | .Minus, a, b => a - b
  | .Multiply, a, b => a * b
  | .Divide, a, b => Int.tdiv a b

/-- The reference evaluator: a parenthesised group is evaluated on its own, a
chain of operators from left to right, without precedence, in exact integer
arithmetic. -/
def Expr.value : Expr → Int
  | .num n _ => n.value
  | .group _ e _ => e.value
  | .binary l o _ r => o.apply l.value r.value

/-- The integer is a value of `int`. -/
def inInt (x : Int) : Prop := INT_MIN ≤ x ∧ x ≤ INT_MAX

instance : DecidablePred inInt := fun x => by
  unfold inInt
  infer_instance

/-- Every numeral is in the range of `int`, no division has a zero right
operand and no intermediate value of the reference evaluation leaves the range
of `int`. -/
def Expr.Safe : Expr → Prop
  | .num n _ => n.InRange
  | .group _ e _ => e.Safe
  | .binary l o _ r =>
    l.Safe ∧ r.Safe ∧ (o = .Divide → r.value ≠ 0) ∧ inInt (o.apply l.value r.value)

/-- Deciding `Expr.Safe`. -/
def Expr.decSafe : (e : Expr) → Decidable e.Safe
  | .num n _ => inferInstanceAs (Decidable n.InRange)
  | .group _ e _ => Expr.decSafe e
  | .binary l o _ r =>
    have := Expr.decSafe l
    have := Expr.decSafe r
    inferInstanceAs (Decidable
      (l.Safe ∧ r.Safe ∧ (o = .Divide → r.value ≠ 0) ∧ inInt (o.apply l.value r.value)))

instance : DecidablePred Expr.Safe := Expr.decSafe

/-! ## What the consumed text looks like

The predicates below describe the characters consumed so far in terms of the
grammar; they are the invariant of the loop behind the claim that only
well-formed expressions are accepted. -/

/-- The expression with one more whitespace character behind its last token. -/
def Expr.addSpace (c : Char) : Expr → Expr
  | .num n w => .num n (w ++ [c])
  | .group w₁ e w₂ => .group w₁ e (w₂ ++ [c])
  | .binary l o w r => .binary l o w (r.addSpace c)

/-- Text after which a term is expected at its nesting level: whitespace, or
whitespace, an expression, an operator and whitespace. -/
def Awaiting (a : List Char) : Prop :=
  ∃ lead, AllSpace lead ∧
    (a = lead ∨
      ∃ l o w, Expr.Valid l ∧ AllSpace w ∧ a = lead ++ l.render ++ opChar o :: w)

/-- The text in front of the innermost of `k` open parentheses, that
parenthesis included. -/
def Context : Nat → List Char → Prop
  | 0, x => x = []
  | k + 1, x => ∃ x₀ a, Context k x₀ ∧ Awaiting a ∧ x = x₀ ++ a ++ ['(']

/-- The beginning of a numeral: a `-` or a digit, then digits. -/
def NumeralStart (ns : List Char) : Prop :=
  ∃ c ds, ns = c :: ds ∧ (c = '-' ∨ isDigit c = true) ∧ ∀ d ∈ ds, isDigit d = true

/-- The invariant of the loop: the consumed text `p` is the text in front of
the open parentheses, one for each frame of the stack, followed by the text of
the current nesting level, which is as the state says. -/
def Parsed (p : List Char) (m : Machine) : Prop :=
  ∃ x a, Context m.stack.length x ∧ p = x ++ a ∧
    match m.state with
    | .Expression => Awaiting a ∧ m.numberString = []
    | .Number =>
      ∃ a₀, Awaiting a₀ ∧ a = a₀ ++ m.numberString ∧ NumeralStart m.numberString
    | .Evaluation =>
      (m.numberString = [] ∧ WellFormed a) ∨
      (∃ a₀ w, Awaiting a₀ ∧ AllSpace w ∧ a = a₀ ++ m.numberString ++ w ∧
        NumeralStart m.numberString)

/-- The last character of the text that is not whitespace. -/
def lastNonSpace (p : List Char) : Option Char :=
  (p.reverse.dropWhile isSpace).head?

/-! ## Inserting whitespace -/

/-- The numeral of a natural number written with the given digits. -/
def Numeral.plain (digits : List Char) : Numeral := { negative := false, digits := digits }

/-- The tree of the test expression `(-5 * ((5 * 6) - (5 * 8)))`. -/
def nestedExample : Expr :=
  .group []
    (.binary (.num { negative := true, digits := ['5'] } [' ']) .Multiply [' ']
      (.group []
        (.binary
          (.group []
            (.binary (.num (.plain ['5']) [' ']) .Multiply [' '] (.num (.plain ['6']) []))
            [' '])
          .Minus [' ']
          (.group []
            (.binary (.num (.plain ['5']) [' ']) .Multiply [' '] (.num (.plain ['8']) []))
            []))
        []))
    []

/-! ## Alphabet and nesting -/

/-- The characters an expression may consist of: digits, the four operators,
the parentheses and whitespace. -/
def isAllowed (c : Char) : Bool :=
  isDigit c || c == '+' || c == '-' || c == '*' || c == '/' || c == '(' || c == ')' ||
    isSpace c

/-- The parentheses of the text are unbalanced: the numbers of `(` and of `)`
differ, or some prefix has more `)` than `(`. -/
def Unbalanced (s : List Char) : Prop :=
  s.count '(' ≠ s.count ')' ∨ ∃ p, p <+: s ∧ p.count '(' < p.count ')'

/-- The stack has one frame for every `(` of the consumed text that no `)` of
it has closed. -/
def Nested (p : List Char) (m : Machine) : Prop :=
  m.stack.length + p.count ')' = p.count '('

/-! ## The test suite of `tests/main.cpp` -/

/-- The table `testsExpectingSuccess`: expected result and input. -/
def testsExpectingSuccess : List (Int × String) :=
  [(4, "1 + 3"), (8, "(1  + 3) * 2"), (8, "(4 / 2) + 6"), (8, "1 + ( 3 + 4)"), (1, "(1)"),
   (0, "1 / 3"), (0, "(((((0)))))"), (3, "1--2"),
   (-4, "1 + -5"), (-8, "(1  + 3) * -2"), (80, "(40 / 2) + 60"), (8, "1 + ( 3 + 4)"),
   (1000, "(1000)"), (0, "1000000 / 3000000"), (0, "(((((00000000)))))"), (-3, "4 - 7"),
   (2, "1 * -5 / -2"), (1, "(1 * 3) + -2"), (60, "(40 / 200) + 60"), (2, "14 / ( 3 + 4)"),
   (23, "(2000) - 1000 / 1000 * 23"), (3, "10000 / 3000"), (0, "(((((-00000000)))))"),
   (-111111, "-1 * 111111"),
   (50, "(-5 * ((5 * 6) - (5 * 8)))"), (70, "(40 - (3 * ((5 * 6) - (5 * 8))))"),
   (200, "4 - 3 * 5 * 6 - 5 * 8")]

/-- The table `testsExpectingFailure`. -/
def testsExpectingFailure : List String :=
  ["", "(", ")", "1 / 0", "--", "--1", "-(12)", "((5 * 6) - (5 * 8)"]

/-! ## Leading zeroes -/

/-- The text ends with a digit. -/
def endsWithDigit (pre : List Char) : Bool :=
  match pre.reverse with
  | [] => false
  | c :: _ => isDigit c

/-- The string `s'` is `s` with `0` characters inserted, one at a time,
immediately in front of the first digit of a numeral: in front of a digit that
no digit precedes. -/
inductive ZeroInserted : List Char → List Char → Prop
  | same (s : List Char) : ZeroInserted s s
  | insert (s pre post : List Char) (d : Char) :
      ZeroInserted s (pre ++ d :: post) → isDigit d = true → endsWithDigit pre = false →
      ZeroInserted s (pre ++ '0' :: d :: post)

/-- The buffer `b` is the buffer `a` with a `0` in front of its digits. -/
def LeadZero (a b : List Char) : Prop :=
  ∃ sg ds, (sg = [] ∨ sg = ['-']) ∧ ds ≠ [] ∧ (∀ c ∈ ds, isDigit c = true) ∧
    a = sg ++ ds ∧ b = sg ++ '0' :: ds

/-! ## Decimal rendering -/

/-- The decimal rendering of an integer: the digits of its magnitude, most
significant first and without leading zeroes, behind a `-` when it is
negative. -/
def decimal (n : Int) : List Char :=
  if n < 0 then '-' :: Nat.toDigits 10 n.natAbs else Nat.toDigits 10 n.natAbs

/-- The numeral that the decimal rendering of an integer writes. -/
def decimalNumeral (n : Int) : Numeral :=
  { negative := decide (n < 0), digits := Nat.toDigits 10 n.natAbs }

/-! ## Brackets around an expression -/

/-- The variables with the frames `base` under the stack. -/
def onStack (base : List (Int × Op)) (m : Machine) : Machine :=
  { m with stack := m.stack ++ base }

/-- The string wrapped in `k` pairs of brackets. -/
def bracketed : Nat → List Char → List Char
  | 0, s => s
  | k + 1, s => '(' :: bracketed k s ++ [')']

/-! ## The iterations of the loop -/

/-- The iterations of the loop `while(true)`, at most `fuel` of them: the
variables and the characters from the current one on, at the start of each
iteration.  The recursion is that of `loop`. -/
def iterations : Nat → Machine → List Char → List (Machine × List Char)
  | 0, _, _ => []
  | fuel + 1, m, cs =>
    (m, cs) ::
      match dispatch m (cs.headD NUL) with
      | .halt _ => []
      | .again m' => iterations fuel m' cs
      | .advance m' => if cs.headD NUL = NUL then [] else iterations fuel m' cs.tail

/-- Two iterations that follow each other: either the second one is at the next
character, or it is at the same character, and then the first one was in
`State::Number` on a character that ends a numeral and the second one is in
`State::Evaluation` with the other variables unchanged. -/
def Follows (a b : Machine × List Char) : Prop :=
  (a.2 ≠ [] ∧ a.2.headD NUL ≠ NUL ∧ b.2 = a.2.tail) ∨
    (b.2 = a.2 ∧ a.1.state = .Number ∧ b.1 = { a.1 with state := .Evaluation } ∧
      endsNumeral (a.2.headD NUL))

/-! ## The model passes the test suite -/

/-- Every test of `testsExpectingSuccess` returns true with the expected result. -/
theorem testsExpectingSuccess_pass :
    ∀ t ∈ testsExpectingSuccess, evaluate t.2.toList = some (.accepted t.1) := by
  decide

/-- Every test of `testsExpectingFailure` returns false. -/
theorem testsExpectingFailure_pass :
    ∀ t ∈ testsExpectingFailure, evaluate t.toList = some .rejected := by
  decide

/-! ## The loop and the scan agree -/

theorem numberArm_again {m m' : Machine} {c : Char} (h : numberArm m c = .again m') :
    m' = { m with state := .Evaluation } := by
  unfold numberArm at h
  split_ifs at h
  all_goals simp_all

theorem evaluationArm_ne_again (m m' : Machine) (c : Char) :
    evaluationArm m c ≠ .again m' := by
  intro h
  unfold evaluationArm at h
  split_ifs at h
  split at h
  · simp at h
  · split at h <;> simp at h

theorem dispatch_again {m m' : Machine} {c : Char} (h : dispatch m c = .again m') :
    m.state = .Number ∧ m' = { m with state := .Evaluation } := by
  unfold dispatch at h
  split at h
  · unfold expressionArm at h; split_ifs at h
  · split at h
    · simp at h
    · exact absurd h (evaluationArm_ne_again _ _ _)
  · rename_i hs
    exact ⟨hs, numberArm_again h⟩

theorem dispatch_evaluation_ne_again {m m' : Machine} {c : Char}
    (hs : m.state = .Evaluation) : dispatch m c ≠ .again m' := by
  intro h
  have := (dispatch_again h).1
  rw [hs] at this
  cases this

theorem loop_succ (fuel : Nat) (m : Machine) (cs : List Char) :
    loop (fuel + 1) m cs =
      match dispatch m (cs.headD NUL) with
      | .halt o => some o
      | .again m' => loop fuel m' cs
      | .advance m' =>
        if cs.headD NUL = NUL then some (finish m') else loop fuel m' cs.tail := rfl

theorem scan_unfold (m : Machine) (cs : List Char) :
    scan m cs =
      match feed m (cs.headD NUL) with
      | .ok m' => if cs.headD NUL = NUL then finish m' else scan m' cs.tail
      | .error o => o := by
  cases cs with
  | nil =>
    simp only [scan, atEnd, List.headD_nil, if_true]
  | cons c cs =>
    by_cases hc : c = NUL
    · subst hc
      simp only [scan, atEnd, List.headD_cons, if_true]
    · simp only [scan, if_neg hc, List.headD_cons, List.tail_cons]

/-- Two iterations of the loop are one step of the scan. -/
theorem loop_two (f : Nat) (m : Machine) (cs : List Char)
    (hrec : ∀ m', cs.headD NUL ≠ NUL →
      (loop (f + 1) m' cs.tail = some (scan m' cs.tail) ∧
       loop f m' cs.tail = some (scan m' cs.tail))) :
    loop (f + 2) m cs = some (scan m cs) := by
  rw [scan_unfold, loop_succ, feed]
  cases h1 : dispatch m (cs.headD NUL) with
  | halt o => rfl
  | advance m1 =>
    dsimp only
    by_cases hc : cs.headD NUL = NUL
    · rw [if_pos hc, if_pos hc]
    · rw [if_neg hc, if_neg hc]
      exact (hrec m1 hc).1
  | again m1 =>
    dsimp only
    have hm1 := (dispatch_again h1).2
    rw [loop_succ]
    cases h2 : dispatch m1 (cs.headD NUL) with
    | halt o => rfl
    | advance m2 =>
      dsimp only
      by_cases hc : cs.headD NUL = NUL
      · rw [if_pos hc, if_pos hc]
      · rw [if_neg hc, if_neg hc]
        exact (hrec m2 hc).2
    | again m2 =>
      exact absurd h2 (dispatch_evaluation_ne_again (by rw [hm1]))

/-- With two iterations for every character and for the terminator the loop
does not run out of iterations, and it computes `scan`. -/
theorem loop_eq_scan : ∀ (cs : List Char) (m : Machine) (fuel : Nat),
    2 * (cs.length + 1) ≤ fuel → loop fuel m cs = some (scan m cs) := by
  intro cs
  induction cs with
  | nil =>
    intro m fuel hf
    obtain ⟨f, rfl⟩ : ∃ f, fuel = f + 2 := ⟨fuel - 2, by simp at hf; omega⟩
    refine loop_two f m [] ?_
    intro m' h
    exact absurd rfl h
  | cons c cs ih =>
    intro m fuel hf
    obtain ⟨f, rfl⟩ : ∃ f, fuel = f + 2 := ⟨fuel - 2, by simp at hf; omega⟩
    have hf0 : 2 * (cs.length + 1) ≤ f := by simp at hf; omega
    refine loop_two f m (c :: cs) ?_
    intro m' _
    exact ⟨ih m' (f + 1) (by omega), ih m' f hf0⟩

theorem evaluate_eq_scan (s : List Char) : evaluate s = some (scan Machine.init s) :=
  loop_eq_scan s _ _ (le_refl _)

/-! ## One character in each state -/

theorem feed_expression {m : Machine} (c : Char) (hs : m.state = .Expression) :
    feed m c =
      if c = '-' ∨ isDigit c then
        .ok { m with numberString := m.numberString ++ [c], state := .Number }
      else if c = '(' then
        .ok { m with stack := (m.result, m.op) :: m.stack, result := 0, op := .Add }
      else if isSpace c then .ok m
      else .error .rejected := by
  simp only [feed, dispatch, hs, expressionArm]
  split_ifs <;> rfl

theorem feed_evaluation {m : Machine} (c : Char) (hs : m.state = .Evaluation) :
    feed m c =
      match parseNumber m with
      | .error o => .error o
      | .ok m' => evaluationFeed m' c := by
  simp only [feed, dispatch, hs, evaluationFeed]
  cases parseNumber m with
  | error o => rfl
  | ok m' =>
    dsimp only
    cases h : evaluationArm m' c with
    | halt o => rfl
    | advance m1 => rfl
    | again m1 => exact absurd h (evaluationArm_ne_again _ _ _)

theorem feed_number {m : Machine} (c : Char) (hs : m.state = .Number) :
    feed m c =
      if isDigit c then .ok { m with numberString := m.numberString ++ [c] }
      else if c = '+' ∨ c = '-' ∨ c = '*' ∨ c = '/' ∨ c = ')' ∨ c = NUL then
        feed { m with state := .Evaluation } c
      else if isSpace c then .ok { m with state := .Evaluation }
      else .error .rejected := by
  by_cases h1 : isDigit c = true
  · simp [feed, dispatch, hs, numberArm, h1]
  · by_cases h2 : c = '+' ∨ c = '-' ∨ c = '*' ∨ c = '/' ∨ c = ')' ∨ c = NUL
    · rw [if_neg h1, if_pos h2]
      have : dispatch m c = .again { m with state := .Evaluation } := by
        simp only [dispatch, hs, numberArm, if_neg h1, if_pos h2]
      rw [feed, this]
      dsimp only
      rw [feed]
      cases h : dispatch { m with state := .Evaluation } c with
      | halt o => rfl
      | advance m1 => rfl
      | again m1 => exact absurd h (dispatch_evaluation_ne_again rfl)
    · by_cases h3 : isSpace c = true
      · simp [feed, dispatch, hs, numberArm, h1, h2, h3]
      · simp [feed, dispatch, hs, numberArm, h1, h2, h3]

/-! ## Converting the pending numeral -/

theorem parseNumber_props {m m' : Machine} (h : parseNumber m = .ok m') :
    m'.numberString = [] ∧ m'.state = m.state ∧ m'.stack = m.stack ∧ m'.op = m.op := by
  unfold parseNumber at h
  split_ifs at h with h1 h2
  · simp only [Except.ok.injEq] at h
    subst h
    exact ⟨h1, rfl, rfl, rfl⟩
  · split at h
    · simp at h
    · split_ifs at h
      split at h
      · simp at h
      · simp at h
      · simp only [Except.ok.injEq] at h
        subst h
        exact ⟨rfl, rfl, rfl, rfl⟩

/-- The block leaves the function by `return false` or in the division of
`INT_MIN` by `-1`, and in no other way. -/
theorem parseNumber_error {m : Machine} {o : Outcome} (h : parseNumber m = .error o) :
    o = .rejected ∨ o = .undefined := by
  unfold parseNumber at h
  split_ifs at h with h1 h2
  · simp only [Except.error.injEq] at h
    exact Or.inl h.symm
  · split at h
    · simp only [Except.error.injEq] at h
      exact Or.inl h.symm
    · split_ifs at h
      · simp only [Except.error.injEq] at h
        exact Or.inl h.symm
      · split at h
        · simp only [Except.error.injEq] at h
          exact Or.inl h.symm
        · simp only [Except.error.injEq] at h
          exact Or.inr h.symm
        · simp at h

theorem parseNumber_settled {m : Machine} (h : m.numberString = []) :
    parseNumber m = .ok m := by
  simp [parseNumber, h]

theorem parseNumber_idem {m m' : Machine} (h : parseNumber m = .ok m') :
    parseNumber m' = .ok m' :=
  parseNumber_settled (parseNumber_props h).1

theorem feed_of_parse {m m' : Machine} (c : Char) (hs : m.state = .Evaluation)
    (h : parseNumber m = .ok m') : feed m c = feed m' c := by
  have hs' : m'.state = .Evaluation := by rw [(parseNumber_props h).2.1, hs]
  rw [feed_evaluation c hs, feed_evaluation c hs', h, parseNumber_idem h]

theorem feed_of_parse_none {m : Machine} {o : Outcome} (c : Char) (hs : m.state = .Evaluation)
    (h : parseNumber m = .error o) : feed m c = .error o := by
  rw [feed_evaluation c hs, h]

theorem atEnd_of_parse {m m' : Machine} (hs : m.state = .Evaluation)
    (h : parseNumber m = .ok m') : atEnd m = atEnd m' := by
  simp only [atEnd, feed_of_parse NUL hs h]

theorem scan_of_parse {m m' : Machine} (cs : List Char) (hs : m.state = .Evaluation)
    (h : parseNumber m = .ok m') : scan m cs = scan m' cs := by
  cases cs with
  | nil => simp only [scan, atEnd_of_parse hs h]
  | cons c cs => simp only [scan, atEnd_of_parse hs h, feed_of_parse c hs h]

theorem scan_of_parse_none {m : Machine} {o : Outcome} (cs : List Char)
    (hs : m.state = .Evaluation) (h : parseNumber m = .error o) : scan m cs = o := by
  cases cs with
  | nil => simp only [scan, atEnd, feed_of_parse_none NUL hs h]
  | cons c cs =>
    simp only [scan, atEnd, feed_of_parse_none _ hs h]
    split_ifs <;> rfl

/-! ## The evaluation arm, character by character -/

theorem evaluationFeed_op (m : Machine) (o : Op) :
    evaluationFeed m (opChar o) = .ok { m with op := o, state := .Expression } := by
  cases o <;> simp [evaluationFeed, evaluationArm, opChar]

theorem evaluationFeed_space (m : Machine) {c : Char} (hc : isSpace c = true) :
    evaluationFeed m c = .ok m := by
  have h : c = ' ' ∨ c = '\t' ∨ c = '\n' ∨ c = '\r' := by
    simpa [isSpace, or_assoc] using hc
  rcases h with rfl | rfl | rfl | rfl <;> simp [evaluationFeed, evaluationArm, NUL, isSpace]

theorem evaluationFeed_nul (m : Machine) : evaluationFeed m NUL = .ok m := by
  simp [evaluationFeed, evaluationArm, NUL]

theorem evaluationFeed_close (m : Machine) :
    evaluationFeed m ')' =
      match m.stack with
      | [] => .error .rejected
      | (saved, savedOp) :: rest =>
        match processNumber saved m.result savedOp with
        | .thrown => .error .uncaught
        | .undefined => .error .undefined
        | .value r => .ok { m with result := r, stack := rest } := by
  simp only [evaluationFeed, evaluationArm]
  simp only [Char.reduceEq, if_false, if_true]
  cases m.stack with
  | nil => rfl
  | cons f rest =>
    obtain ⟨saved, savedOp⟩ := f
    dsimp only
    cases processNumber saved m.result savedOp <;> rfl

theorem evaluationFeed_other (m : Machine) {c : Char}
    (h1 : c ≠ '+') (h2 : c ≠ '-') (h3 : c ≠ '*') (h4 : c ≠ '/') (h5 : c ≠ ')')
    (h6 : c ≠ NUL) (h7 : isSpace c = false) :
    evaluationFeed m c = .error .rejected := by
  simp [evaluationFeed, evaluationArm, h1, h2, h3, h4, h5, h6, h7]

/-! ## Characters that leave the variables alone -/

theorem isSpace_ne_nul {c : Char} (hc : isSpace c = true) : c ≠ NUL := by
  rintro rfl
  revert hc
  decide

theorem isDigit_ne_nul {c : Char} (hc : isDigit c = true) : c ≠ NUL := by
  rintro rfl
  revert hc
  decide

theorem isSpace_not_digit {c : Char} (hc : isSpace c = true) : isDigit c = false := by
  have h : c = ' ' ∨ c = '\t' ∨ c = '\n' ∨ c = '\r' := by
    simpa [isSpace, or_assoc] using hc
  rcases h with rfl | rfl | rfl | rfl <;> rfl

theorem opChar_not_digit (o : Op) : isDigit (opChar o) = false := by
  cases o <;> rfl

theorem opChar_not_space (o : Op) : isSpace (opChar o) = false := by
  cases o <;> rfl

theorem opChar_ne_nul (o : Op) : opChar o ≠ NUL := by
  cases o <;> decide

theorem feed_space_expression {m : Machine} {c : Char} (hs : m.state = .Expression)
    (hc : isSpace c = true) : feed m c = .ok m := by
  have h : c = ' ' ∨ c = '\t' ∨ c = '\n' ∨ c = '\r' := by
    simpa [isSpace, or_assoc] using hc
  rw [feed_expression c hs]
  rcases h with rfl | rfl | rfl | rfl <;> simp [isDigit, isSpace]

theorem feed_space_settled {m : Machine} {c : Char} (hs : m.state = .Evaluation)
    (hn : m.numberString = []) (hc : isSpace c = true) : feed m c = .ok m := by
  rw [feed_evaluation c hs, parseNumber_settled hn]
  exact evaluationFeed_space m hc

theorem scan_spaces_expression {m : Machine} (hs : m.state = .Expression) :
    ∀ (w rest : List Char), AllSpace w → scan m (w ++ rest) = scan m rest := by
  intro w
  induction w with
  | nil => intro rest _; rfl
  | cons c w ih =>
    intro rest hw
    have hc : isSpace c = true := hw c (List.mem_cons_self _ _)
    simp only [List.cons_append, scan, if_neg (isSpace_ne_nul hc), feed_space_expression hs hc]
    exact ih rest (fun d hd => hw d (List.mem_cons_of_mem _ hd))

theorem scan_spaces_settled {m : Machine} (hs : m.state = .Evaluation)
    (hn : m.numberString = []) :
    ∀ (w rest : List Char), AllSpace w → scan m (w ++ rest) = scan m rest := by
  intro w
  induction w with
  | nil => intro rest _; rfl
  | cons c w ih =>
    intro rest hw
    have hc : isSpace c = true := hw c (List.mem_cons_self _ _)
    simp only [List.cons_append, scan, if_neg (isSpace_ne_nul hc), feed_space_settled hs hn hc]
    exact ih rest (fun d hd => hw d (List.mem_cons_of_mem _ hd))

/-! ## A numeral that has just ended -/

theorem endsNumeral_not_digit {c : Char} (h : endsNumeral c) : isDigit c = false := by
  rcases h with rfl | rfl | rfl | rfl | rfl | rfl <;> rfl

theorem numeralEndsAhead_noDigit {cs : List Char} (h : numeralEndsAhead cs) :
    noDigitAhead cs := by
  cases cs with
  | nil => trivial
  | cons c cs =>
    rcases h with h | h
    · exact endsNumeral_not_digit h
    · exact isSpace_not_digit h

/-- In the number state an operator, `)`, the terminator or whitespace is
handled as the evaluation state handles it. -/
theorem scan_number (m : Machine) (cs : List Char) (hs : m.state = .Number)
    (hcs : numeralEndsAhead cs) : scan m cs = scan { m with state := .Evaluation } cs := by
  have hnul : feed m NUL = feed { m with state := .Evaluation } NUL := by
    rw [feed_number NUL hs]
    simp [isDigit, NUL]
  cases cs with
  | nil => simp only [scan, atEnd, hnul]
  | cons c cs =>
    have hd : isDigit c = false := numeralEndsAhead_noDigit hcs
    by_cases hc : c = NUL
    · subst hc
      simp only [scan, atEnd, hnul]
    · simp only [scan, if_neg hc]
      rw [feed_number c hs]
      simp only [hd, Bool.false_eq_true, if_false]
      by_cases h2 : c = '+' ∨ c = '-' ∨ c = '*' ∨ c = '/' ∨ c = ')' ∨ c = NUL
      · rw [if_pos h2]
      · rw [if_neg h2]
        have hE : ({ m with state := .Evaluation } : Machine).state = .Evaluation := rfl
        rw [feed_evaluation c hE]
        have h3 : isSpace c = true := by
          rcases hcs with h | h
          · exact absurd h h2
          · exact h
        rw [if_pos h3]
        cases hp : parseNumber { m with state := .Evaluation } with
        | error o =>
          dsimp only
          exact scan_of_parse_none cs hE hp
        | ok m' =>
          dsimp only
          rw [evaluationFeed_space m' h3]
          exact scan_of_parse cs hE hp

/-- In the number state any other character that is no digit makes the
function return false, the pending numeral unread. -/
theorem scan_number_default (m : Machine) {c : Char} (cs : List Char) (hs : m.state = .Number)
    (hd : isDigit c = false) (he : ¬endsNumeral c) (hsp : isSpace c = false) :
    scan m (c :: cs) = .rejected := by
  have hc : c ≠ NUL := fun h => he (Or.inr (Or.inr (Or.inr (Or.inr (Or.inr h)))))
  rw [scan, if_neg hc, feed_number c hs]
  simp only [hd, Bool.false_eq_true, if_false]
  have he' : ¬(c = '+' ∨ c = '-' ∨ c = '*' ∨ c = '/' ∨ c = ')' ∨ c = NUL) := he
  rw [if_neg he']
  simp [hsp]

/-- In the evaluation state with nothing pending a character that is no digit,
ends no numeral and is no whitespace makes the function return false. -/
theorem scan_settled_default (m : Machine) {c : Char} (cs : List Char)
    (hs : m.state = .Evaluation) (hn : m.numberString = []) (he : ¬endsNumeral c)
    (hsp : isSpace c = false) : scan m (c :: cs) = .rejected := by
  have hc : c ≠ NUL := fun h => he (Or.inr (Or.inr (Or.inr (Or.inr (Or.inr h)))))
  unfold endsNumeral at he
  simp only [not_or] at he
  rw [scan, if_neg hc, feed_evaluation c hs, parseNumber_settled hn]
  dsimp only
  rw [evaluationFeed_other m he.1 he.2.1 he.2.2.1 he.2.2.2.1 he.2.2.2.2.1 he.2.2.2.2.2 hsp]

theorem machine_evaluation_eq {m : Machine} (hm : m.state = .Evaluation) :
    ({ m with state := .Evaluation } : Machine) = m := by
  cases m
  simp_all

/-- The ways the next character can be no digit. -/
theorem noDigitAhead_cases {cs : List Char} (h : noDigitAhead cs) :
    numeralEndsAhead cs ∨
      ∃ c cs', cs = c :: cs' ∧ isDigit c = false ∧ ¬endsNumeral c ∧ isSpace c = false := by
  cases cs with
  | nil => exact Or.inl trivial
  | cons c cs' =>
    by_cases he : endsNumeral c
    · exact Or.inl (Or.inl he)
    · by_cases hsp : isSpace c = true
      · exact Or.inl (Or.inr hsp)
      · exact Or.inr ⟨c, cs', rfl, h, he, by simpa using hsp⟩

/-- The scan from the number state or the evaluation state, when the pending
numeral is converted, with an operator, `)`, the terminator or whitespace
next. -/
theorem scan_settle_ends {m : Machine} (cs : List Char) (hs : m.state ≠ .Expression)
    (hcs : m.state = .Number → numeralEndsAhead cs) :
    scan m cs =
      match settle m with
      | .ok m' => scan m' cs
      | .error o => o := by
  have hE : ({ m with state := .Evaluation } : Machine).state = .Evaluation := rfl
  have key : scan { m with state := .Evaluation } cs =
      match settle m with
      | .ok m' => scan m' cs
      | .error o => o := by
    unfold settle
    cases hp : parseNumber { m with state := .Evaluation } with
    | error o => exact scan_of_parse_none cs hE hp
    | ok m' => exact scan_of_parse cs hE hp
  have hcases : m.state = .Expression ∨ m.state = .Evaluation ∨ m.state = .Number := by
    cases m.state
    · exact Or.inl rfl
    · exact Or.inr (Or.inl rfl)
    · exact Or.inr (Or.inr rfl)
  rcases hcases with hm | hm | hm
  · exact absurd hm hs
  · rw [← key, machine_evaluation_eq hm]
  · rw [scan_number m cs hm (hcs hm), key]

/-- The scan from the number state or the evaluation state is the scan from the
variables with the pending numeral converted. -/
theorem scan_settle {m m' : Machine} (cs : List Char) (hs : m.state ≠ .Expression)
    (hcs : m.state = .Number → noDigitAhead cs) (h : settle m = .ok m') :
    scan m cs = scan m' cs := by
  by_cases hm : m.state = .Number
  · rcases noDigitAhead_cases (hcs hm) with he | ⟨c, cs', rfl, hd, he, hsp⟩
    · rw [scan_settle_ends cs hs (fun _ => he), h]
    · obtain ⟨hns, hst, -, -⟩ := parseNumber_props h
      rw [scan_number_default m cs' hm hd he hsp, scan_settled_default m' cs' hst hns he hsp]
  · rw [scan_settle_ends cs hs (fun h' => absurd h' hm), h]

/-- When the pending numeral cannot be converted the function returns false. -/
theorem scan_settle_none {m : Machine} (cs : List Char) (hs : m.state ≠ .Expression)
    (hcs : m.state = .Number → noDigitAhead cs) (h : settle m = .error .rejected) :
    scan m cs = .rejected := by
  by_cases hm : m.state = .Number
  · rcases noDigitAhead_cases (hcs hm) with he | ⟨c, cs', rfl, hd, he, hsp⟩
    · rw [scan_settle_ends cs hs (fun _ => he), h]
    · exact scan_number_default m cs' hm hd he hsp
  · rw [scan_settle_ends cs hs (fun h' => absurd h' hm), h]

/-- When the pending numeral cannot be converted and combined, the function
is left as the conversion leaves it, provided an operator, `)`, the terminator
or whitespace is next. -/
theorem scan_settle_error {m : Machine} {o : Outcome} (cs : List Char)
    (hs : m.state ≠ .Expression) (hcs : m.state = .Number → numeralEndsAhead cs)
    (h : settle m = .error o) : scan m cs = o := by
  rw [scan_settle_ends cs hs hcs, h]

/-! ## Scanning a string in two parts -/

theorem scan_append (m : Machine) (s t : List Char) (hs : NUL ∉ s) :
    scan m (s ++ t) =
      match feedAll m s with
      | .ok m' => scan m' t
      | .error o => o := by
  induction s generalizing m with
  | nil => rfl
  | cons c s ih =>
    have hc : c ≠ NUL := fun h => hs (h ▸ List.mem_cons_self _ _)
    have hs' : NUL ∉ s := fun h => hs (List.mem_cons_of_mem _ h)
    simp only [List.cons_append, scan, if_neg hc, feedAll]
    cases feed m c with
    | error o => rfl
    | ok m' => exact ih m' hs'

theorem feedAll_append (m : Machine) (s t : List Char) :
    feedAll m (s ++ t) =
      match feedAll m s with
      | .ok m' => feedAll m' t
      | .error o => .error o := by
  induction s generalizing m with
  | nil => rfl
  | cons c s ih =>
    simp only [List.cons_append, feedAll]
    cases feed m c with
    | error o => rfl
    | ok m' => exact ih m'

theorem scan_eq_atEnd (m : Machine) (s : List Char) (hs : NUL ∉ s) :
    scan m s =
      match feedAll m s with
      | .ok m' => atEnd m'
      | .error o => o := by
  have := scan_append m s [] hs
  simpa [scan] using this

/-! ## Scanning a numeral -/

theorem isDigit_ne_minus {c : Char} (hc : isDigit c = true) : c ≠ '-' := by
  rintro rfl
  revert hc
  decide

theorem takeWhile_digits {ds : List Char} (h : ∀ c ∈ ds, isDigit c = true) :
    ds.takeWhile isDigit = ds := by
  induction ds with
  | nil => rfl
  | cons c ds ih =>
    rw [List.takeWhile_cons, if_pos (h c (List.mem_cons_self _ _)),
      ih (fun d hd => h d (List.mem_cons_of_mem _ hd))]

theorem stoi_numeral {n : Numeral} (hv : n.Valid) (hr : n.InRange) :
    stoi n.chars = some n.value := by
  obtain ⟨neg, ds⟩ := n
  obtain ⟨hne, hds⟩ := hv
  simp only at hne hds
  cases neg with
  | true =>
    have hr' : INT_MIN ≤ -(digitsValue ds : Int) ∧ -(digitsValue ds : Int) ≤ INT_MAX := by
      simpa [Numeral.InRange, Numeral.value] using hr
    simp [stoi, Numeral.chars, Numeral.value, takeWhile_digits hds, hne, hr'.1, hr'.2]
  | false =>
    have hr' : INT_MIN ≤ (digitsValue ds : Int) ∧ (digitsValue ds : Int) ≤ INT_MAX := by
      simpa [Numeral.InRange, Numeral.value] using hr
    cases ds with
    | nil => exact absurd rfl hne
    | cons d ds =>
      have hd : d ≠ '-' := isDigit_ne_minus (hds d (List.mem_cons_self _ _))
      simp [stoi, Numeral.chars, Numeral.value, takeWhile_digits hds, hd, hr'.1, hr'.2]

theorem feedAll_digits (m : Machine) (hs : m.state = .Number) :
    ∀ (ds : List Char), (∀ c ∈ ds, isDigit c = true) →
      feedAll m ds = .ok { m with numberString := m.numberString ++ ds } := by
  intro ds
  induction ds generalizing m with
  | nil => intro _; simp [feedAll]
  | cons c ds ih =>
    intro h
    have hc := h c (List.mem_cons_self _ _)
    rw [feedAll, feed_number c hs, if_pos hc]
    dsimp only
    have := ih { m with numberString := m.numberString ++ [c] } hs
      (fun d hd => h d (List.mem_cons_of_mem _ hd))
    rw [this]
    simp

theorem feedAll_numeral (m : Machine) (hs : m.state = .Expression)
    (hn : m.numberString = []) {n : Numeral} (hv : n.Valid) :
    feedAll m n.chars = .ok { m with numberString := n.chars, state := .Number } := by
  obtain ⟨neg, ds⟩ := n
  obtain ⟨hne, hds⟩ := hv
  simp only at hne hds
  cases neg with
  | true =>
    show feedAll m ('-' :: ds) = _
    rw [feedAll, feed_expression '-' hs]
    simp only [true_or, if_true]
    have := feedAll_digits
      { m with numberString := m.numberString ++ ['-'], state := .Number } rfl ds hds
    rw [this]
    simp [hn, Numeral.chars]
  | false =>
    cases ds with
    | nil => exact absurd rfl hne
    | cons d ds =>
      have hd : isDigit d = true := hds d (List.mem_cons_self _ _)
      show feedAll m (d :: ds) = _
      rw [feedAll, feed_expression d hs]
      simp only [hd, or_true, if_true]
      have := feedAll_digits
        { m with numberString := m.numberString ++ [d], state := .Number } rfl ds
        (fun c hc => hds c (List.mem_cons_of_mem _ hc))
      rw [this]
      simp [hn, Numeral.chars]

theorem numeral_no_nul {n : Numeral} (hv : n.Valid) : NUL ∉ n.chars := by
  obtain ⟨neg, ds⟩ := n
  intro h
  have hds : NUL ∉ ds := fun h' => isDigit_ne_nul (hv.2 NUL h') rfl
  cases neg with
  | true =>
    simp only [Numeral.chars, if_true, List.singleton_append, List.mem_cons] at h
    rcases h with h | h
    · revert h; decide
    · exact hds h
  | false =>
    simp only [Numeral.chars, Bool.false_eq_true, if_false, List.nil_append] at h
    exact hds h

theorem numeral_ne_minus {n : Numeral} (hv : n.Valid) : n.chars ≠ ['-'] := by
  obtain ⟨neg, ds⟩ := n
  obtain ⟨hne, hds⟩ := hv
  simp only at hne hds
  cases neg with
  | true => simp [Numeral.chars, hne]
  | false =>
    simp only [Numeral.chars, Bool.false_eq_true, if_false, List.nil_append]
    rintro rfl
    exact absurd (hds '-' (List.mem_singleton_self _)) (by decide)

theorem numeral_ne_nil {n : Numeral} (hv : n.Valid) : n.chars ≠ [] := by
  obtain ⟨neg, ds⟩ := n
  cases neg with
  | true => simp [Numeral.chars]
  | false => simpa [Numeral.chars] using hv.1

/-- The lambda returns, with the wrapped value of the operation, unless it
divides by 0 or divides `INT_MIN` by `-1`. -/
theorem processNumber_value (a b : Int) (o : Op) (hz : ¬(b = 0 ∧ o = .Divide))
    (ht : ¬(o = .Divide ∧ a = INT_MIN ∧ b = -1)) :
    processNumber a b o = .value (wrapInt (o.apply a b)) := by
  cases o with
  | Add => rfl
  | Minus => rfl
  | Multiply => rfl
  | Divide =>
    have h0 : b ≠ 0 := fun h => hz ⟨h, rfl⟩
    have h1 : ¬(a = INT_MIN ∧ b = -1) := fun h => ht ⟨rfl, h⟩
    simp only [processNumber, if_neg h0, if_neg h1, Op.apply]

/-- The lambda divides `INT_MIN` by `-1`. -/
theorem processNumber_undefined : processNumber INT_MIN (-1) .Divide = .undefined := by
  decide

/-- What the block does with a numeral in range: a zero divisor is refused,
the value is combined otherwise. -/
theorem parseNumber_combine (m : Machine) {n : Numeral} (hv : n.Valid) (hr : n.InRange)
    (hz : ¬(n.value = 0 ∧ m.op = .Divide)) :
    parseNumber { m with numberString := n.chars } =
      match processNumber m.result n.value m.op with
      | .thrown => .error .rejected
      | .undefined => .error .undefined
      | .value r => .ok { m with result := r, numberString := [] } := by
  simp only [parseNumber, numeral_ne_nil hv, numeral_ne_minus hv, if_false, stoi_numeral hv hr,
    hz]

/-- A numeral in range whose value is not a zero divisor, and not the divisor
`-1` of `INT_MIN`, is converted and combined. -/
theorem parseNumber_numeral (m : Machine) {n : Numeral} (hv : n.Valid) (hr : n.InRange)
    (hz : ¬(n.value = 0 ∧ m.op = .Divide))
    (ht : ¬(m.op = .Divide ∧ m.result = INT_MIN ∧ n.value = -1)) :
    ∃ r, processNumber m.result n.value m.op = .value r ∧
      parseNumber { m with numberString := n.chars } =
        .ok { m with result := r, numberString := [] } := by
  have hr' := processNumber_value m.result n.value m.op hz ht
  refine ⟨_, hr', ?_⟩
  rw [parseNumber_combine m hv hr hz, hr']

/-- A numeral read while a term is expected, followed by no digit, leaves the
variables as if its value had been combined at once. -/
theorem scan_numeral (m : Machine) (rest : List Char) (hs : m.state = .Expression)
    (hn : m.numberString = []) {n : Numeral} (hv : n.Valid) (hr : n.InRange)
    (hz : ¬(n.value = 0 ∧ m.op = .Divide))
    (ht : ¬(m.op = .Divide ∧ m.result = INT_MIN ∧ n.value = -1))
    (hrest : noDigitAhead rest) :
    ∃ r, processNumber m.result n.value m.op = .value r ∧
      scan m (n.chars ++ rest) = scan { m with result := r, state := .Evaluation } rest := by
  obtain ⟨r, hr1, hr2⟩ := parseNumber_numeral { m with state := .Evaluation } hv hr hz ht
  refine ⟨r, hr1, ?_⟩
  rw [scan_append m _ _ (numeral_no_nul hv), feedAll_numeral m hs hn hv]
  dsimp only
  have hset : settle { m with numberString := n.chars, state := .Number } =
      .ok { m with result := r, state := .Evaluation, numberString := [] } := hr2
  rw [scan_settle rest (by simp) (fun _ => hrest) hset]
  have : ({ m with result := r, state := .Evaluation, numberString := [] } : Machine) =
      { m with result := r, state := .Evaluation } := by
    cases m; simp_all
  rw [this]

/-! ## What the end of a successful scan looks like -/

theorem feed_nul_expression {m : Machine} (hs : m.state = .Expression) :
    feed m NUL = .error .rejected := by
  rw [feed_expression NUL hs]
  simp [NUL, isDigit, isSpace]

theorem feed_nul_settle {m : Machine} (hs : m.state ≠ .Expression) :
    feed m NUL =
      match settle m with
      | .error o => .error o
      | .ok m' => .ok m' := by
  have hE : ({ m with state := .Evaluation } : Machine).state = .Evaluation := rfl
  have key : feed { m with state := .Evaluation } NUL =
      match settle m with
      | .error o => .error o
      | .ok m' => .ok m' := by
    rw [feed_evaluation NUL hE, settle]
    cases parseNumber { m with state := .Evaluation } with
    | error o => rfl
    | ok m' => exact evaluationFeed_nul m'
  cases hm : m.state with
  | Expression => exact absurd hm hs
  | Number =>
    rw [feed_number NUL hm]
    simpa [isDigit, NUL] using key
  | Evaluation =>
    have : ({ m with state := .Evaluation } : Machine) = m := by
      cases m; simp_all
    rw [this] at key
    exact key

/-- The scan ends with `true` only outside the expression state, with the
pending numeral convertible and the stack empty. -/
theorem atEnd_accepted {m : Machine} {v : Int} (h : atEnd m = .accepted v) :
    m.state ≠ .Expression ∧ ∃ m', settle m = .ok m' ∧ m'.stack = [] ∧ m'.result = v := by
  have hs : m.state ≠ .Expression := by
    intro hs
    rw [atEnd, feed_nul_expression hs] at h
    cases h
  refine ⟨hs, ?_⟩
  rw [atEnd, feed_nul_settle hs] at h
  cases hset : settle m with
  | error o =>
    rw [hset] at h
    dsimp only at h
    subst h
    rcases parseNumber_error hset with h' | h' <;> cases h'
  | ok m' =>
    rw [hset] at h
    refine ⟨m', rfl, ?_⟩
    simp only [finish] at h
    split_ifs at h with hst
    exact ⟨hst, by injection h⟩

theorem settle_props {m m' : Machine} (h : settle m = .ok m') :
    m'.numberString = [] ∧ m'.state = .Evaluation ∧ m'.stack = m.stack ∧ m'.op = m.op :=
  parseNumber_props h

theorem atEnd_settled {m : Machine} (hs : m.state = .Evaluation) (hn : m.numberString = []) :
    atEnd m = finish m := by
  rw [atEnd, feed_evaluation NUL hs, parseNumber_settled hn]
  dsimp only
  rw [evaluationFeed_nul]

/-- The outcome of `evaluate` on a string cut in two. -/
theorem evaluate_of_reaches {pre : List Char} {m : Machine} (h : Reaches pre m)
    (rest : List Char) : evaluate (pre ++ rest) = some (scan m rest) := by
  rw [evaluate_eq_scan, scan_append _ _ _ h.1, h.2]

theorem evaluationFeed_error {m : Machine} {c : Char} {o : Outcome}
    (h : evaluationFeed m c = .error o) :
    o = .rejected ∨ o = .uncaught ∨ o = .undefined := by
  unfold evaluationFeed evaluationArm at h
  split at h
  · rename_i o' ho
    simp only [Except.error.injEq] at h
    subst h
    split_ifs at ho
    · split at ho
      · simp only [Step.halt.injEq] at ho; exact Or.inl ho.symm
      · split at ho
        · simp only [Step.halt.injEq] at ho; exact Or.inr (Or.inl ho.symm)
        · simp only [Step.halt.injEq] at ho; exact Or.inr (Or.inr ho.symm)
        · cases ho
    · simp only [Step.halt.injEq] at ho; exact Or.inl ho.symm
  · cases h
  · simp only [Except.error.injEq] at h; exact Or.inl h.symm

/-- The function is left inside the loop only by `return false`, by the
exception or in the division of `INT_MIN` by `-1`. -/
theorem feed_error {m : Machine} {c : Char} {o : Outcome} (h : feed m c = .error o) :
    o = .rejected ∨ o = .uncaught ∨ o = .undefined := by
  have hE : ∀ m' : Machine, m'.state = .Evaluation → feed m' c = .error o →
      o = .rejected ∨ o = .uncaught ∨ o = .undefined := by
    intro m' hs' h'
    rw [feed_evaluation c hs'] at h'
    cases hp : parseNumber m' with
    | error o' =>
      rw [hp] at h'
      simp only [Except.error.injEq] at h'
      subst h'
      rcases parseNumber_error hp with h'' | h''
      · exact Or.inl h''
      · exact Or.inr (Or.inr h'')
    | ok m'' => rw [hp] at h'; exact evaluationFeed_error h'
  cases hs : m.state with
  | Expression =>
    rw [feed_expression c hs] at h
    split_ifs at h
    simp only [Except.error.injEq] at h
    exact Or.inl h.symm
  | Evaluation => exact hE m hs h
  | Number =>
    rw [feed_number c hs] at h
    split_ifs at h
    · exact hE _ rfl h
    · simp only [Except.error.injEq] at h
      exact Or.inl h.symm

theorem feedAll_error {s : List Char} {m : Machine} {o : Outcome}
    (h : feedAll m s = .error o) : o = .rejected ∨ o = .uncaught ∨ o = .undefined := by
  induction s generalizing m with
  | nil => cases h
  | cons c s ih =>
    rw [feedAll] at h
    cases hf : feed m c with
    | error o' =>
      rw [hf] at h
      simp only [Except.error.injEq] at h
      subst h
      exact feed_error hf
    | ok m' =>
      rw [hf] at h
      exact ih h

theorem reaches_of_accepted {s : List Char} {v : Int} (hs : NUL ∉ s)
    (h : evaluate s = some (.accepted v)) :
    ∃ m, Reaches s m ∧ atEnd m = .accepted v := by
  rw [evaluate_eq_scan, scan_eq_atEnd _ _ hs] at h
  cases hf : feedAll Machine.init s with
  | error o =>
    rw [hf] at h
    simp only [Option.some.injEq] at h
    subst h
    rcases feedAll_error hf with h' | h' | h' <;> cases h'
  | ok m =>
    rw [hf] at h
    exact ⟨m, ⟨hs, hf⟩, by simpa using h⟩

/-! ## The numeral buffer is empty while a term is expected -/

theorem evaluationFeed_numberString {m m' : Machine} {c : Char}
    (h : evaluationFeed m c = .ok m') : m'.numberString = m.numberString := by
  unfold evaluationFeed evaluationArm at h
  split at h
  · cases h
  · rename_i m1 hm1
    simp only [Except.ok.injEq] at h
    subst h
    split_ifs at hm1
    all_goals first
      | (simp only [Step.advance.injEq] at hm1; subst hm1; rfl)
      | (split at hm1
         · cases hm1
         · split at hm1
           · cases hm1
           · cases hm1
           · simp only [Step.advance.injEq] at hm1; subst hm1; rfl)
  · cases h

theorem feed_numberString {m m' : Machine} {c : Char} (h : feed m c = .ok m')
    (hm : m.state = .Expression → m.numberString = []) :
    m'.state = .Expression → m'.numberString = [] := by
  have hE : ∀ m0 : Machine, m0.state = .Evaluation → feed m0 c = .ok m' →
      m'.state = .Expression → m'.numberString = [] := by
    intro m0 hs0 h0 _
    rw [feed_evaluation c hs0] at h0
    cases hp : parseNumber m0 with
    | error o => rw [hp] at h0; cases h0
    | ok m1 =>
      rw [hp] at h0
      rw [evaluationFeed_numberString h0]
      exact (parseNumber_props hp).1
  cases hs : m.state with
  | Expression =>
    rw [feed_expression c hs] at h
    split_ifs at h
    · simp only [Except.ok.injEq] at h; subst h; intro h'; cases h'
    · simp only [Except.ok.injEq] at h; subst h; intro _; exact hm hs
    · simp only [Except.ok.injEq] at h; subst h; intro _; exact hm hs
  | Evaluation => exact hE m hs h
  | Number =>
    rw [feed_number c hs] at h
    split_ifs at h
    · simp only [Except.ok.injEq] at h; subst h; intro h'; rw [hs] at h'; cases h'
    · exact hE _ rfl h
    · simp only [Except.ok.injEq] at h; subst h; intro h'; cases h'

theorem feedAll_numberString {s : List Char} {m m' : Machine} (h : feedAll m s = .ok m')
    (hm : m.state = .Expression → m.numberString = []) :
    m'.state = .Expression → m'.numberString = [] := by
  induction s generalizing m with
  | nil =>
    simp only [feedAll, Except.ok.injEq] at h
    subst h
    exact hm
  | cons c s ih =>
    rw [feedAll] at h
    cases hf : feed m c with
    | error o => rw [hf] at h; cases h
    | ok m1 =>
      rw [hf] at h
      exact ih h (feed_numberString hf hm)

theorem reaches_numberString {pre : List Char} {m : Machine} (h : Reaches pre m)
    (hs : m.state = .Expression) : m.numberString = [] :=
  feedAll_numberString h.2 (fun _ => rfl) hs

/-! ## Claim C10 -/

/-- Claim C10. A numeral that is a lone `-` is invalid: when a `-` is scanned
while a term is expected (the loop reaches it in the expression state) and the
character behind it is no digit, `evaluate` returns false. -/
theorem evaluate_lone_minus (pre post : List Char) (m : Machine)
    (hpre : Reaches pre m) (hterm : m.state = .Expression) (hnext : noDigitAhead post) :
    evaluate (pre ++ '-' :: post) = some .rejected := by
  have hns := reaches_numberString hpre hterm
  rw [evaluate_of_reaches hpre, scan, if_neg (by decide), feed_expression '-' hterm]
  simp only [true_or, if_true]
  refine congrArg some (scan_settle_none post (by simp) (fun _ => hnext) ?_)
  simp [settle, parseNumber, hns]

/-- The examples of C10: `--` and `--1` return false, the first `-` being the
lone numeral. -/
theorem evaluate_lone_minus_witness :
    (Reaches [] Machine.init ∧ Machine.init.state = .Expression ∧ noDigitAhead ['-'] ∧
      evaluate ([] ++ '-' :: ['-']) = some .rejected) ∧
    (noDigitAhead ['-', '1'] ∧ evaluate ([] ++ '-' :: ['-', '1']) = some .rejected) :=
  ⟨⟨⟨by simp, rfl⟩, rfl, by decide,
      evaluate_lone_minus [] ['-'] Machine.init ⟨by simp, rfl⟩ rfl (by decide)⟩,
    ⟨by decide,
      evaluate_lone_minus [] ['-', '1'] Machine.init ⟨by simp, rfl⟩ rfl (by decide)⟩⟩

/-! ## The scan of a well-formed expression (claim C1) -/

theorem wrapInt_of_inInt {x : Int} (h : inInt x) : wrapInt x = x := by
  obtain ⟨h1, h2⟩ := h
  simp only [INT_MIN, INT_MAX] at h1 h2
  unfold wrapInt
  rw [Int.emod_eq_of_lt (by omega) (by omega)]
  omega

theorem processNumber_eq_apply (a b : Int) (o : Op) (hz : o = .Divide → b ≠ 0)
    (ht : ¬(o = .Divide ∧ a = INT_MIN ∧ b = -1)) :
    processNumber a b o = .value (wrapInt (o.apply a b)) :=
  processNumber_value a b o (fun h => hz h.2 h.1) ht

/-- A quotient in the range of `int` is not that of `INT_MIN` by `-1`. -/
theorem not_undefined_of_inInt {a b : Int} {o : Op} (h : inInt (o.apply a b)) :
    ¬(o = .Divide ∧ a = INT_MIN ∧ b = -1) := by
  rintro ⟨rfl, rfl, rfl⟩
  revert h
  decide

theorem inInt_value_of_safe {e : Expr} (h : e.Safe) : inInt e.value := by
  induction e with
  | num n w => exact h
  | group w₁ e w₂ ih => exact ih h
  | binary l o w r _ _ => exact h.2.2.2

theorem noDigitAhead_spaces {w rest : List Char} (hw : AllSpace w) (hrest : noDigitAhead rest) :
    noDigitAhead (w ++ rest) := by
  cases w with
  | nil => exact hrest
  | cons c w => exact isSpace_not_digit (hw c (List.mem_cons_self _ _))

theorem scan_open (m : Machine) (rest : List Char) (hs : m.state = .Expression) :
    scan m ('(' :: rest) =
      scan { m with stack := (m.result, m.op) :: m.stack, result := 0, op := .Add } rest := by
  rw [scan, if_neg (by decide), feed_expression '(' hs]
  simp [isDigit]

theorem scan_operator (m : Machine) (o : Op) (rest : List Char) (hs : m.state = .Evaluation)
    (hn : m.numberString = []) :
    scan m (opChar o :: rest) = scan { m with op := o, state := .Expression } rest := by
  rw [scan, if_neg (opChar_ne_nul o), feed_evaluation _ hs, parseNumber_settled hn]
  dsimp only
  rw [evaluationFeed_op]

theorem scan_close (m : Machine) (rest : List Char) (hs : m.state = .Evaluation)
    (hn : m.numberString = []) {saved r : Int} {savedOp : Op} {st : List (Int × Op)}
    (hst : m.stack = (saved, savedOp) :: st)
    (hr : processNumber saved m.result savedOp = .value r) :
    scan m (')' :: rest) = scan { m with result := r, stack := st } rest := by
  rw [scan, if_neg (by decide), feed_evaluation _ hs, parseNumber_settled hn]
  dsimp only
  rw [evaluationFeed_close, hst]
  dsimp only
  rw [hr]

/-- A term scanned while a term is expected is combined with the running result
by the pending operator; an expression scanned from the reset variables leaves
its reference value. -/
theorem scan_expr (e : Expr) (hv : e.Valid) (hs : e.Safe) :
    (∀ (m : Machine) (rest : List Char), m.state = .Expression → m.numberString = [] →
      m.result = 0 → m.op = .Add → noDigitAhead rest →
      ∃ o', scan m (e.render ++ rest) =
        scan { m with result := e.value, op := o', state := .Evaluation } rest) ∧
    (e.IsTerm → ∀ (m : Machine) (rest : List Char), m.state = .Expression →
      m.numberString = [] → (m.op = .Divide → e.value ≠ 0) →
      ¬(m.op = .Divide ∧ m.result = INT_MIN ∧ e.value = -1) → noDigitAhead rest →
      ∃ o', scan m (e.render ++ rest) =
        scan { m with result := wrapInt (m.op.apply m.result e.value), op := o',
                      state := .Evaluation } rest) := by
  induction e with
  | num n w =>
    obtain ⟨hn, hw⟩ := hv
    have hterm : ∀ (m : Machine) (rest : List Char), m.state = .Expression →
        m.numberString = [] → (m.op = .Divide → n.value ≠ 0) →
        ¬(m.op = .Divide ∧ m.result = INT_MIN ∧ n.value = -1) → noDigitAhead rest →
        ∃ o', scan m (n.chars ++ w ++ rest) =
          scan { m with result := wrapInt (m.op.apply m.result n.value), op := o',
                        state := .Evaluation } rest := by
      intro m rest hst hns hz ht hrest
      obtain ⟨r, hr1, hr2⟩ := scan_numeral m (w ++ rest) hst hns hn hs
        (fun h => hz h.2 h.1) ht (noDigitAhead_spaces hw hrest)
      rw [processNumber_eq_apply _ _ _ hz ht] at hr1
      simp only [Computed.value.injEq] at hr1
      subst hr1
      refine ⟨m.op, ?_⟩
      rw [List.append_assoc, hr2]
      exact scan_spaces_settled
        (m := { m with result := wrapInt (m.op.apply m.result n.value), state := .Evaluation })
        rfl hns w rest hw
    refine ⟨?_, fun _ => hterm⟩
    intro m rest hst hns hres hop hrest
    obtain ⟨o', ho'⟩ := hterm m rest hst hns (fun h => by rw [hop] at h; cases h)
      (fun h => by rw [hop] at h; cases h.1) hrest
    refine ⟨o', ?_⟩
    rw [Expr.render, ho', hop, hres]
    have : wrapInt (Op.Add.apply 0 n.value) = n.value := by
      simp only [Op.apply, zero_add]
      exact wrapInt_of_inInt hs
    rw [this, Expr.value]
  | group w₁ e w₂ ih =>
    obtain ⟨hw₁, hve, hw₂⟩ := hv
    have hse : e.Safe := hs
    obtain ⟨ihE, -⟩ := ih hve hse
    have hterm : ∀ (m : Machine) (rest : List Char), m.state = .Expression →
        m.numberString = [] → (m.op = .Divide → e.value ≠ 0) →
        ¬(m.op = .Divide ∧ m.result = INT_MIN ∧ e.value = -1) → noDigitAhead rest →
        ∃ o', scan m ('(' :: w₁ ++ e.render ++ ')' :: w₂ ++ rest) =
          scan { m with result := wrapInt (m.op.apply m.result e.value), op := o',
                        state := .Evaluation } rest := by
      intro m rest hst hns hz ht _
      obtain ⟨o', ho'⟩ := ihE
        { m with stack := (m.result, m.op) :: m.stack, result := 0, op := .Add }
        (')' :: w₂ ++ rest) hst hns rfl rfl (show isDigit ')' = false from rfl)
      refine ⟨o', ?_⟩
      have e1 : '(' :: w₁ ++ e.render ++ ')' :: w₂ ++ rest =
          '(' :: (w₁ ++ (e.render ++ (')' :: w₂ ++ rest))) := by simp
      rw [e1, scan_open m _ hst, scan_spaces_expression
        (m := { m with stack := (m.result, m.op) :: m.stack, result := 0, op := .Add })
        hst _ _ hw₁, ho', List.cons_append]
      have h2 := scan_close
        { m with stack := (m.result, m.op) :: m.stack, result := e.value, op := o',
                 state := .Evaluation }
        (w₂ ++ rest) rfl hns rfl (processNumber_eq_apply _ _ _ hz ht)
      rw [h2]
      exact scan_spaces_settled
        (m := { m with result := wrapInt (m.op.apply m.result e.value), op := o',
                       state := .Evaluation }) rfl hns w₂ rest hw₂
    refine ⟨?_, fun _ => hterm⟩
    intro m rest hst hns hres hop hrest
    obtain ⟨o', ho'⟩ := hterm m rest hst hns (fun h => by rw [hop] at h; cases h)
      (fun h => by rw [hop] at h; cases h.1) hrest
    refine ⟨o', ?_⟩
    rw [Expr.render, ho', hop, hres]
    have : wrapInt (Op.Add.apply 0 e.value) = e.value := by
      simp only [Op.apply, zero_add]
      exact wrapInt_of_inInt (inInt_value_of_safe hse)
    rw [this, Expr.value]
  | binary l o w r ihl ihr =>
    obtain ⟨hvl, hw, hvr, htr⟩ := hv
    obtain ⟨hsl, hsr, hz, hin⟩ := hs
    obtain ⟨ihlE, -⟩ := ihl hvl hsl
    obtain ⟨-, ihrT⟩ := ihr hvr hsr
    refine ⟨?_, fun h => absurd h (fun h' => h')⟩
    intro m rest hst hns hres hop hrest
    obtain ⟨o₁, ho₁⟩ := ihlE m (opChar o :: w ++ (r.render ++ rest)) hst hns hres hop
      (opChar_not_digit o)
    obtain ⟨o₂, ho₂⟩ := ihrT htr
      { m with result := l.value, op := o, state := .Expression } rest rfl hns hz
      (not_undefined_of_inInt hin) hrest
    refine ⟨o₂, ?_⟩
    have e1 : (Expr.binary l o w r).render ++ rest =
        l.render ++ (opChar o :: w ++ (r.render ++ rest)) := by simp [Expr.render]
    rw [e1, ho₁, List.cons_append]
    have h2 := scan_operator { m with result := l.value, op := o₁, state := .Evaluation } o
      (w ++ (r.render ++ rest)) rfl hns
    rw [h2]
    have h3 := scan_spaces_expression
      (m := { m with result := l.value, op := o, state := .Expression }) rfl w
      (r.render ++ rest) hw
    rw [h3, ho₂]
    dsimp only
    rw [wrapInt_of_inInt hin, Expr.value]

/-- Claim C1. For every well-formed expression, as a tree of the grammar with any
whitespace in front of and behind its tokens, whose numerals are in the range of
`int`, in which no division has a zero right operand and no intermediate value
leaves the range of `int`, `evaluate` returns true and the result is the value
of the reference evaluator, which resolves parenthesised groups first and
applies the operators from left to right without precedence. -/
theorem evaluate_eq_reference (lead : List Char) (e : Expr)
    (hl : AllSpace lead) (hv : e.Valid) (hs : e.Safe) :
    evaluate (lead ++ e.render) = some (.accepted e.value) := by
  obtain ⟨o', ho'⟩ := (scan_expr e hv hs).1 Machine.init [] rfl rfl rfl rfl trivial
  rw [List.append_nil] at ho'
  rw [evaluate_eq_scan, scan_spaces_expression rfl _ _ hl, ho', scan]
  have h4 : atEnd { Machine.init with result := e.value, op := o', state := .Evaluation } =
      finish { Machine.init with result := e.value, op := o', state := .Evaluation } :=
    atEnd_settled rfl rfl
  rw [h4]
  rfl

/-! ## Only well-formed expressions are accepted (claim C2) -/

theorem render_addSpace (c : Char) (e : Expr) :
    (e.addSpace c).render = e.render ++ [c] := by
  induction e with
  | num n w => simp [Expr.addSpace, Expr.render]
  | group w₁ e w₂ _ => simp [Expr.addSpace, Expr.render]
  | binary l o w r _ ihr => simp [Expr.addSpace, Expr.render, ihr]

theorem allSpace_append {w₁ w₂ : List Char} (h₁ : AllSpace w₁) (h₂ : AllSpace w₂) :
    AllSpace (w₁ ++ w₂) := by
  intro c hc
  rcases List.mem_append.mp hc with h | h
  · exact h₁ c h
  · exact h₂ c h

theorem allSpace_nil : AllSpace [] := fun _ h => absurd h (List.not_mem_nil _)

theorem allSpace_singleton {c : Char} (h : isSpace c = true) : AllSpace [c] := by
  intro d hd
  rw [List.mem_singleton] at hd
  rw [hd]
  exact h

theorem isTerm_addSpace (c : Char) {e : Expr} (h : e.IsTerm) : (e.addSpace c).IsTerm := by
  cases e with
  | num n w => trivial
  | group w₁ e w₂ => trivial
  | binary l o w r => exact h

theorem valid_addSpace {c : Char} (hc : isSpace c = true) {e : Expr} (h : e.Valid) :
    (e.addSpace c).Valid := by
  induction e with
  | num n w => exact ⟨h.1, allSpace_append h.2 (allSpace_singleton hc)⟩
  | group w₁ e w₂ _ => exact ⟨h.1, h.2.1, allSpace_append h.2.2 (allSpace_singleton hc)⟩
  | binary l o w r _ ihr =>
    exact ⟨h.1, h.2.1, ihr h.2.2.1, isTerm_addSpace c h.2.2.2⟩

theorem awaiting_nil : Awaiting [] := ⟨[], allSpace_nil, Or.inl rfl⟩

theorem awaiting_space {a : List Char} {c : Char} (h : Awaiting a) (hc : isSpace c = true) :
    Awaiting (a ++ [c]) := by
  obtain ⟨lead, hl, rfl | ⟨l, o, w, hv, hw, rfl⟩⟩ := h
  · exact ⟨a ++ [c], allSpace_append hl (allSpace_singleton hc), Or.inl rfl⟩
  · exact ⟨lead, hl, Or.inr ⟨l, o, w ++ [c], hv, allSpace_append hw (allSpace_singleton hc), by simp⟩⟩

/-- A term behind text that awaits one completes an expression. -/
theorem awaiting_plug {a : List Char} (h : Awaiting a) {t : Expr} (hv : t.Valid)
    (ht : t.IsTerm) : WellFormed (a ++ t.render) := by
  obtain ⟨lead, hl, rfl | ⟨l, o, w, hvl, hw, rfl⟩⟩ := h
  · exact ⟨a, t, hl, hv, rfl⟩
  · exact ⟨lead, .binary l o w t, hl, ⟨hvl, hw, hv, ht⟩, by simp [Expr.render]⟩

theorem wellFormed_operator {a : List Char} (h : WellFormed a) (o : Op) :
    Awaiting (a ++ [opChar o]) := by
  obtain ⟨lead, e, hl, hv, rfl⟩ := h
  exact ⟨lead, hl, Or.inr ⟨e, o, [], hv, allSpace_nil, by simp⟩⟩

theorem wellFormed_space {a : List Char} (h : WellFormed a) {c : Char}
    (hc : isSpace c = true) : WellFormed (a ++ [c]) := by
  obtain ⟨lead, e, hl, hv, rfl⟩ := h
  exact ⟨lead, e.addSpace c, hl, valid_addSpace hc hv, by
    rw [render_addSpace, List.append_assoc]⟩

theorem wellFormed_group {a₁ a : List Char} (h₁ : Awaiting a₁) (h : WellFormed a) :
    WellFormed (a₁ ++ '(' :: a ++ [')']) := by
  obtain ⟨lead, e, hl, hv, rfl⟩ := h
  have := awaiting_plug h₁ (t := .group lead e []) ⟨hl, hv, allSpace_nil⟩ trivial
  simpa [Expr.render] using this

theorem numeral_of_start {ns : List Char} (h : NumeralStart ns) (hm : ns ≠ ['-']) :
    ∃ n : Numeral, n.Valid ∧ n.chars = ns := by
  obtain ⟨c, ds, rfl, hc, hds⟩ := h
  by_cases hd : isDigit c = true
  · refine ⟨⟨false, c :: ds⟩, ⟨by simp, ?_⟩, by simp [Numeral.chars]⟩
    intro d hd'
    rcases List.mem_cons.mp hd' with h | h
    · rw [h]; exact hd
    · exact hds d h
  · have hc' : c = '-' := hc.resolve_right hd
    subst hc'
    have hne : ds ≠ [] := by
      rintro rfl
      exact hm rfl
    exact ⟨⟨true, ds⟩, ⟨hne, hds⟩, by simp [Numeral.chars]⟩

theorem parseNumber_ne_minus {m m' : Machine} (h : parseNumber m = .ok m') :
    m.numberString ≠ ['-'] := by
  intro hm
  simp [parseNumber, hm] at h

theorem pending_wellFormed {a₀ ns w : List Char} (ha : Awaiting a₀) (hw : AllSpace w)
    (hn : NumeralStart ns) (hm : ns ≠ ['-']) : WellFormed (a₀ ++ ns ++ w) := by
  obtain ⟨n, hv, rfl⟩ := numeral_of_start hn hm
  have := awaiting_plug ha (t := .num n w) ⟨hv, hw⟩ trivial
  simpa [Expr.render] using this

theorem machine_eta_evaluation {m : Machine} (hs : m.state = .Evaluation) :
    ({ m with state := .Evaluation } : Machine) = m := by
  cases m
  simp_all

/-- Once the pending numeral is converted, the text of the current nesting
level is an expression. -/
theorem parsed_settled {p : List Char} {m m₁ : Machine} (hp : Parsed p m)
    (hs : m.state ≠ .Expression) (h : settle m = .ok m₁) :
    ∃ x a, Context m.stack.length x ∧ p = x ++ a ∧ WellFormed a := by
  obtain ⟨x, a, hx, hpa, hst⟩ := hp
  refine ⟨x, ?_⟩
  have hm : m.numberString ≠ ['-'] :=
    parseNumber_ne_minus (m := { m with state := .Evaluation }) h
  cases hstate : m.state with
  | Expression => exact absurd hstate hs
  | Number =>
    simp only [hstate] at hst
    obtain ⟨a₀, ha₀, ha, hn⟩ := hst
    refine ⟨a, hx, hpa, ?_⟩
    have := pending_wellFormed ha₀ allSpace_nil hn hm
    rw [List.append_nil] at this
    rw [ha]
    exact this
  | Evaluation =>
    simp only [hstate] at hst
    rcases hst with ⟨-, hwf⟩ | ⟨a₀, w, ha₀, hw, ha, hn⟩
    · exact ⟨a, hx, hpa, hwf⟩
    · exact ⟨a, hx, hpa, ha ▸ pending_wellFormed ha₀ hw hn hm⟩

theorem evaluationFeed_ok {m m' : Machine} {c : Char} (h : evaluationFeed m c = .ok m') :
    (∃ o, c = opChar o ∧ m' = { m with op := o, state := .Expression }) ∨
    (c = ')' ∧ ∃ saved savedOp st r, m.stack = (saved, savedOp) :: st ∧
      processNumber saved m.result savedOp = .value r ∧
      m' = { m with result := r, stack := st }) ∨
    (c = NUL ∧ m' = m) ∨ (isSpace c = true ∧ m' = m) := by
  by_cases h1 : c = '+'
  · subst h1
    rw [show '+' = opChar .Add from rfl, evaluationFeed_op] at h
    exact Or.inl ⟨.Add, rfl, by injection h with h; exact h.symm⟩
  by_cases h2 : c = '-'
  · subst h2
    rw [show '-' = opChar .Minus from rfl, evaluationFeed_op] at h
    exact Or.inl ⟨.Minus, rfl, by injection h with h; exact h.symm⟩
  by_cases h3 : c = '*'
  · subst h3
    rw [show '*' = opChar .Multiply from rfl, evaluationFeed_op] at h
    exact Or.inl ⟨.Multiply, rfl, by injection h with h; exact h.symm⟩
  by_cases h4 : c = '/'
  · subst h4
    rw [show '/' = opChar .Divide from rfl, evaluationFeed_op] at h
    exact Or.inl ⟨.Divide, rfl, by injection h with h; exact h.symm⟩
  by_cases h5 : c = ')'
  · subst h5
    rw [evaluationFeed_close] at h
    refine Or.inr (Or.inl ⟨rfl, ?_⟩)
    cases hst : m.stack with
    | nil => rw [hst] at h; cases h
    | cons f st =>
      obtain ⟨saved, savedOp⟩ := f
      rw [hst] at h
      dsimp only at h
      cases hr : processNumber saved m.result savedOp with
      | thrown => rw [hr] at h; cases h
      | undefined => rw [hr] at h; cases h
      | value r =>
        rw [hr] at h
        exact ⟨saved, savedOp, st, r, rfl, hr, by injection h with h; exact h.symm⟩
  by_cases h6 : c = NUL
  · subst h6
    rw [evaluationFeed_nul] at h
    exact Or.inr (Or.inr (Or.inl ⟨rfl, by injection h with h; exact h.symm⟩))
  by_cases h7 : isSpace c = true
  · rw [evaluationFeed_space m h7] at h
    exact Or.inr (Or.inr (Or.inr ⟨h7, by injection h with h; exact h.symm⟩))
  · rw [evaluationFeed_other m h1 h2 h3 h4 h5 h6 (by simpa using h7)] at h
    cases h

/-- Outside the expression state a character is a further digit, whitespace
behind the digits, or is handled by the evaluation arm once the pending numeral
is converted. -/
theorem feed_settle {m m' : Machine} {c : Char} (hs : m.state ≠ .Expression)
    (h : feed m c = .ok m') :
    (m.state = .Number ∧ isDigit c = true ∧
      m' = { m with numberString := m.numberString ++ [c] }) ∨
    (m.state = .Number ∧ isSpace c = true ∧ m' = { m with state := .Evaluation }) ∨
    (∃ m₁, settle m = .ok m₁ ∧ evaluationFeed m₁ c = .ok m') := by
  have hE : ∀ m₀ : Machine, m₀.state = .Evaluation → feed m₀ c = .ok m' →
      ∃ m₁, parseNumber m₀ = .ok m₁ ∧ evaluationFeed m₁ c = .ok m' := by
    intro m₀ hs₀ h₀
    rw [feed_evaluation c hs₀] at h₀
    cases hp : parseNumber m₀ with
    | error o => rw [hp] at h₀; cases h₀
    | ok m₁ => rw [hp] at h₀; exact ⟨m₁, rfl, h₀⟩
  cases hstate : m.state with
  | Expression => exact absurd hstate hs
  | Evaluation =>
    refine Or.inr (Or.inr ?_)
    rw [settle, machine_eta_evaluation hstate]
    exact hE m hstate h
  | Number =>
    rw [feed_number c hstate] at h
    split_ifs at h with h1 h2 h3
    · refine Or.inl ⟨rfl, h1, ?_⟩
      injection h with h
      rw [← h, hstate]
    · exact Or.inr (Or.inr (hE _ rfl h))
    · refine Or.inr (Or.inl ⟨rfl, h3, ?_⟩)
      injection h with h
      rw [← h]

theorem parsed_init : Parsed [] Machine.init :=
  ⟨[], [], rfl, rfl, awaiting_nil, rfl⟩

/-- The invariant is kept by every character that is consumed. -/
theorem parsed_step {p : List Char} {m m' : Machine} {c : Char} (hp : Parsed p m)
    (hc : c ≠ NUL) (h : feed m c = .ok m') : Parsed (p ++ [c]) m' := by
  by_cases hs : m.state = .Expression
  · obtain ⟨x, a, hx, hpa, hst⟩ := hp
    simp only [hs] at hst
    obtain ⟨ha, hns⟩ := hst
    rw [feed_expression c hs] at h
    split_ifs at h with h1 h2 h3
    · injection h with h
      subst h
      refine ⟨x, a ++ [c], hx, by simp [hpa], ?_⟩
      exact ⟨a, ha, by simp [hns], c, [], by simp [hns], h1, by simp⟩
    · injection h with h
      subst h
      subst h2
      refine ⟨x ++ a ++ ['('], [], ⟨x, a, hx, ha, rfl⟩, by simp [hpa], ?_⟩
      simp only [hs]
      exact ⟨awaiting_nil, hns⟩
    · injection h with h
      subst h
      refine ⟨x, a ++ [c], hx, by simp [hpa], ?_⟩
      simp only [hs]
      exact ⟨awaiting_space ha h3, hns⟩
  · rcases feed_settle hs h with ⟨hst, hd, rfl⟩ | ⟨hst, hsp, rfl⟩ | ⟨m₁, hset, hev⟩
    · obtain ⟨x, a, hx, hpa, hinv⟩ := hp
      simp only [hst] at hinv
      obtain ⟨a₀, ha₀, ha, c₀, ds, hns, hc₀, hds⟩ := hinv
      refine ⟨x, a ++ [c], hx, by simp [hpa], ?_⟩
      simp only [hst]
      refine ⟨a₀, ha₀, by simp [ha], c₀, ds ++ [c], by simp [hns], hc₀, ?_⟩
      intro d hd'
      rcases List.mem_append.mp hd' with h' | h'
      · exact hds d h'
      · rw [List.mem_singleton.mp h']; exact hd
    · obtain ⟨x, a, hx, hpa, hinv⟩ := hp
      simp only [hst] at hinv
      obtain ⟨a₀, ha₀, ha, hn⟩ := hinv
      refine ⟨x, a ++ [c], hx, by simp [hpa], ?_⟩
      exact Or.inr ⟨a₀, [c], ha₀, allSpace_singleton hsp, by simp [ha], hn⟩
    · obtain ⟨x, a, hx, hpa, hwf⟩ := parsed_settled hp hs hset
      obtain ⟨hns, hst₁, hstack, -⟩ := settle_props hset
      rw [← hstack] at hx
      rcases evaluationFeed_ok hev with ⟨o, rfl, rfl⟩ | ⟨rfl, saved, savedOp, st, r, hst, -, rfl⟩ |
        ⟨rfl, -⟩ | ⟨hsp, rfl⟩
      · refine ⟨x, a ++ [opChar o], hx, by simp [hpa], ?_⟩
        exact ⟨wellFormed_operator hwf o, hns⟩
      · rw [hst] at hx
        obtain ⟨x₀, a₁, hx₀, ha₁, rfl⟩ := hx
        refine ⟨x₀, a₁ ++ '(' :: a ++ [')'], hx₀, by simp [hpa], ?_⟩
        simp only [hst₁]
        exact Or.inl ⟨hns, wellFormed_group ha₁ hwf⟩
      · exact absurd rfl hc
      · refine ⟨x, a ++ [c], hx, by simp [hpa], ?_⟩
        simp only [hst₁]
        exact Or.inl ⟨hns, wellFormed_space hwf hsp⟩

theorem parsed_steps {s p : List Char} {m m' : Machine} (hp : Parsed p m)
    (hs : NUL ∉ s) (h : feedAll m s = .ok m') : Parsed (p ++ s) m' := by
  induction s generalizing p m with
  | nil =>
    simp only [feedAll, Except.ok.injEq] at h
    subst h
    simpa using hp
  | cons c s ih =>
    have hc : c ≠ NUL := fun h => hs (h ▸ List.mem_cons_self _ _)
    have hs' : NUL ∉ s := fun h => hs (List.mem_cons_of_mem _ h)
    rw [feedAll] at h
    cases hf : feed m c with
    | error o => rw [hf] at h; cases h
    | ok m₁ =>
      rw [hf] at h
      have := ih (parsed_step hp hc hf) hs' h
      simpa using this

theorem parsed_of_reaches {pre : List Char} {m : Machine} (h : Reaches pre m) : Parsed pre m := by
  have := parsed_steps parsed_init h.1 h.2
  simpa using this

/-- The text consumed by a scan that ends with `true` is a well-formed expression. -/
theorem wellFormed_of_accepted {s : List Char} {v : Int} (hs : NUL ∉ s)
    (h : evaluate s = some (.accepted v)) : WellFormed s := by
  obtain ⟨m, hreach, hend⟩ := reaches_of_accepted hs h
  obtain ⟨hstate, m', hset, hstack, -⟩ := atEnd_accepted hend
  obtain ⟨x, a, hx, hpa, hwf⟩ := parsed_settled (parsed_of_reaches hreach) hstate hset
  rw [← (settle_props hset).2.2.1, hstack] at hx
  have hx' : x = [] := hx
  subst hx'
  rw [hpa]
  exact hwf

/-- Claim C2. Success implies well-formedness: every string (a C string, without
NUL inside) on which `evaluate` returns true is a well-formed expression of the
grammar
`expr := term (op term)*`, `term := numeral | '(' expr ')'`, a numeral being an
optional `-` followed by one digit or more, with whitespace only in front of,
between and behind the tokens. -/
theorem accepted_wellFormed (s : List Char) (v : Int) (hs : NUL ∉ s)
    (h : evaluate s = some (.accepted v)) : WellFormed s :=
  wellFormed_of_accepted hs h

/-! ## The last character of an accepted string (claim C9) -/

theorem dropWhile_spaces (u t : List Char) (c : Char) (hu : AllSpace u)
    (hc : isSpace c = false) : (u ++ c :: t).dropWhile isSpace = c :: t := by
  induction u with
  | nil => simp [List.dropWhile_cons, hc]
  | cons d u ih =>
    have hd : isSpace d = true := hu d (List.mem_cons_self _ _)
    simp only [List.cons_append, List.dropWhile_cons, hd, if_true]
    exact ih (fun e he => hu e (List.mem_cons_of_mem _ he))

theorem lastNonSpace_of_tail (body w : List Char) (c : Char) (hw : AllSpace w)
    (hc : isSpace c = false) : lastNonSpace (body ++ c :: w) = some c := by
  have hw' : AllSpace w.reverse := fun d hd => hw d (List.mem_reverse.mp hd)
  simp only [lastNonSpace, List.reverse_append, List.reverse_cons, List.append_assoc,
    List.singleton_append]
  rw [dropWhile_spaces _ _ _ hw' hc]
  rfl

theorem isDigit_not_space {c : Char} (hc : isDigit c = true) : isSpace c = false := by
  cases h : isSpace c with
  | false => rfl
  | true => rw [isSpace_not_digit h] at hc; cases hc

theorem numeral_last {n : Numeral} (hv : n.Valid) :
    ∃ body c, n.chars = body ++ [c] ∧ isDigit c = true := by
  obtain ⟨neg, ds⟩ := n
  obtain ⟨hne, hds⟩ := hv
  simp only at hne hds
  refine ⟨(if neg then ['-'] else []) ++ ds.dropLast, ds.getLast hne, ?_,
    hds _ (List.getLast_mem hne)⟩
  simp only [Numeral.chars, List.append_assoc]
  rw [List.dropLast_append_getLast hne]

/-- The characters of an expression end with a digit or `)` and whitespace. -/
theorem render_last {e : Expr} (hv : e.Valid) :
    ∃ body c w, e.render = body ++ c :: w ∧ AllSpace w ∧ (isDigit c = true ∨ c = ')') := by
  induction e with
  | num n w =>
    obtain ⟨body, c, hn, hc⟩ := numeral_last hv.1
    exact ⟨body, c, w, by simp [Expr.render, hn], hv.2, Or.inl hc⟩
  | group w₁ e w₂ _ =>
    exact ⟨'(' :: w₁ ++ e.render, ')', w₂, by simp [Expr.render], hv.2.2, Or.inr rfl⟩
  | binary l o w r _ ihr =>
    obtain ⟨body, c, w', hr, hw', hc⟩ := ihr hv.2.2.1
    exact ⟨l.render ++ opChar o :: w ++ body, c, w', by simp [Expr.render, hr], hw', hc⟩

theorem lastNonSpace_of_wellFormed {s : List Char} (h : WellFormed s) :
    ∃ c, lastNonSpace s = some c ∧ (isDigit c = true ∨ c = ')') := by
  obtain ⟨lead, e, -, hv, rfl⟩ := h
  obtain ⟨body, c, w, hr, hw, hc⟩ := render_last hv
  refine ⟨c, ?_, hc⟩
  rw [hr, ← List.append_assoc]
  refine lastNonSpace_of_tail _ _ _ hw ?_
  rcases hc with hc | rfl
  · exact isDigit_not_space hc
  · rfl

/-- Claim C9. The empty string fails; `evaluate` returns false on every input
(a C string, without NUL inside) that ends while a term is still expected (the
loop reaches the terminator in the expression state); and when `evaluate`
returns true, the last character of the input that is not whitespace is a digit
or `)`. -/
theorem evaluate_ends_with_term (s : List Char) (hs : NUL ∉ s) :
    evaluate [] = some .rejected ∧
    (∀ m, Reaches s m → m.state = .Expression → evaluate s = some .rejected) ∧
    (∀ v, evaluate s = some (.accepted v) →
      ∃ c, lastNonSpace s = some c ∧ (isDigit c = true ∨ c = ')')) := by
  refine ⟨by decide, ?_, ?_⟩
  · intro m hm hstate
    have := evaluate_of_reaches hm []
    rw [List.append_nil] at this
    rw [this, scan, atEnd, feed_nul_expression hstate]
  · intro v hv
    exact lastNonSpace_of_wellFormed (wellFormed_of_accepted hs hv)

/-! ## Whitespace between tokens is insignificant (claim C8) -/

/-- Behind a terminator the text does not matter. -/
theorem scan_nul (m : Machine) (pre : List Char) (hn : NUL ∈ pre) (t : List Char) :
    scan m (pre ++ t) = scan m pre := by
  induction pre generalizing m with
  | nil => exact absurd hn (List.not_mem_nil _)
  | cons c pre ih =>
    by_cases hc : c = NUL
    · simp only [List.cons_append, scan, if_pos hc]
    · have hn' : NUL ∈ pre := by
        rcases List.mem_cons.mp hn with h | h
        · exact absurd h.symm hc
        · exact h
      simp only [List.cons_append, scan, if_neg hc]
      cases feed m c with
      | error o => rfl
      | ok m' => exact ih m' hn'

/-- The example of C1: `(-5 * ((5 * 6) - (5 * 8)))` is the text of a valid and
safe tree whose reference value is 50, and `evaluate` returns it. -/
theorem evaluate_eq_reference_witness :
    AllSpace [] ∧ nestedExample.Valid ∧ nestedExample.Safe ∧
    [] ++ nestedExample.render = "(-5 * ((5 * 6) - (5 * 8)))".toList ∧
    nestedExample.value = 50 ∧
    evaluate ([] ++ nestedExample.render) = some (.accepted nestedExample.value) :=
  ⟨by decide, by decide, by decide, by decide, by decide,
    evaluate_eq_reference [] nestedExample (by decide) (by decide) (by decide)⟩

/-- An instance of C2: `(1  + 3) * 2` is accepted, hence well-formed. -/
theorem accepted_wellFormed_witness :
    NUL ∉ "(1  + 3) * 2".toList ∧
    evaluate "(1  + 3) * 2".toList = some (.accepted 8) ∧
    WellFormed "(1  + 3) * 2".toList :=
  ⟨by decide, by decide,
    accepted_wellFormed "(1  + 3) * 2".toList 8 (by decide) (by decide)⟩

/-- Instances of C9: `1 + 3` is accepted and ends with a digit; `1 +` ends
while a term is expected and is rejected. -/
theorem evaluate_ends_with_term_witness :
    (NUL ∉ "1 + 3".toList ∧ evaluate "1 + 3".toList = some (.accepted 4) ∧
      ∃ c, lastNonSpace "1 + 3".toList = some c ∧ (isDigit c = true ∨ c = ')')) ∧
    (NUL ∉ "1 +".toList ∧ evaluate "1 +".toList = some .rejected) :=
  ⟨⟨by decide, by decide,
      (evaluate_ends_with_term "1 + 3".toList (by decide)).2.2 4 (by decide)⟩,
    ⟨by decide,
      (evaluate_ends_with_term "1 +".toList (by decide)).2.1
        { result := 1, op := .Add, stack := [], state := .Expression, numberString := [] }
        ⟨by decide, rfl⟩ rfl⟩⟩

/-! ## Rejections that the exception of the group division can pre-empt

The zero divisor written as a numeral, a character outside the alphabet and
unbalanced parentheses all make `evaluate` return false, provided the scan
gets that far: the exception thrown when a group of value 0 is the divisor
leaves the function first, and so does the division of `INT_MIN` by `-1`. -/

/-- A call of `evaluate` never returns true by leaving the loop early. -/
theorem evaluate_cases (s : List Char) :
    (∃ v, evaluate s = some (.accepted v)) ∨ evaluate s = some .rejected ∨
      evaluate s = some .uncaught ∨ evaluate s = some .undefined := by
  rw [evaluate_eq_scan]
  cases scan Machine.init s with
  | accepted v => exact Or.inl ⟨v, rfl⟩
  | rejected => exact Or.inr (Or.inl rfl)
  | uncaught => exact Or.inr (Or.inr (Or.inl rfl))
  | undefined => exact Or.inr (Or.inr (Or.inr rfl))

theorem feed_bad_character (m : Machine) {c : Char} (hc : isAllowed c = false)
    (hn : c ≠ NUL) : feed m c = .error .rejected ∨ feed m c = .error .undefined := by
  simp only [isAllowed, Bool.or_eq_false_iff, beq_eq_false_iff_ne, ne_eq] at hc
  obtain ⟨⟨⟨⟨⟨⟨⟨h1, h2⟩, h3⟩, h4⟩, h5⟩, h6⟩, h7⟩, h8⟩ := hc
  have hcases : m.state = .Expression ∨ m.state = .Evaluation ∨ m.state = .Number := by
    cases m.state
    · exact Or.inl rfl
    · exact Or.inr (Or.inl rfl)
    · exact Or.inr (Or.inr rfl)
  rcases hcases with hs | hs | hs
  · left
    rw [feed_expression c hs]
    simp [h1, h3, h6, h8]
  · rw [feed_evaluation c hs]
    cases hp : parseNumber m with
    | error o =>
      rcases parseNumber_error hp with rfl | rfl
      · exact Or.inl rfl
      · exact Or.inr rfl
    | ok m₁ => exact Or.inl (evaluationFeed_other m₁ h2 h3 h4 h5 h7 hn h8)
  · left
    rw [feed_number c hs]
    simp [h1, h2, h3, h4, h5, h7, h8, hn]

/-- A character outside the alphabet that the loop reaches makes `evaluate`
return false, unless the loop converts a pending numeral first and divides
`INT_MIN` by `-1`. -/
theorem evaluate_bad_character_of_reaches {pre : List Char} {m : Machine}
    (h : Reaches pre m) {c : Char} (hc : isAllowed c = false) (hn : c ≠ NUL)
    (post : List Char) :
    evaluate (pre ++ c :: post) = some .rejected ∨
      evaluate (pre ++ c :: post) = some .undefined := by
  rw [evaluate_of_reaches h, scan, if_neg hn]
  rcases feed_bad_character m hc hn with hf | hf
  · exact Or.inl (by rw [hf])
  · exact Or.inr (by rw [hf])

/-- On a string with a character outside the alphabet `evaluate` does not
return true. -/
theorem evaluate_bad_character_not_accepted (s : List Char) (hs : NUL ∉ s) {c : Char}
    (hmem : c ∈ s) (hc : isAllowed c = false) :
    evaluate s = some .rejected ∨ evaluate s = some .uncaught ∨
      evaluate s = some .undefined := by
  obtain ⟨pre, post, rfl⟩ := List.append_of_mem hmem
  have hpre : NUL ∉ pre := fun h => hs (List.mem_append_left _ h)
  have hn : c ≠ NUL := fun h => hs (h ▸ List.mem_append_right _ (List.mem_cons_self _ _))
  cases hf : feedAll Machine.init pre with
  | ok m =>
    rcases evaluate_bad_character_of_reaches ⟨hpre, hf⟩ hc hn post with h | h
    · exact Or.inl h
    · exact Or.inr (Or.inr h)
  | error o =>
    rw [evaluate_eq_scan, scan_append _ _ _ hpre, hf]
    rcases feedAll_error hf with rfl | rfl | rfl
    · exact Or.inl rfl
    · exact Or.inr (Or.inl rfl)
    · exact Or.inr (Or.inr rfl)

theorem parseNumber_zero_divisor (m : Machine) {n : Numeral} (hv : n.Valid)
    (hz : n.value = 0) (hop : m.op = .Divide) :
    parseNumber { m with numberString := n.chars } = .error .rejected := by
  have hr : n.InRange := by
    simp only [Numeral.InRange, hz, INT_MIN, INT_MAX]
    omega
  simp [parseNumber, numeral_ne_nil hv, numeral_ne_minus hv, stoi_numeral hv hr, hz, hop]

theorem feedAll_snoc {pre : List Char} {t : Char} {m₀ m : Machine}
    (h : feedAll m₀ (pre ++ [t]) = .ok m) :
    ∃ m₁, feedAll m₀ pre = .ok m₁ ∧ feed m₁ t = .ok m := by
  rw [feedAll_append] at h
  cases hp : feedAll m₀ pre with
  | error o => rw [hp] at h; cases h
  | ok m₁ =>
    rw [hp] at h
    refine ⟨m₁, rfl, ?_⟩
    simp only [feedAll] at h
    cases hf : feed m₁ t with
    | error o => rw [hf] at h; cases h
    | ok m₂ =>
      rw [hf] at h
      exact h

/-- Behind a `/` that the loop has consumed a term is expected, the pending
operator is the division and no numeral is pending. -/
theorem feed_divide {m m' : Machine} (h : feed m '/' = .ok m') :
    m'.state = .Expression ∧ m'.op = .Divide ∧ m'.numberString = [] := by
  by_cases hs : m.state = .Expression
  · rw [feed_expression '/' hs] at h
    simp [isDigit, isSpace] at h
  · rcases feed_settle hs h with ⟨-, hd, -⟩ | ⟨-, hsp, -⟩ | ⟨m₁, hset, hev⟩
    · exact absurd hd (by decide)
    · exact absurd hsp (by decide)
    · have hns := (settle_props hset).1
      rw [show '/' = opChar .Divide from rfl, evaluationFeed_op] at hev
      injection hev with hev
      rw [← hev]
      exact ⟨rfl, rfl, hns⟩

/-- A `/` that the loop has consumed, followed by whitespace and a numeral of
value 0 that ends there, makes `evaluate` return false. -/
theorem evaluate_zero_divisor_of_reaches {pre : List Char} {m : Machine}
    (h : Reaches (pre ++ ['/']) m) {w : List Char} (hw : AllSpace w) {n : Numeral}
    (hv : n.Valid) (hz : n.value = 0) {post : List Char} (hpost : noDigitAhead post) :
    evaluate (pre ++ '/' :: (w ++ (n.chars ++ post))) = some .rejected := by
  have e0 : pre ++ '/' :: (w ++ (n.chars ++ post)) =
      (pre ++ ['/']) ++ (w ++ (n.chars ++ post)) := by simp
  obtain ⟨m₀, -, hfeed⟩ := feedAll_snoc h.2
  obtain ⟨hst, hop, hns⟩ := feed_divide hfeed
  rw [e0, evaluate_of_reaches h]
  refine congrArg some ?_
  rw [scan_spaces_expression hst w _ hw, scan_append _ _ _ (numeral_no_nul hv),
    feedAll_numeral m hst hns hv]
  dsimp only
  refine scan_settle_none post (by simp) (fun _ => hpost) ?_
  exact parseNumber_zero_divisor { m with state := .Evaluation } hv hz hop

/-! ## The stack counts the open parentheses -/

theorem count_snoc (p : List Char) (c d : Char) :
    (p ++ [c]).count d = p.count d + if c = d then 1 else 0 := by
  rw [List.count_append, List.count_singleton]
  simp only [beq_iff_eq]

theorem nested_init : Nested [] Machine.init := rfl

/-- Every `(` that is consumed pushes a frame, every `)` pops one, and no
other character touches the stack. -/
theorem nested_step {p : List Char} {m m' : Machine} {c : Char} (hp : Nested p m)
    (h : feed m c = .ok m') : Nested (p ++ [c]) m' := by
  unfold Nested at hp ⊢
  rw [count_snoc, count_snoc]
  by_cases hs : m.state = .Expression
  · rw [feed_expression c hs] at h
    split_ifs at h with h1 h2 h3
    · injection h with h
      subst h
      have ho : c ≠ '(' := by
        rcases h1 with rfl | h1
        · decide
        · rintro rfl; revert h1; decide
      have hc : c ≠ ')' := by
        rcases h1 with rfl | h1
        · decide
        · rintro rfl; revert h1; decide
      simp only [if_neg ho, if_neg hc]
      omega
    · injection h with h
      subst h
      subst h2
      simp only [List.length_cons, if_true, if_neg (show ('(' : Char) ≠ ')' by decide)]
      omega
    · injection h with h
      subst h
      have ho : c ≠ '(' := by rintro rfl; revert h3; decide
      have hc : c ≠ ')' := by rintro rfl; revert h3; decide
      simp only [if_neg ho, if_neg hc]
      omega
  · rcases feed_settle hs h with ⟨-, hd, rfl⟩ | ⟨-, hsp, rfl⟩ | ⟨m₁, hset, hev⟩
    · have ho : c ≠ '(' := by rintro rfl; revert hd; decide
      have hc : c ≠ ')' := by rintro rfl; revert hd; decide
      simp only [if_neg ho, if_neg hc]
      omega
    · have ho : c ≠ '(' := by rintro rfl; revert hsp; decide
      have hc : c ≠ ')' := by rintro rfl; revert hsp; decide
      simp only [if_neg ho, if_neg hc]
      omega
    · have hstack := (settle_props hset).2.2.1
      rcases evaluationFeed_ok hev with ⟨o, rfl, rfl⟩ | ⟨rfl, _, _, st, _, hst, -, rfl⟩ |
        ⟨rfl, rfl⟩ | ⟨hsp, rfl⟩
      · have ho : opChar o ≠ '(' := by cases o <;> decide
        have hc : opChar o ≠ ')' := by cases o <;> decide
        simp only [if_neg ho, if_neg hc]
        rw [hstack]
        omega
      · rw [hstack] at hst
        rw [hst] at hp
        simp only [List.length_cons] at hp
        simp only [if_true, if_neg (show (')' : Char) ≠ '(' by decide)]
        omega
      · simp only [if_neg (show NUL ≠ '(' by decide), if_neg (show NUL ≠ ')' by decide)]
        rw [hstack]
        omega
      · have ho : c ≠ '(' := by rintro rfl; revert hsp; decide
        have hc : c ≠ ')' := by rintro rfl; revert hsp; decide
        simp only [if_neg ho, if_neg hc]
        rw [hstack]
        omega

theorem nested_steps {s p : List Char} {m m' : Machine} (hp : Nested p m)
    (h : feedAll m s = .ok m') : Nested (p ++ s) m' := by
  induction s generalizing p m with
  | nil =>
    simp only [feedAll, Except.ok.injEq] at h
    subst h
    simpa using hp
  | cons c s ih =>
    rw [feedAll] at h
    cases hf : feed m c with
    | error o => rw [hf] at h; cases h
    | ok m₁ =>
      rw [hf] at h
      have := ih (nested_step hp hf) h
      simpa using this

theorem nested_of_reaches {pre : List Char} {m : Machine} (h : Reaches pre m) :
    Nested pre m := by
  have := nested_steps nested_init h.2
  simpa using this

/-- The parentheses of an accepted string are balanced. -/
theorem balanced_of_accepted {s : List Char} {v : Int} (hs : NUL ∉ s)
    (h : evaluate s = some (.accepted v)) : ¬Unbalanced s := by
  obtain ⟨m, hreach, hend⟩ := reaches_of_accepted hs h
  obtain ⟨-, m', hset, hstack, -⟩ := atEnd_accepted hend
  have hm : m.stack = [] := by rw [← (settle_props hset).2.2.1, hstack]
  have hn := nested_of_reaches hreach
  unfold Nested at hn
  rw [hm] at hn
  rintro (hne | ⟨p, ⟨t, rfl⟩, hlt⟩)
  · simp only [List.length_nil, zero_add] at hn
    exact hne hn.symm
  · have hf := hreach.2
    rw [feedAll_append] at hf
    cases hp : feedAll Machine.init p with
    | error o => rw [hp] at hf; cases hf
    | ok mp =>
      have hpre : NUL ∉ p := fun h' => hs (List.mem_append_left _ h')
      have := nested_of_reaches (⟨hpre, hp⟩ : Reaches p mp)
      unfold Nested at this
      omega

/-- On a string with unbalanced parentheses `evaluate` does not return true. -/
theorem evaluate_unbalanced_not_accepted (s : List Char) (hs : NUL ∉ s)
    (hu : Unbalanced s) :
    evaluate s = some .rejected ∨ evaluate s = some .uncaught ∨
      evaluate s = some .undefined := by
  rcases evaluate_cases s with ⟨v, hv⟩ | h
  · exact absurd hu (balanced_of_accepted hs hv)
  · exact h

/-! ## Division by the value of a group

The `case ')'` combines the saved result with the value of the group outside
the `try` block and without the zero check of the numeral path. -/

/-- A division whose right operand is a parenthesised group of value 0 makes
the exception leave `evaluate`, wherever the loop takes the `/` as an operator:
behind a completed term whose pending numeral, if any, is converted. -/
theorem evaluate_divide_by_zero_group_of_reaches {pre : List Char} {m m₁ : Machine}
    (h : Reaches pre m) (hs : m.state ≠ .Expression) (hset : settle m = .ok m₁)
    {w w₁ : List Char} (hw : AllSpace w) (hw₁ : AllSpace w₁) {e : Expr} (hv : e.Valid)
    (hsafe : e.Safe) (hz : e.value = 0) (rest : List Char) :
    evaluate (pre ++ '/' :: (w ++ '(' :: (w₁ ++ (e.render ++ ')' :: rest)))) =
      some .uncaught := by
  obtain ⟨hns, hst₁, -, -⟩ := settle_props hset
  rw [evaluate_of_reaches h]
  refine congrArg some ?_
  have hahead : noDigitAhead ('/' :: (w ++ '(' :: (w₁ ++ (e.render ++ ')' :: rest)))) :=
    show isDigit '/' = false from rfl
  rw [scan_settle _ hs (fun _ => hahead) hset]
  have h1 := scan_operator m₁ .Divide (w ++ '(' :: (w₁ ++ (e.render ++ ')' :: rest))) hst₁ hns
  rw [show opChar .Divide = '/' from rfl] at h1
  rw [h1, scan_spaces_expression
    (m := { m₁ with op := .Divide, state := .Expression }) rfl w _ hw,
    scan_open { m₁ with op := .Divide, state := .Expression } _ rfl,
    scan_spaces_expression
      (m := { m₁ with stack := (m₁.result, Op.Divide) :: m₁.stack, result := 0, op := .Add,
                      state := .Expression }) rfl w₁ _ hw₁]
  obtain ⟨o', ho'⟩ := (scan_expr e hv hsafe).1
    { m₁ with stack := (m₁.result, Op.Divide) :: m₁.stack, result := 0, op := .Add,
              state := .Expression }
    (')' :: rest) rfl hns rfl rfl (show isDigit ')' = false from rfl)
  have h2 : feed
      { m₁ with stack := (m₁.result, Op.Divide) :: m₁.stack, result := e.value, op := o',
                state := .Evaluation } ')' = .error .uncaught := by
    have hp : parseNumber
        { m₁ with stack := (m₁.result, Op.Divide) :: m₁.stack, result := e.value, op := o',
                  state := .Evaluation } = .ok
        { m₁ with stack := (m₁.result, Op.Divide) :: m₁.stack, result := e.value, op := o',
                  state := .Evaluation } := parseNumber_settled hns
    rw [feed_evaluation _ rfl, hp]
    dsimp only
    rw [evaluationFeed_close]
    simp [processNumber, hz]
  rw [ho', scan, if_neg (by decide)]
  exact congrArg (fun x => match x with | .ok m' => scan m' rest | .error o => o) h2

/-- Claim C5 says that `evaluate` returns false, rather than raising, on every
input in which the right operand of a `/` is a parenthesised group whose value
is 0.  The code raises: on `1 / (0)` and on `8 / (2 - 2)` the
`std::invalid_argument` thrown by `processNumber` in the `case ')'` leaves
`evaluate`. -/
theorem evaluate_divide_by_zero_group :
    evaluate "1 / (0)".toList = some .uncaught ∧
    evaluate "8 / (2 - 2)".toList = some .uncaught :=
  ⟨by decide, by decide⟩

/-- Claim C4 says that `evaluate` returns false on every input in which a `/`
has a numeral of value 0 as its right operand.  In `1/(0)/0` the second `/` is
followed by the numeral `0`, and `evaluate` does not return false: the
exception of the division by the group `(0)` leaves it first. -/
theorem evaluate_zero_numeral_behind_group :
    "1/(0)/0".toList = "1/(0)".toList ++ '/' :: ([] ++ ((Numeral.plain ['0']).chars ++ [])) ∧
    (Numeral.plain ['0']).Valid ∧ (Numeral.plain ['0']).value = 0 ∧
    evaluate "1/(0)/0".toList = some .uncaught :=
  ⟨by decide, by decide, by decide, by decide⟩

/-- Claim C6 says that `evaluate` returns false on every input whose
parentheses are unbalanced.  `(1/(0)` has two `(` and one `)`, and `evaluate`
does not return false: the exception of the division by the group `(0)` leaves
it before the stack is checked. -/
theorem evaluate_unbalanced_behind_group :
    Unbalanced "(1/(0)".toList ∧ evaluate "(1/(0)".toList = some .uncaught :=
  ⟨Or.inl (by decide), by decide⟩

/-- Claim C7 says that `evaluate` returns false on every input that contains a
character other than the digits, the operators, the parentheses and
whitespace.  `1/(0)a` contains `a`, and `evaluate` does not return false: the
exception of the division by the group `(0)` leaves it before `a` is read. -/
theorem evaluate_bad_character_behind_group :
    'a' ∈ "1/(0)a".toList ∧ isAllowed 'a' = false ∧
    evaluate "1/(0)a".toList = some .uncaught :=
  ⟨by decide, by decide, by decide⟩

/-! ## `Reaches` in terms of the loop -/

theorem feed_ok_dispatch {m m' : Machine} {c : Char} (h : feed m c = .ok m') :
    dispatch m c = .advance m' ∨
      ∃ m₁, dispatch m c = .again m₁ ∧ dispatch m₁ c = .advance m' := by
  unfold feed at h
  cases h1 : dispatch m c with
  | halt o => rw [h1] at h; cases h
  | advance m₁ =>
    rw [h1] at h
    injection h with h
    exact Or.inl (by rw [h])
  | again m₁ =>
    rw [h1] at h
    dsimp only at h
    cases h2 : dispatch m₁ c with
    | halt o => rw [h2] at h; cases h
    | advance m₂ =>
      rw [h2] at h
      injection h with h
      exact Or.inr ⟨m₁, rfl, by rw [h2, h]⟩
    | again m₂ => rw [h2] at h; cases h

/-- When `feedAll` leads from `m₀` to `m` over the characters `pre`, the loop
started with `m₀` on `pre` followed by `rest` holds the variables `m` and is
about to read `rest` after at most two iterations for each character. -/
theorem loop_feedAll {pre : List Char} {m₀ m : Machine} (hn : NUL ∉ pre)
    (h : feedAll m₀ pre = .ok m) (rest : List Char) :
    ∃ k, k ≤ 2 * pre.length ∧
      ∀ fuel, loop (fuel + k) m₀ (pre ++ rest) = loop fuel m rest := by
  induction pre generalizing m₀ with
  | nil =>
    simp only [feedAll, Except.ok.injEq] at h
    subst h
    exact ⟨0, by simp, fun _ => rfl⟩
  | cons c p ih =>
    have hc : c ≠ NUL := fun h' => hn (h' ▸ List.mem_cons_self _ _)
    have hp : NUL ∉ p := fun h' => hn (List.mem_cons_of_mem _ h')
    rw [feedAll] at h
    cases hf : feed m₀ c with
    | error o => rw [hf] at h; cases h
    | ok m₁ =>
      rw [hf] at h
      obtain ⟨k, hk, hloop⟩ := ih hp h
      have hhead : (c :: p ++ rest).headD NUL = c := rfl
      rcases feed_ok_dispatch hf with hd | ⟨m', hd₁, hd₂⟩
      · refine ⟨k + 1, by simp only [List.length_cons]; omega, fun fuel => ?_⟩
        rw [← Nat.add_assoc, loop_succ, hhead, hd]
        dsimp only
        rw [if_neg hc]
        exact hloop fuel
      · refine ⟨k + 2, by simp only [List.length_cons]; omega, fun fuel => ?_⟩
        rw [← Nat.add_assoc, loop_succ, hhead, hd₁]
        dsimp only
        rw [loop_succ, hhead, hd₂]
        dsimp only
        rw [if_neg hc]
        exact hloop fuel

/-- The meaning of `Reaches pre m`: on every input that begins with `pre` the
loop of `evaluate`, after at most two iterations for each character of `pre`,
holds the variables `m` and is about to read the character behind `pre`. -/
theorem loop_of_reaches {pre : List Char} {m : Machine} (h : Reaches pre m)
    (rest : List Char) :
    ∃ k, k ≤ 2 * pre.length ∧
      ∀ fuel, loop (fuel + k) Machine.init (pre ++ rest) = loop fuel m rest :=
  loop_feedAll h.1 h.2 rest

/-! ## Negating a bracket (claim C11) -/

/-- A `-` read while a term is expected and followed by no digit makes the
function return false. -/
theorem scan_lone_minus (m : Machine) (post : List Char) (hs : m.state = .Expression)
    (hns : m.numberString = []) (hnext : noDigitAhead post) :
    scan m ('-' :: post) = .rejected := by
  rw [scan, if_neg (by decide), feed_expression '-' hs]
  simp only [true_or, if_true]
  refine scan_settle_none post (by simp) (fun _ => hnext) ?_
  simp [settle, parseNumber, hns]

/-- Claim C11. Negating a bracket is invalid: when a `-` is scanned while a term
is expected (the loop reaches it in the expression state) and is immediately
followed by `(`, `evaluate` returns false; in particular it returns false on
every input that begins with `-(`. -/
theorem evaluate_negated_bracket (pre post : List Char) (m : Machine)
    (hpre : Reaches pre m) (hterm : m.state = .Expression) :
    evaluate (pre ++ '-' :: '(' :: post) = some .rejected ∧
    evaluate ('-' :: '(' :: post) = some .rejected := by
  have hopen : noDigitAhead ('(' :: post) := show isDigit '(' = false from rfl
  constructor
  · rw [evaluate_of_reaches hpre]
    exact congrArg some
      (scan_lone_minus m _ hterm (reaches_numberString hpre hterm) hopen)
  · rw [evaluate_eq_scan]
    exact congrArg some (scan_lone_minus Machine.init _ rfl rfl hopen)

/-- The examples of C11: in `1 + -(2)` the `-` behind the operator is followed by
`(`, and `-(12)` begins with `-(`; both return false. -/
theorem evaluate_negated_bracket_witness :
    Reaches "1 + ".toList
      { result := 1, op := .Add, stack := [], state := .Expression, numberString := [] } ∧
    evaluate ("1 + ".toList ++ '-' :: '(' :: "2)".toList) = some .rejected ∧
    evaluate ('-' :: '(' :: "12)".toList) = some .rejected :=
  ⟨⟨by decide, rfl⟩,
    (evaluate_negated_bracket "1 + ".toList "2)".toList
      { result := 1, op := .Add, stack := [], state := .Expression, numberString := [] }
      ⟨by decide, rfl⟩ rfl).1,
    (evaluate_negated_bracket [] "12)".toList Machine.init ⟨by simp, rfl⟩ rfl).2⟩

/-! ## Leading zeroes do not change a numeral (claim C12) -/

theorem digitsValue_zero_cons (ds : List Char) : digitsValue ('0' :: ds) = digitsValue ds := by
  simp [digitsValue, digitValue]

theorem stoi_leading_zero {sg ds : List Char} (hsg : sg = [] ∨ sg = ['-']) (hne : ds ≠ [])
    (hds : ∀ c ∈ ds, isDigit c = true) : stoi (sg ++ '0' :: ds) = stoi (sg ++ ds) := by
  have hz : ∀ c ∈ '0' :: ds, isDigit c = true := by
    intro c hc
    rcases List.mem_cons.mp hc with rfl | hc
    · rfl
    · exact hds c hc
  rcases hsg with rfl | rfl
  · cases ds with
    | nil => exact absurd rfl hne
    | cons d ds =>
      have hd : d ≠ '-' := isDigit_ne_minus (hds d (List.mem_cons_self _ _))
      simp [stoi, takeWhile_digits hz, takeWhile_digits hds, hd, digitsValue_zero_cons]
  · simp [stoi, takeWhile_digits hz, takeWhile_digits hds, hne, digitsValue_zero_cons]

theorem leadZero_ne {a b : List Char} (h : LeadZero a b) :
    a ≠ [] ∧ a ≠ ['-'] ∧ b ≠ [] ∧ b ≠ ['-'] ∧ stoi b = stoi a := by
  obtain ⟨sg, ds, hsg, hne, hds, rfl, rfl⟩ := h
  refine ⟨?_, ?_, ?_, ?_, stoi_leading_zero hsg hne hds⟩
  · rcases hsg with rfl | rfl <;> simp [hne]
  · rcases hsg with rfl | rfl
    · simp only [List.nil_append]
      rintro rfl
      exact absurd (hds '-' (List.mem_singleton_self _)) (by decide)
    · simp [hne]
  · rcases hsg with rfl | rfl <;> simp
  · rcases hsg with rfl | rfl <;> simp

theorem leadZero_snoc {a b : List Char} (h : LeadZero a b) {c : Char}
    (hc : isDigit c = true) : LeadZero (a ++ [c]) (b ++ [c]) := by
  obtain ⟨sg, ds, hsg, -, hds, rfl, rfl⟩ := h
  refine ⟨sg, ds ++ [c], hsg, by simp, ?_, by simp, by simp⟩
  intro d hd
  rcases List.mem_append.mp hd with h | h
  · exact hds d h
  · rw [List.mem_singleton.mp h]; exact hc

/-- The conversion of the pending numeral does not see a leading zero. -/
theorem parseNumber_leading_zero (m : Machine) {b : List Char}
    (h : LeadZero m.numberString b) :
    parseNumber { m with numberString := b } = parseNumber m := by
  obtain ⟨ha, ha', hb, hb', hst⟩ := leadZero_ne h
  simp only [parseNumber, ha, ha', hb, hb', hst, if_false]

theorem feed_leading_zero (m : Machine) {b : List Char} (c : Char)
    (hs : m.state = .Evaluation) (h : LeadZero m.numberString b) :
    feed { m with numberString := b } c = feed m c := by
  rw [feed_evaluation c hs, feed_evaluation (m := { m with numberString := b }) c hs,
    parseNumber_leading_zero m h]

/-- From the number state or the evaluation state on, a leading zero in the
buffer does not change the scan. -/
theorem scan_leading_zero (cs : List Char) :
    ∀ (m : Machine) (b : List Char), m.state ≠ .Expression → LeadZero m.numberString b →
      scan { m with numberString := b } cs = scan m cs := by
  induction cs with
  | nil =>
    intro m b hs h
    have h0 : settle { m with numberString := b } = settle m :=
      parseNumber_leading_zero { m with state := .Evaluation } h
    simp only [scan, atEnd]
    rw [feed_nul_settle hs, feed_nul_settle (m := { m with numberString := b }) hs, h0]
  | cons c cs ih =>
    intro m b hs h
    have h0 : settle { m with numberString := b } = settle m :=
      parseNumber_leading_zero { m with state := .Evaluation } h
    have hend : atEnd { m with numberString := b } = atEnd m := by
      simp only [atEnd]
      rw [feed_nul_settle hs, feed_nul_settle (m := { m with numberString := b }) hs, h0]
    by_cases hc : c = NUL
    · simp only [scan, if_pos hc, hend]
    · simp only [scan, if_neg hc]
      have hcases : m.state = .Evaluation ∨ m.state = .Number := by
        cases hstate : m.state
        · exact absurd hstate hs
        · exact Or.inl rfl
        · exact Or.inr rfl
      rcases hcases with hstate | hstate
      · rw [feed_leading_zero m c hstate h]
      · rw [feed_number c hstate, feed_number (m := { m with numberString := b }) c hstate]
        by_cases h1 : isDigit c = true
        · rw [if_pos h1, if_pos h1]
          exact ih { m with numberString := m.numberString ++ [c] } (b ++ [c])
            hs (leadZero_snoc h h1)
        · rw [if_neg h1, if_neg h1]
          by_cases h2 : c = '+' ∨ c = '-' ∨ c = '*' ∨ c = '/' ∨ c = ')' ∨ c = NUL
          · rw [if_pos h2, if_pos h2]
            have := feed_leading_zero { m with state := .Evaluation } c rfl h
            rw [this]
          · rw [if_neg h2, if_neg h2]
            by_cases h3 : isSpace c = true
            · rw [if_pos h3, if_pos h3]
              exact ih { m with state := .Evaluation } b (by simp) h
            · rw [if_neg h3, if_neg h3]

/-- In the number state the consumed text ends with the buffer, which is a
sign or a digit followed by digits. -/
theorem number_buffer_of_reaches {pre : List Char} {m : Machine} (h : Reaches pre m)
    (hs : m.state = .Number) :
    ∃ front c ds, pre = front ++ c :: ds ∧ m.numberString = c :: ds ∧
      (c = '-' ∨ isDigit c = true) ∧ ∀ d ∈ ds, isDigit d = true := by
  obtain ⟨x, a, -, hpa, hst⟩ := parsed_of_reaches h
  simp only [hs] at hst
  obtain ⟨a₀, -, ha, c, ds, hns, hc, hds⟩ := hst
  exact ⟨x ++ a₀, c, ds, by rw [hpa, ha, hns, List.append_assoc], hns, hc, hds⟩

theorem endsWithDigit_snoc (p : List Char) (c : Char) :
    endsWithDigit (p ++ [c]) = isDigit c := by
  simp [endsWithDigit]

/-- In the number state behind a text that does not end with a digit the
buffer is the sign alone. -/
theorem sign_buffer_of_reaches {pre : List Char} {m : Machine} (h : Reaches pre m)
    (hs : m.state = .Number) (hpre : endsWithDigit pre = false) : m.numberString = ['-'] := by
  obtain ⟨front, c, ds, rfl, hns, hc, hds⟩ := number_buffer_of_reaches h hs
  rcases List.eq_nil_or_concat ds with rfl | ⟨ds', e, hds'⟩
  on_goal 2 => rw [List.concat_eq_append] at hds'; subst hds'
  · have : endsWithDigit (front ++ [c]) = isDigit c := endsWithDigit_snoc front c
    rw [this] at hpre
    rcases hc with rfl | hc
    · exact hns
    · rw [hc] at hpre; cases hpre
  · have he : isDigit e = true := hds e (by simp)
    have : endsWithDigit (front ++ c :: (ds' ++ [e])) = isDigit e := by
      have := endsWithDigit_snoc (front ++ c :: ds') e
      simpa using this
    rw [this, he] at hpre
    cases hpre

theorem scan_cons_ok {m m' : Machine} {c : Char} (cs : List Char) (h : feed m c = .ok m')
    (hc : c ≠ NUL) : scan m (c :: cs) = scan m' cs := by
  rw [scan, if_neg hc, h]

theorem scan_cons_error {m : Machine} {c : Char} {o : Outcome} (cs : List Char)
    (h : feed m c = .error o) (hc : c ≠ NUL) : scan m (c :: cs) = o := by
  rw [scan, if_neg hc, h]

/-- A digit where an operator is expected makes the function return false,
once the pending numeral is converted. -/
theorem feed_digit_evaluation (m : Machine) {d : Char} (hs : m.state = .Evaluation)
    (hd : isDigit d = true) :
    feed m d =
      .error (match parseNumber m with
        | .error o => o
        | .ok _ => .rejected) := by
  rw [feed_evaluation d hs]
  cases parseNumber m with
  | error o => rfl
  | ok m₁ =>
    have e1 : d ≠ '+' := by rintro rfl; revert hd; decide
    have e2 : d ≠ '-' := by rintro rfl; revert hd; decide
    have e3 : d ≠ '*' := by rintro rfl; revert hd; decide
    have e4 : d ≠ '/' := by rintro rfl; revert hd; decide
    have e5 : d ≠ ')' := by rintro rfl; revert hd; decide
    exact evaluationFeed_other m₁ e1 e2 e3 e4 e5 (isDigit_ne_nul hd) (isDigit_not_space hd)

theorem feed_digit_evaluation_error (m : Machine) {d : Char} (hs : m.state = .Evaluation)
    (hd : isDigit d = true) :
    feed m d = .error .rejected ∨ feed m d = .error .undefined := by
  rw [feed_digit_evaluation m hs hd]
  cases hp : parseNumber m with
  | error o =>
    rcases parseNumber_error hp with rfl | rfl
    · exact Or.inl rfl
    · exact Or.inr rfl
  | ok m₁ => exact Or.inl rfl

theorem feed_digit_settled (m : Machine) {d : Char} (hs : m.state = .Evaluation)
    (hn : m.numberString = []) (hd : isDigit d = true) : feed m d = .error .rejected := by
  rw [feed_digit_evaluation m hs hd, parseNumber_settled hn]

theorem feed_digit_expression (m : Machine) {d : Char} (hs : m.state = .Expression)
    (hd : isDigit d = true) :
    feed m d = .ok { m with numberString := m.numberString ++ [d], state := .Number } := by
  rw [feed_expression d hs, if_pos (Or.inr hd)]

theorem feed_digit_number (m : Machine) {d : Char} (hs : m.state = .Number)
    (hd : isDigit d = true) :
    feed m d = .ok { m with numberString := m.numberString ++ [d] } := by
  rw [feed_number d hs, if_pos hd]

theorem evaluate_insert_zero (pre post : List Char) (d : Char) (hd : isDigit d = true)
    (hpre : endsWithDigit pre = false) :
    evaluate (pre ++ '0' :: d :: post) = evaluate (pre ++ d :: post) := by
  rw [evaluate_eq_scan, evaluate_eq_scan]
  by_cases hn : NUL ∈ pre
  · rw [scan_nul _ _ hn, scan_nul _ _ hn]
  · rw [scan_append _ _ _ hn, scan_append _ _ _ hn]
    cases hf : feedAll Machine.init pre with
    | error o => rfl
    | ok m =>
      dsimp only
      have hreach : Reaches pre m := ⟨hn, hf⟩
      have hdn : d ≠ NUL := isDigit_ne_nul hd
      have hz : isDigit '0' = true := rfl
      have hzn : '0' ≠ NUL := by decide
      refine congrArg some ?_
      have hcases : m.state = .Expression ∨ m.state = .Evaluation ∨ m.state = .Number := by
        cases m.state
        · exact Or.inl rfl
        · exact Or.inr (Or.inl rfl)
        · exact Or.inr (Or.inr rfl)
      rcases hcases with hstate | hstate | hstate
      · have hns := reaches_numberString hreach hstate
        rw [scan_cons_ok _ (feed_digit_expression m hstate hz) hzn,
          scan_cons_ok _ (feed_digit_number
            { m with numberString := m.numberString ++ ['0'], state := .Number } rfl hd) hdn,
          scan_cons_ok _ (feed_digit_expression m hstate hd) hdn]
        exact scan_leading_zero post
          { m with numberString := m.numberString ++ [d], state := .Number }
          (m.numberString ++ ['0'] ++ [d]) (by simp)
          ⟨[], [d], Or.inl rfl, by simp, by simpa using hd, by simp [hns], by simp [hns]⟩
      · rw [scan_cons_error _ (feed_digit_evaluation m hstate hz) hzn,
          scan_cons_error _ (feed_digit_evaluation m hstate hd) hdn]
      · have hns := sign_buffer_of_reaches hreach hstate hpre
        rw [scan_cons_ok _ (feed_digit_number m hstate hz) hzn,
          scan_cons_ok _ (feed_digit_number
            { m with numberString := m.numberString ++ ['0'] } hstate hd) hdn,
          scan_cons_ok _ (feed_digit_number m hstate hd) hdn]
        exact scan_leading_zero post
          { m with numberString := m.numberString ++ [d] }
          (m.numberString ++ ['0'] ++ [d]) (by simp [hstate])
          ⟨['-'], [d], Or.inr rfl, by simp, by simpa using hd, by simp [hns], by simp [hns]⟩

/-- Claim C12. Leading zeroes are accepted and do not change a numeral's value:
when `s'` is obtained from `s` by inserting `0` characters immediately in front
of the first digit of a numeral, `evaluate` does on `s'` what it does on `s`:
the same success flag and the same result. -/
theorem evaluate_zero_inserted (s s' : List Char) (h : ZeroInserted s s') :
    evaluate s' = evaluate s := by
  induction h with
  | same => rfl
  | insert pre post d _ hd hpre ih => rw [evaluate_insert_zero pre post d hd hpre, ih]

/-- Any number of zeroes may be inserted in front of a first digit. -/
theorem zeroInserted_replicate (s pre post : List Char) (d : Char)
    (h : ZeroInserted s (pre ++ d :: post)) (hd : isDigit d = true)
    (hpre : endsWithDigit pre = false) (k : Nat) :
    ZeroInserted s (pre ++ (List.replicate k '0' ++ d :: post)) := by
  induction k with
  | zero => exact h
  | succ k ih =>
    cases k with
    | zero => exact .insert s pre post d h hd hpre
    | succ k => exact .insert s pre (List.replicate k '0' ++ d :: post) '0' ih rfl hpre

/-- The examples of C12: `(((((00000000)))))` is `(((((0)))))` and
`(((((-00000000)))))` is `(((((-0)))))` with seven zeroes inserted in front of
the digit, and all four give 0. -/
theorem evaluate_zero_inserted_witness :
    (ZeroInserted "(((((0)))))".toList "(((((00000000)))))".toList ∧
      evaluate "(((((0)))))".toList = some (.accepted 0) ∧
      evaluate "(((((00000000)))))".toList = evaluate "(((((0)))))".toList) ∧
    (ZeroInserted "(((((-0)))))".toList "(((((-00000000)))))".toList ∧
      evaluate "(((((-0)))))".toList = some (.accepted 0) ∧
      evaluate "(((((-00000000)))))".toList = evaluate "(((((-0)))))".toList) :=
  have h₁ : ZeroInserted "(((((0)))))".toList "(((((00000000)))))".toList :=
    zeroInserted_replicate _ "(((((".toList ")))))".toList '0' (.same _) rfl (by decide) 7
  have h₂ : ZeroInserted "(((((-0)))))".toList "(((((-00000000)))))".toList :=
    zeroInserted_replicate _ "(((((-".toList ")))))".toList '0' (.same _) rfl (by decide) 7
  ⟨⟨h₁, by decide, evaluate_zero_inserted _ _ h₁⟩,
    ⟨h₂, by decide, evaluate_zero_inserted _ _ h₂⟩⟩

/-! ## Division and lone numerals (claims C13 and C14) -/

/-- The scan of the text of a valid and safe tree ends with `true` and the
reference value. -/
theorem evaluate_expr (lead : List Char) (e : Expr) (hl : AllSpace lead) (hv : e.Valid)
    (hs : e.Safe) : evaluate (lead ++ e.render) = some (.accepted e.value) := by
  obtain ⟨o', ho'⟩ := (scan_expr e hv hs).1 Machine.init [] rfl rfl rfl rfl trivial
  rw [List.append_nil] at ho'
  rw [evaluate_eq_scan, scan_spaces_expression rfl _ _ hl, ho', scan]
  have h4 : atEnd { Machine.init with result := e.value, op := o', state := .Evaluation } =
      finish { Machine.init with result := e.value, op := o', state := .Evaluation } :=
    atEnd_settled rfl rfl
  rw [h4]
  rfl

/-- The quotient of two values of `int` is a value of `int`, but for the
smallest one divided by -1. -/
theorem inInt_tdiv {a b : Int} (ha : inInt a) (hb : inInt b)
    (hmin : ¬(a = INT_MIN ∧ b = -1)) : inInt (Int.tdiv a b) := by
  simp only [inInt, INT_MIN, INT_MAX] at *
  by_cases h1 : b = 1
  · subst h1
    rw [Int.tdiv_one]
    exact ha
  by_cases h2 : b = -1
  · subst h2
    rw [Int.tdiv_neg, Int.tdiv_one]
    omega
  · have hq : (Int.tdiv a b).natAbs = a.natAbs / b.natAbs := Int.natAbs_tdiv a b
    have hle : a.natAbs / b.natAbs ≤ a.natAbs / 2 := by
      by_cases h0 : b = 0
      · subst h0
        simp
      · exact Nat.div_le_div_left (by omega) (by decide)
    omega

/-- The quotient `Int.tdiv` is the exact quotient rounded toward zero: its
magnitude is the magnitude of the dividend divided by that of the divisor,
rounded down, and it is not negative when the operands have the same sign and
not positive when they have opposite signs. -/
theorem tdiv_toward_zero (a b : Int) :
    (Int.tdiv a b).natAbs = a.natAbs / b.natAbs ∧
    (0 ≤ a → 0 ≤ b → 0 ≤ Int.tdiv a b) ∧ (a ≤ 0 → b ≤ 0 → 0 ≤ Int.tdiv a b) ∧
    (0 ≤ a → b ≤ 0 → Int.tdiv a b ≤ 0) ∧ (a ≤ 0 → 0 ≤ b → Int.tdiv a b ≤ 0) := by
  refine ⟨Int.natAbs_tdiv a b, Int.tdiv_nonneg, ?_, Int.tdiv_nonpos, ?_⟩
  · intro ha hb
    have := Int.tdiv_nonneg (a := -a) (b := -b) (by omega) (by omega)
    rwa [Int.tdiv_neg, Int.neg_tdiv, neg_neg] at this
  · intro ha hb
    have := Int.tdiv_nonneg (a := -a) (b := b) (by omega) hb
    rw [Int.neg_tdiv] at this
    omega

/-- Claim C13. Integer division truncates toward zero: for every pair of
numerals `a` and `b` in the range of `int` with `b` not 0 (and not
`a = -2147483648` with `b = -1`), `evaluate` on `a`, `/`, `b`, with any
whitespace around the operator, returns true with the quotient of `a` by `b`
rounded toward zero, for negative operands too. -/
theorem evaluate_division (a b : Numeral) (w₁ w₂ : List Char)
    (ha : a.Valid) (hb : b.Valid) (har : a.InRange) (hbr : b.InRange)
    (hw₁ : AllSpace w₁) (hw₂ : AllSpace w₂) (hz : b.value ≠ 0)
    (hmin : ¬(a.value = INT_MIN ∧ b.value = -1)) :
    evaluate (a.chars ++ w₁ ++ '/' :: w₂ ++ b.chars) =
      some (.accepted (Int.tdiv a.value b.value)) ∧
    (Int.tdiv a.value b.value).natAbs = a.value.natAbs / b.value.natAbs ∧
    (0 ≤ a.value → 0 ≤ b.value → 0 ≤ Int.tdiv a.value b.value) ∧
    (a.value ≤ 0 → b.value ≤ 0 → 0 ≤ Int.tdiv a.value b.value) ∧
    (0 ≤ a.value → b.value ≤ 0 → Int.tdiv a.value b.value ≤ 0) ∧
    (a.value ≤ 0 → 0 ≤ b.value → Int.tdiv a.value b.value ≤ 0) := by
  refine ⟨?_, tdiv_toward_zero a.value b.value⟩
  have h := evaluate_expr [] (.binary (.num a w₁) .Divide w₂ (.num b []))
    (fun _ h => absurd h (List.not_mem_nil _))
    ⟨⟨ha, hw₁⟩, hw₂, ⟨hb, fun _ h => absurd h (List.not_mem_nil _)⟩, trivial⟩
    ⟨har, hbr, fun _ => hz, inInt_tdiv har hbr hmin⟩
  simpa [Expr.render, Expr.value, Op.apply, opChar] using h

/-- The examples of C13: `1 / 3` gives 0 and `-7 / 2` gives -3; `1 * -5 / -2`
gives 2. -/
theorem evaluate_division_witness :
    (evaluate ((Numeral.plain ['1']).chars ++ [' '] ++ '/' :: [' '] ++ (Numeral.plain ['3']).chars)
        = some (.accepted (Int.tdiv (Numeral.plain ['1']).value (Numeral.plain ['3']).value)) ∧
      evaluate "1 / 3".toList = some (.accepted 0)) ∧
    (evaluate ((Numeral.mk true ['7']).chars ++ [' '] ++ '/' :: [' '] ++
        (Numeral.plain ['2']).chars)
        = some (.accepted (Int.tdiv (Numeral.mk true ['7']).value (Numeral.plain ['2']).value)) ∧
      evaluate "-7 / 2".toList = some (.accepted (-3))) ∧
    evaluate "1 * -5 / -2".toList = some (.accepted 2) :=
  ⟨⟨(evaluate_division (Numeral.plain ['1']) (Numeral.plain ['3']) [' '] [' ']
        (by decide) (by decide) (by decide) (by decide) (by decide) (by decide)
        (by decide) (by decide)).1, by decide⟩,
    ⟨(evaluate_division (Numeral.mk true ['7']) (Numeral.plain ['2']) [' '] [' ']
        (by decide) (by decide) (by decide) (by decide) (by decide) (by decide)
        (by decide) (by decide)).1, by decide⟩,
    by decide⟩

/-! ### The decimal rendering of an integer -/

theorem digitChar_spec (d : Nat) (h : d < 10) :
    isDigit (Nat.digitChar d) = true ∧ digitValue (Nat.digitChar d) = d := by
  interval_cases d <;> exact ⟨rfl, rfl⟩

theorem foldl_digits (ds : List Char) (acc : Nat) :
    ds.foldl (fun acc c => 10 * acc + digitValue c) acc =
      acc * 10 ^ ds.length + digitsValue ds := by
  induction ds generalizing acc with
  | nil => simp [digitsValue]
  | cons c ds ih =>
    simp only [List.foldl_cons, List.length_cons, digitsValue]
    rw [ih, ih (10 * 0 + digitValue c)]
    ring

theorem digitsValue_cons (c : Char) (ds : List Char) :
    digitsValue (c :: ds) = digitValue c * 10 ^ ds.length + digitsValue ds := by
  simp only [digitsValue, List.foldl_cons]
  rw [foldl_digits]
  simp [digitsValue]

/-- The digits that `Nat.toDigitsCore` puts in front of `ds` are decimal digits
and denote `n`. -/
theorem toDigitsCore_spec (fuel : Nat) :
    ∀ (n : Nat) (ds : List Char), n < fuel → (∀ c ∈ ds, isDigit c = true) →
      (Nat.toDigitsCore 10 fuel n ds ≠ []) ∧
      (∀ c ∈ Nat.toDigitsCore 10 fuel n ds, isDigit c = true) ∧
      digitsValue (Nat.toDigitsCore 10 fuel n ds) = n * 10 ^ ds.length + digitsValue ds := by
  induction fuel with
  | zero => intro n ds h; exact absurd h (Nat.not_lt_zero _)
  | succ fuel ih =>
    intro n ds hn hds
    obtain ⟨hd1, hd2⟩ := digitChar_spec (n % 10) (Nat.mod_lt _ (by decide))
    have hds' : ∀ c ∈ Nat.digitChar (n % 10) :: ds, isDigit c = true := by
      intro c hc
      rcases List.mem_cons.mp hc with rfl | hc
      · exact hd1
      · exact hds c hc
    simp only [Nat.toDigitsCore]
    by_cases h0 : n / 10 = 0
    · rw [if_pos h0]
      refine ⟨by simp, hds', ?_⟩
      rw [digitsValue_cons, hd2]
      have : n % 10 = n := Nat.mod_eq_of_lt (by omega)
      rw [this]
    · rw [if_neg h0]
      obtain ⟨h1, h2, h3⟩ := ih (n / 10) (Nat.digitChar (n % 10) :: ds) (by omega) hds'
      refine ⟨h1, h2, ?_⟩
      rw [h3, digitsValue_cons, hd2, List.length_cons, pow_succ]
      have := Nat.div_add_mod n 10
      calc n / 10 * (10 ^ ds.length * 10) + (n % 10 * 10 ^ ds.length + digitsValue ds)
          = (10 * (n / 10) + n % 10) * 10 ^ ds.length + digitsValue ds := by ring
        _ = n * 10 ^ ds.length + digitsValue ds := by rw [this]

theorem toDigits_spec (n : Nat) :
    Nat.toDigits 10 n ≠ [] ∧ (∀ c ∈ Nat.toDigits 10 n, isDigit c = true) ∧
      digitsValue (Nat.toDigits 10 n) = n := by
  have := toDigitsCore_spec (n + 1) n [] (Nat.lt_succ_self n)
    (fun _ h => absurd h (List.not_mem_nil _))
  simpa [Nat.toDigits, digitsValue] using this

/-- The rendering `decimal` is the standard one. -/
theorem decimal_eq_toString (n : Int) : decimal n = (toString n).toList := by
  cases n with
  | ofNat m =>
    have : ¬(Int.ofNat m < 0) := by simp
    simp only [decimal, this, if_false]
    rfl
  | negSucc m =>
    have : Int.negSucc m < 0 := Int.negSucc_lt_zero m
    simp only [decimal, this, if_true]
    rfl

theorem decimalNumeral_spec (n : Int) :
    (decimalNumeral n).Valid ∧ (decimalNumeral n).value = n ∧
      (decimalNumeral n).chars = decimal n := by
  obtain ⟨h1, h2, h3⟩ := toDigits_spec n.natAbs
  refine ⟨⟨h1, h2⟩, ?_, ?_⟩
  · simp only [Numeral.value, decimalNumeral, h3]
    by_cases hn : n < 0
    · simp only [hn, decide_True, if_true]
      omega
    · simp only [hn, decide_False, Bool.false_eq_true, if_false]
      omega
  · simp only [Numeral.chars, decimalNumeral, decimal]
    by_cases hn : n < 0
    · simp [hn]
    · simp [hn]

/-- Claim C14. The first move is an addition to 0, so a lone numeral evaluates to
itself: for every integer `n` in the range of `int`, from -2147483648 to
2147483647, `evaluate` on the decimal rendering of `n` (with a leading `-` when
it is negative) returns true with the result `n`. -/
theorem evaluate_decimal (n : Int) (hlo : INT_MIN ≤ n) (hhi : n ≤ INT_MAX) :
    evaluate (decimal n) = some (.accepted n) := by
  obtain ⟨hv, hval, hchars⟩ := decimalNumeral_spec n
  have h := evaluate_expr [] (.num (decimalNumeral n) [])
    (fun _ h => absurd h (List.not_mem_nil _))
    ⟨hv, fun _ h => absurd h (List.not_mem_nil _)⟩
    (by
      show (decimalNumeral n).InRange
      rw [Numeral.InRange, hval]
      exact ⟨hlo, hhi⟩)
  simpa [Expr.render, Expr.value, hval, hchars] using h

/-- Instances of C14: the numerals `1`, `-2147483648` and `2147483647` evaluate
to themselves. -/
theorem evaluate_decimal_witness :
    (decimal 1 = "1".toList ∧ evaluate (decimal 1) = some (.accepted 1)) ∧
    (decimal (-2147483648) = "-2147483648".toList ∧
      evaluate (decimal (-2147483648)) = some (.accepted (-2147483648))) ∧
    (decimal 2147483647 = "2147483647".toList ∧
      evaluate (decimal 2147483647) = some (.accepted 2147483647)) :=
  ⟨⟨by rfl, evaluate_decimal 1 (by decide) (by decide)⟩,
    ⟨by rfl, evaluate_decimal (-2147483648) (by decide) (by decide)⟩,
    ⟨by rfl, evaluate_decimal 2147483647 (by decide) (by decide)⟩⟩

/-! ## The result stays in the range of `int` -/

theorem inInt_wrapInt (x : Int) : inInt (wrapInt x) := by
  unfold inInt wrapInt INT_MIN INT_MAX
  omega

theorem processNumber_inInt {a b r : Int} {o : Op} (h : processNumber a b o = .value r) :
    inInt r := by
  cases o with
  | Add => simp only [processNumber, Computed.value.injEq] at h; rw [← h]; exact inInt_wrapInt _
  | Minus =>
    simp only [processNumber, Computed.value.injEq] at h; rw [← h]; exact inInt_wrapInt _
  | Multiply =>
    simp only [processNumber, Computed.value.injEq] at h; rw [← h]; exact inInt_wrapInt _
  | Divide =>
    simp only [processNumber] at h
    split_ifs at h
    simp only [Computed.value.injEq] at h
    rw [← h]
    exact inInt_wrapInt _

theorem parseNumber_inInt {m m' : Machine} (h : parseNumber m = .ok m')
    (hm : inInt m.result) : inInt m'.result := by
  unfold parseNumber at h
  split_ifs at h with h1 h2
  · simp only [Except.ok.injEq] at h
    rw [← h]
    exact hm
  · split at h
    · cases h
    · split_ifs at h
      split at h
      · cases h
      · cases h
      · rename_i r hr
        simp only [Except.ok.injEq] at h
        rw [← h]
        exact processNumber_inInt hr

theorem feed_inInt {m m' : Machine} {c : Char} (h : feed m c = .ok m')
    (hm : inInt m.result) : inInt m'.result := by
  by_cases hs : m.state = .Expression
  · rw [feed_expression c hs] at h
    split_ifs at h
    · injection h with h; rw [← h]; exact hm
    · injection h with h; rw [← h]; exact (by decide : inInt 0)
    · injection h with h; rw [← h]; exact hm
  · rcases feed_settle hs h with ⟨-, -, rfl⟩ | ⟨-, -, rfl⟩ | ⟨m₁, hset, hev⟩
    · exact hm
    · exact hm
    · have h₁ : inInt m₁.result := parseNumber_inInt hset hm
      rcases evaluationFeed_ok hev with ⟨o, -, rfl⟩ | ⟨-, _, _, _, r, -, hr, rfl⟩ |
        ⟨-, rfl⟩ | ⟨-, rfl⟩
      · exact h₁
      · exact processNumber_inInt hr
      · exact h₁
      · exact h₁

theorem feedAll_inInt {s : List Char} {m m' : Machine} (h : feedAll m s = .ok m')
    (hm : inInt m.result) : inInt m'.result := by
  induction s generalizing m with
  | nil =>
    simp only [feedAll, Except.ok.injEq] at h
    rw [← h]
    exact hm
  | cons c s ih =>
    rw [feedAll] at h
    cases hf : feed m c with
    | error o => rw [hf] at h; cases h
    | ok m₁ =>
      rw [hf] at h
      exact ih h (feed_inInt hf hm)

/-- The result of a successful evaluation is a value of `int`. -/
theorem inInt_of_accepted {s : List Char} {v : Int} (hs : NUL ∉ s)
    (h : evaluate s = some (.accepted v)) : inInt v := by
  obtain ⟨m, hreach, hend⟩ := reaches_of_accepted hs h
  obtain ⟨-, m', hset, -, hres⟩ := atEnd_accepted hend
  rw [← hres]
  have hm : inInt m.result := feedAll_inInt hreach.2 (by decide : inInt 0)
  exact parseNumber_inInt (m := { m with state := .Evaluation }) hset hm

/-! ## The scan does not look under the stack -/

theorem parseNumber_onStack (base : List (Int × Op)) {m m' : Machine}
    (h : parseNumber m = .ok m') :
    parseNumber (onStack base m) = .ok (onStack base m') := by
  unfold parseNumber at h ⊢
  simp only [onStack] at *
  by_cases h1 : m.numberString = []
  · rw [if_pos h1] at h ⊢
    injection h with h
    rw [← h]
  · rw [if_neg h1] at h ⊢
    by_cases h2 : m.numberString = ['-']
    · rw [if_pos h2] at h
      cases h
    · rw [if_neg h2] at h ⊢
      cases hst : stoi m.numberString with
      | none => rw [hst] at h; cases h
      | some number =>
        rw [hst] at h
        dsimp only at h ⊢
        by_cases h3 : number = 0 ∧ m.op = .Divide
        · rw [if_pos h3] at h
          cases h
        · rw [if_neg h3] at h ⊢
          cases hr : processNumber m.result number m.op with
          | thrown => rw [hr] at h; cases h
          | undefined => rw [hr] at h; cases h
          | value r =>
            rw [hr] at h
            dsimp only at h ⊢
            injection h with h
            rw [← h]

theorem evaluationFeed_onStack (base : List (Int × Op)) {m m' : Machine} {c : Char}
    (h : evaluationFeed m c = .ok m') :
    evaluationFeed (onStack base m) c = .ok (onStack base m') := by
  rcases evaluationFeed_ok h with ⟨o, rfl, rfl⟩ | ⟨rfl, saved, savedOp, st, r, hst, hr, rfl⟩ |
    ⟨rfl, rfl⟩ | ⟨hsp, rfl⟩
  · exact evaluationFeed_op _ o
  · rw [evaluationFeed_close]
    simp only [onStack, hst, List.cons_append, hr]
  · exact evaluationFeed_nul _
  · exact evaluationFeed_space _ hsp

theorem feed_onStack (base : List (Int × Op)) {m m' : Machine} {c : Char}
    (h : feed m c = .ok m') : feed (onStack base m) c = .ok (onStack base m') := by
  have hE : ∀ m₀ : Machine, m₀.state = .Evaluation → feed m₀ c = .ok m' →
      feed (onStack base m₀) c = .ok (onStack base m') := by
    intro m₀ hs₀ h₀
    rw [feed_evaluation c hs₀] at h₀
    rw [feed_evaluation (m := onStack base m₀) c hs₀]
    cases hp : parseNumber m₀ with
    | error o => rw [hp] at h₀; cases h₀
    | ok m₁ =>
      rw [hp] at h₀
      rw [parseNumber_onStack base hp]
      exact evaluationFeed_onStack base h₀
  have hcases : m.state = .Expression ∨ m.state = .Evaluation ∨ m.state = .Number := by
    cases m.state
    · exact Or.inl rfl
    · exact Or.inr (Or.inl rfl)
    · exact Or.inr (Or.inr rfl)
  rcases hcases with hs | hs | hs
  · rw [feed_expression c hs] at h
    rw [feed_expression (m := onStack base m) c hs]
    split_ifs at h ⊢
    · injection h with h; rw [← h]; rfl
    · injection h with h; rw [← h]; rfl
    · injection h with h; rw [← h]
  · exact hE m hs h
  · rw [feed_number c hs] at h
    rw [feed_number (m := onStack base m) c hs]
    split_ifs at h ⊢
    · injection h with h; rw [← h]; rfl
    · exact hE { m with state := .Evaluation } rfl h
    · injection h with h; rw [← h]; rfl

theorem feedAll_onStack (base : List (Int × Op)) {s : List Char} {m m' : Machine}
    (h : feedAll m s = .ok m') : feedAll (onStack base m) s = .ok (onStack base m') := by
  induction s generalizing m with
  | nil =>
    simp only [feedAll, Except.ok.injEq] at h
    rw [← h]
    rfl
  | cons c s ih =>
    rw [feedAll] at h
    cases hf : feed m c with
    | error o => rw [hf] at h; cases h
    | ok m₁ =>
      rw [hf] at h
      rw [feedAll, feed_onStack base hf]
      exact ih h

/-- An accepted string followed by `)`, scanned from the reset variables on a
stack with a frame: the value of the string is combined into the frame, which is
popped. -/
theorem scan_group {s : List Char} {v : Int} (hs : NUL ∉ s)
    (hv : evaluate s = some (.accepted v)) (saved : Int) (savedOp : Op)
    (base : List (Int × Op)) (rest : List Char) {r : Int}
    (hr : processNumber saved v savedOp = .value r) :
    ∃ o', scan { result := 0, op := .Add, stack := (saved, savedOp) :: base,
                 state := .Expression, numberString := [] } (s ++ ')' :: rest) =
      scan { result := r, op := o', stack := base, state := .Evaluation,
             numberString := [] } rest := by
  obtain ⟨m, hreach, hend⟩ := reaches_of_accepted hs hv
  obtain ⟨hstate, m', hset, hstack, hres⟩ := atEnd_accepted hend
  obtain ⟨hns, hst', -, -⟩ := settle_props hset
  refine ⟨m'.op, ?_⟩
  have h0 : feedAll (onStack ((saved, savedOp) :: base) Machine.init) s =
      .ok (onStack ((saved, savedOp) :: base) m) := feedAll_onStack _ hreach.2
  have h1 : settle (onStack ((saved, savedOp) :: base) m) =
      .ok (onStack ((saved, savedOp) :: base) m') :=
    parseNumber_onStack ((saved, savedOp) :: base) (m := { m with state := .Evaluation }) hset
  have h2 := scan_settle (m := onStack ((saved, savedOp) :: base) m) (')' :: rest) hstate
    (fun _ => show isDigit ')' = false from rfl) h1
  have hstk : (onStack ((saved, savedOp) :: base) m').stack = (saved, savedOp) :: base := by
    simp [onStack, hstack]
  have hpr : processNumber saved (onStack ((saved, savedOp) :: base) m').result savedOp =
      .value r := by
    simpa [onStack, hres] using hr
  have h3 := scan_close (onStack ((saved, savedOp) :: base) m') rest hst' hns hstk hpr
  have e0 : ({ result := 0, op := .Add, stack := (saved, savedOp) :: base,
               state := .Expression, numberString := [] } : Machine) =
      onStack ((saved, savedOp) :: base) Machine.init := rfl
  rw [e0, scan_append _ _ _ hs, h0]
  dsimp only
  rw [h2, h3]
  have e1 : ({ onStack ((saved, savedOp) :: base) m' with result := r, stack := base } :
      Machine) = { result := r, op := m'.op, stack := base, state := .Evaluation,
                   numberString := [] } := by
    simp [onStack, hst', hns]
  rw [e1]

/-! ## Brackets around an accepted string (claims C15 and C16) -/

theorem evaluate_in_brackets {s : List Char} {v : Int} (hs : NUL ∉ s)
    (hv : evaluate s = some (.accepted v)) :
    evaluate ('(' :: s ++ [')']) = some (.accepted v) := by
  have hr : processNumber 0 v .Add = .value v := by
    simp only [processNumber, zero_add, wrapInt_of_inInt (inInt_of_accepted hs hv)]
  obtain ⟨o', ho'⟩ := scan_group hs hv 0 .Add [] [] hr
  rw [evaluate_eq_scan, List.cons_append, scan_open Machine.init _ rfl]
  refine congrArg some ?_
  show scan { result := 0, op := .Add, stack := [(0, .Add)], state := .Expression,
              numberString := [] } (s ++ [')']) = _
  rw [ho', scan]
  have h4 := atEnd_settled (m := ⟨v, o', [], .Evaluation, []⟩) rfl rfl
  rw [h4]
  rfl

theorem bracketed_no_nul {s : List Char} (hs : NUL ∉ s) (k : Nat) : NUL ∉ bracketed k s := by
  induction k with
  | zero => exact hs
  | succ k ih =>
    intro h
    simp only [bracketed, List.mem_cons, List.mem_append, List.mem_singleton] at h
    rcases h with (h | h) | h
    · exact absurd h (by decide)
    · exact ih h
    · exact absurd h (by decide)

/-- Claim C15. Wrapping a valid expression in brackets does not change its
value: when `evaluate` returns true on a string `s` (a C string, without NUL
inside) with the value `v`, it returns true with `v` on `s` wrapped in any
number of pairs of brackets. -/
theorem evaluate_bracketed (k : Nat) (s : List Char) (v : Int) (hs : NUL ∉ s)
    (hv : evaluate s = some (.accepted v)) :
    evaluate (bracketed k s) = some (.accepted v) := by
  induction k with
  | zero => exact hv
  | succ k ih => exact evaluate_in_brackets (bracketed_no_nul hs k) ih

/-- The examples of C15: `(1)` gives 1, `(1000)` gives 1000 and `(((((0)))))`
gives 0. -/
theorem evaluate_bracketed_witness :
    (bracketed 1 "1".toList = "(1)".toList ∧ evaluate "1".toList = some (.accepted 1) ∧
      evaluate (bracketed 1 "1".toList) = some (.accepted 1)) ∧
    (bracketed 1 "1000".toList = "(1000)".toList ∧
      evaluate (bracketed 1 "1000".toList) = some (.accepted 1000)) ∧
    (bracketed 5 "0".toList = "(((((0)))))".toList ∧
      evaluate (bracketed 5 "0".toList) = some (.accepted 0)) :=
  ⟨⟨by decide, by decide, evaluate_bracketed 1 "1".toList 1 (by decide) (by decide)⟩,
    ⟨by decide, evaluate_bracketed 1 "1000".toList 1000 (by decide) (by decide)⟩,
    ⟨by decide, evaluate_bracketed 5 "0".toList 0 (by decide) (by decide)⟩⟩

/-- The scan of a numeral, an operator and a bracketed accepted string. -/
theorem evaluate_numeral_operator_group (a : Numeral) (o : Op) (w₁ w₂ s : List Char) (v : Int)
    (ha : a.Valid) (har : a.InRange) (hw₁ : AllSpace w₁) (hw₂ : AllSpace w₂)
    (hs : NUL ∉ s) (hv : evaluate s = some (.accepted v)) (hz : o = .Divide → v ≠ 0)
    (hmin : ¬(o = .Divide ∧ a.value = INT_MIN ∧ v = -1)) :
    evaluate (a.chars ++ w₁ ++ opChar o :: w₂ ++ '(' :: s ++ [')']) =
      some (.accepted (wrapInt (o.apply a.value v))) := by
  have hr : processNumber a.value v o = .value (wrapInt (o.apply a.value v)) :=
    processNumber_eq_apply _ _ _ hz hmin
  obtain ⟨o', ho'⟩ := scan_group hs hv a.value o [] [] hr
  have hahead : noDigitAhead (w₁ ++ opChar o :: (w₂ ++ '(' :: (s ++ [')']))) := by
    cases w₁ with
    | nil => exact opChar_not_digit o
    | cons c w => exact isSpace_not_digit (hw₁ c (List.mem_cons_self _ _))
  obtain ⟨r₀, hr₀, hscan⟩ := scan_numeral Machine.init
    (w₁ ++ opChar o :: (w₂ ++ '(' :: (s ++ [')']))) rfl rfl ha har
    (fun h => by cases h.2) (fun h => by cases h.1) hahead
  have hr₀' : r₀ = a.value := by
    have : processNumber 0 a.value .Add = .value a.value := by
      simp only [processNumber, zero_add, wrapInt_of_inInt (show inInt a.value from har)]
    have h' : processNumber 0 a.value .Add = .value r₀ := hr₀
    rw [this] at h'
    injection h' with h'
    exact h'.symm
  subst hr₀'
  have e0 : a.chars ++ w₁ ++ opChar o :: w₂ ++ '(' :: s ++ [')'] =
      a.chars ++ (w₁ ++ opChar o :: (w₂ ++ '(' :: (s ++ [')']))) := by simp
  rw [evaluate_eq_scan, e0, hscan]
  refine congrArg some ?_
  rw [scan_spaces_settled
      (m := { Machine.init with result := a.value, state := .Evaluation }) rfl rfl w₁ _ hw₁,
    scan_operator { Machine.init with result := a.value, state := .Evaluation } o _ rfl rfl,
    scan_spaces_expression
      (m := { Machine.init with result := a.value, op := o, state := .Expression })
      rfl w₂ _ hw₂,
    scan_open { Machine.init with result := a.value, op := o, state := .Expression } _ rfl]
  show scan { result := 0, op := .Add, stack := [(a.value, o)], state := .Expression,
              numberString := [] } (s ++ [')']) = _
  rw [ho', scan]
  have h4 := atEnd_settled (m := ⟨wrapInt (o.apply a.value v), o', [], .Evaluation, []⟩)
    rfl rfl
  rw [h4]
  rfl

/-- Claim C16, as amended. On `)` the saved result is the left operand and the
value of the group the right operand of the saved operator: for every numeral
`a` in the range of `int`, every operator `o` and every string `s` (a C
string) on which `evaluate` returns true with the value `v` (`v` not 0 when
`o` is the division, and not `a` equal to `INT_MIN` with `v` equal to `-1`
when `o` is the division), `evaluate` on `a`, `o`, `(`, `s`, `)`, with any
whitespace around the operator, returns true with the value of `a o v` in
32-bit arithmetic, which is the exact value of `a o v`, the division
truncating toward zero, whenever that is in the range of `int`. -/
theorem evaluate_operator_group (a : Numeral) (o : Op) (w₁ w₂ s : List Char) (v : Int)
    (ha : a.Valid) (har : a.InRange) (hw₁ : AllSpace w₁) (hw₂ : AllSpace w₂)
    (hs : NUL ∉ s) (hv : evaluate s = some (.accepted v)) (hz : o = .Divide → v ≠ 0)
    (hmin : ¬(o = .Divide ∧ a.value = INT_MIN ∧ v = -1)) :
    evaluate (a.chars ++ w₁ ++ opChar o :: w₂ ++ '(' :: s ++ [')']) =
        some (.accepted (wrapInt (o.apply a.value v))) ∧
      (inInt (o.apply a.value v) →
        evaluate (a.chars ++ w₁ ++ opChar o :: w₂ ++ '(' :: s ++ [')']) =
          some (.accepted (o.apply a.value v))) := by
  have key := evaluate_numeral_operator_group a o w₁ w₂ s v ha har hw₁ hw₂ hs hv hz hmin
  refine ⟨key, fun hfit => ?_⟩
  rw [key, wrapInt_of_inInt hfit]

/-- The examples of C16: `14 / ( 3 + 4)` gives 2, and `40 - (3 * ((5 * 6) - (5 * 8)))`
gives 70, also inside the brackets of the test. -/
theorem evaluate_operator_group_witness :
    (evaluate " 3 + 4".toList = some (.accepted 7) ∧
      (Numeral.plain ['1', '4']).chars ++ [' '] ++ opChar .Divide :: [' '] ++
        '(' :: " 3 + 4".toList ++ [')'] = "14 / ( 3 + 4)".toList ∧
      Op.Divide.apply (Numeral.plain ['1', '4']).value 7 = 2 ∧
      evaluate ((Numeral.plain ['1', '4']).chars ++ [' '] ++ opChar .Divide :: [' '] ++
        '(' :: " 3 + 4".toList ++ [')']) =
          some (.accepted (Op.Divide.apply (Numeral.plain ['1', '4']).value 7))) ∧
    (evaluate "3 * ((5 * 6) - (5 * 8))".toList = some (.accepted (-30)) ∧
      Op.Minus.apply (Numeral.plain ['4', '0']).value (-30) = 70 ∧
      evaluate ((Numeral.plain ['4', '0']).chars ++ [' '] ++ opChar .Minus :: [' '] ++
        '(' :: "3 * ((5 * 6) - (5 * 8))".toList ++ [')']) =
          some (.accepted (Op.Minus.apply (Numeral.plain ['4', '0']).value (-30))) ∧
      evaluate "(40 - (3 * ((5 * 6) - (5 * 8))))".toList = some (.accepted 70)) :=
  ⟨⟨by decide, by decide, by decide,
      (evaluate_operator_group (Numeral.plain ['1', '4']) .Divide [' '] [' '] " 3 + 4".toList 7
        (by decide) (by decide) (by decide) (by decide) (by decide) (by decide)
        (by decide) (by decide)).2 (by decide)⟩,
    ⟨by decide, by decide,
      (evaluate_operator_group (Numeral.plain ['4', '0']) .Minus [' '] [' ']
        "3 * ((5 * 6) - (5 * 8))".toList (-30)
        (by decide) (by decide) (by decide) (by decide) (by decide) (by decide)
        (by decide) (by decide)).2 (by decide),
      by decide⟩⟩

/-- Claim C16 fails as stated. The numeral `-2147483648` is in the range of
`int`, `evaluate` returns true on `-1` with the value `-1`, which is not 0, and
on `-2147483648`, the division sign and `(-1)` in a row `evaluate` does not
return true: at the `)` it divides `INT_MIN` by `-1`, which has no value. -/
theorem operator_group_undefined :
    (Numeral.mk true "2147483648".toList).Valid ∧
    (Numeral.mk true "2147483648".toList).InRange ∧
    NUL ∉ "-1".toList ∧ evaluate "-1".toList = some (.accepted (-1)) ∧
    (Numeral.mk true "2147483648".toList).chars ++ [] ++ opChar .Divide :: [] ++
      '(' :: "-1".toList ++ [')'] = "-2147483648/(-1)".toList ∧
    evaluate ((Numeral.mk true "2147483648".toList).chars ++ [] ++ opChar .Divide :: [] ++
      '(' :: "-1".toList ++ [')']) = some .undefined ∧
    ¬∃ r, evaluate ((Numeral.mk true "2147483648".toList).chars ++ [] ++
      opChar .Divide :: [] ++ '(' :: "-1".toList ++ [')']) = some (.accepted r) :=
  ⟨by decide, by decide, by decide, by decide, by decide, by decide, by
    rw [show evaluate ((Numeral.mk true "2147483648".toList).chars ++ [] ++
      opChar .Divide :: [] ++ '(' :: "-1".toList ++ [')']) = some .undefined by decide]
    rintro ⟨r, hr⟩
    cases hr⟩

/-! ## A term where an operator is expected (claim C17) -/

theorem feed_term_settled (m : Machine) {c : Char} (hs : m.state = .Evaluation)
    (hn : m.numberString = []) (hc : c = '(' ∨ isDigit c = true) :
    feed m c = .error .rejected := by
  rcases hc with rfl | hc
  · rw [feed_evaluation _ hs, parseNumber_settled hn]
    simp [evaluationFeed, evaluationArm, NUL, isSpace]
  · exact feed_digit_settled m hs hn hc

/-- In the evaluation state whitespace followed by a digit or by `(` makes the
function return false, unless the conversion of the pending numeral divides
`INT_MIN` by `-1`. -/
theorem scan_term_evaluation (m : Machine) {w : List Char} {c : Char} (post : List Char)
    (hs : m.state = .Evaluation) (hw : AllSpace w) (hc : c = '(' ∨ isDigit c = true) :
    scan m (w ++ c :: post) = .rejected ∨ scan m (w ++ c :: post) = .undefined := by
  have hcn : c ≠ NUL := by
    rcases hc with rfl | hc
    · decide
    · exact isDigit_ne_nul hc
  have hstate : m.state ≠ .Expression := by rw [hs]; simp
  have hnum : m.state = .Number → numeralEndsAhead (w ++ c :: post) := by
    intro h; rw [hs] at h; cases h
  rw [scan_settle_ends _ hstate hnum]
  cases hset : settle m with
  | error o =>
    rcases parseNumber_error hset with rfl | rfl
    · exact Or.inl rfl
    · exact Or.inr rfl
  | ok m₁ =>
    obtain ⟨hns, hst₁, -, -⟩ := settle_props hset
    left
    dsimp only
    rw [scan_spaces_settled hst₁ hns w _ hw]
    exact scan_cons_error post (feed_term_settled m₁ hst₁ hns hc) hcn

theorem feed_close_settled {m m' : Machine} (h : feed m ')' = .ok m') :
    m'.numberString = [] := by
  by_cases hs : m.state = .Expression
  · rw [feed_expression ')' hs] at h
    simp [isDigit, isSpace] at h
  · rcases feed_settle hs h with ⟨-, hd, -⟩ | ⟨-, hsp, -⟩ | ⟨m₁, hset, hev⟩
    · exact absurd hd (by decide)
    · exact absurd hsp (by decide)
    · rw [evaluationFeed_numberString hev]
      exact (settle_props hset).1

theorem feed_digit_state {m m' : Machine} {t : Char} (h : feed m t = .ok m')
    (ht : isDigit t = true) : m'.state = .Number := by
  have hcases : m.state = .Expression ∨ m.state = .Evaluation ∨ m.state = .Number := by
    cases m.state
    · exact Or.inl rfl
    · exact Or.inr (Or.inl rfl)
    · exact Or.inr (Or.inr rfl)
  rcases hcases with hs | hs | hs
  · rw [feed_digit_expression m hs ht] at h
    injection h with h
    rw [← h]
  · rw [feed_digit_evaluation m hs ht] at h
    cases h
  · rw [feed_digit_number m hs ht] at h
    injection h with h
    rw [← h]
    exact hs

theorem feed_close_state {m m' : Machine} (h : feed m ')' = .ok m') :
    m'.state = .Evaluation := by
  by_cases hs : m.state = .Expression
  · rw [feed_expression ')' hs] at h
    simp [isDigit, isSpace] at h
  · rcases feed_settle hs h with ⟨-, hd, -⟩ | ⟨-, hsp, -⟩ | ⟨m₁, hset, hev⟩
    · exact absurd hd (by decide)
    · exact absurd hsp (by decide)
    · have hst₁ := (settle_props hset).2.1
      rcases evaluationFeed_ok hev with ⟨o, ho, -⟩ | ⟨-, _, _, _, _, -, -, rfl⟩ |
        ⟨h0, -⟩ | ⟨hsp, -⟩
      · cases o <;> exact absurd ho (by decide)
      · exact hst₁
      · exact absurd h0 (by decide)
      · exact absurd hsp (by decide)

/-- A completed term, a numeral or a `)`, that the loop has consumed, followed
by the start of another term, a digit behind whitespace or behind `)`, or a
`(`, makes `evaluate` return false, unless the loop converts the numeral
first and divides `INT_MIN` by `-1`. -/
theorem evaluate_term_after_term_of_reaches {pre : List Char} {t : Char} {m : Machine}
    (h : Reaches (pre ++ [t]) m) (ht : isDigit t = true ∨ t = ')')
    {w : List Char} (hw : AllSpace w) {c : Char}
    (hc : c = '(' ∨ (isDigit c = true ∧ (w ≠ [] ∨ t = ')'))) (post : List Char) :
    evaluate (pre ++ t :: (w ++ c :: post)) = some .rejected ∨
      evaluate (pre ++ t :: (w ++ c :: post)) = some .undefined := by
  have e0 : pre ++ t :: (w ++ c :: post) = (pre ++ [t]) ++ (w ++ c :: post) := by simp
  rw [e0, evaluate_of_reaches h]
  have lift : ∀ {x : Outcome}, x = .rejected ∨ x = .undefined →
      some x = some Outcome.rejected ∨ some x = some Outcome.undefined := by
    intro x hx
    rcases hx with hx | hx
    · exact Or.inl (congrArg some hx)
    · exact Or.inr (congrArg some hx)
  refine lift ?_
  obtain ⟨m₁, -, hfeed⟩ := feedAll_snoc h.2
  have hc' : c = '(' ∨ isDigit c = true := hc.imp id And.left
  rcases ht with ht | rfl
  · have hs : m.state = .Number := feed_digit_state hfeed ht
    cases w with
    | nil =>
      rcases hc with rfl | ⟨-, hne | rfl⟩
      · rw [List.nil_append]
        refine Or.inl (scan_cons_error post ?_ (by decide))
        rw [feed_number '(' hs]
        simp [isDigit, isSpace, NUL]
      · exact absurd rfl hne
      · exact absurd ht (by decide)
    | cons s w =>
      have hsp : isSpace s = true := hw s (List.mem_cons_self _ _)
      have hf : feed m s = .ok { m with state := .Evaluation } := by
        rw [feed_number s hs, if_neg (by rw [isSpace_not_digit hsp]; simp)]
        have h2 : ¬(s = '+' ∨ s = '-' ∨ s = '*' ∨ s = '/' ∨ s = ')' ∨ s = NUL) := by
          have h : s = ' ' ∨ s = '\t' ∨ s = '\n' ∨ s = '\r' := by
            simpa [isSpace, or_assoc] using hsp
          rcases h with rfl | rfl | rfl | rfl <;> decide
        rw [if_neg h2, if_pos hsp]
      rw [List.cons_append, scan_cons_ok _ hf (isSpace_ne_nul hsp)]
      exact scan_term_evaluation _ post rfl
        (fun d hd => hw d (List.mem_cons_of_mem _ hd)) hc'
  · exact scan_term_evaluation m post (feed_close_state hfeed) hw hc'

/-- On a string in which a completed term is followed by the start of another
term `evaluate` does not return true. -/
theorem evaluate_term_after_term_not_accepted (pre : List Char) {t : Char}
    (hpre : NUL ∉ pre ++ [t]) (ht : isDigit t = true ∨ t = ')')
    {w : List Char} (hw : AllSpace w) {c : Char}
    (hc : c = '(' ∨ (isDigit c = true ∧ (w ≠ [] ∨ t = ')'))) (post : List Char) :
    evaluate (pre ++ t :: (w ++ c :: post)) = some .rejected ∨
      evaluate (pre ++ t :: (w ++ c :: post)) = some .uncaught ∨
      evaluate (pre ++ t :: (w ++ c :: post)) = some .undefined := by
  cases hf : feedAll Machine.init (pre ++ [t]) with
  | ok m =>
    rcases evaluate_term_after_term_of_reaches ⟨hpre, hf⟩ ht hw hc post with h | h
    · exact Or.inl h
    · exact Or.inr (Or.inr h)
  | error o =>
    have e0 : pre ++ t :: (w ++ c :: post) = (pre ++ [t]) ++ (w ++ c :: post) := by simp
    rw [e0, evaluate_eq_scan, scan_append _ _ _ hpre, hf]
    rcases feedAll_error hf with rfl | rfl | rfl
    · exact Or.inl rfl
    · exact Or.inr (Or.inl rfl)
    · exact Or.inr (Or.inr rfl)

/-- The examples of C17 return false. -/
theorem term_after_term_examples :
    evaluate "1 2".toList = some .rejected ∧ evaluate "1(2)".toList = some .rejected ∧
    evaluate "(1)(2)".toList = some .rejected ∧ evaluate "(1) 2".toList = some .rejected := by
  decide

/-- Claim C17 says that `evaluate` fails on every input in which a completed
term, a numeral or a `)`, is followed, with only whitespace or nothing in
between, by the start of another term.  In `1/(0)+1 2` the numeral `1` is
followed by whitespace and the digit `2`, and `evaluate` does not return false:
the exception of the division by the group `(0)` leaves it first. -/
theorem evaluate_term_after_term_behind_group :
    "1/(0)+1 2".toList = "1/(0)+".toList ++ '1' :: ([' '] ++ '2' :: []) ∧
    isDigit '1' = true ∧ AllSpace [' '] ∧ isDigit '2' = true ∧
    evaluate "1/(0)+1 2".toList = some .uncaught :=
  ⟨by decide, by decide, by decide, by decide, by decide⟩

/-! ## Numerals outside the range of `int` (claim C20) -/

theorem stoi_out_of_range {n : Numeral} (hv : n.Valid) (hr : ¬n.InRange) :
    stoi n.chars = none := by
  obtain ⟨neg, ds⟩ := n
  obtain ⟨hne, hds⟩ := hv
  simp only at hne hds
  cases neg with
  | true =>
    have hr' : ¬(INT_MIN ≤ -(digitsValue ds : Int) ∧ -(digitsValue ds : Int) ≤ INT_MAX) := by
      simpa [Numeral.InRange, Numeral.value] using hr
    simp [stoi, Numeral.chars, takeWhile_digits hds, hne, hr']
  | false =>
    have hr' : ¬(INT_MIN ≤ (digitsValue ds : Int) ∧ (digitsValue ds : Int) ≤ INT_MAX) := by
      simpa [Numeral.InRange, Numeral.value] using hr
    cases ds with
    | nil => exact absurd rfl hne
    | cons d ds =>
      have hd : d ≠ '-' := isDigit_ne_minus (hds d (List.mem_cons_self _ _))
      simp [stoi, Numeral.chars, takeWhile_digits hds, hd]
      intro h1
      by_contra h2
      exact hr' ⟨h1, not_lt.mp h2⟩

/-- A numeral outside the range of `int` that the loop reaches while a term is
expected, and that ends there, makes `evaluate` return false: the exception of
`stoi` is caught. -/
theorem evaluate_out_of_range_of_reaches {pre : List Char} {m : Machine}
    (h : Reaches pre m) (hs : m.state = .Expression) {n : Numeral} (hv : n.Valid)
    (hr : ¬n.InRange) {post : List Char} (hpost : noDigitAhead post) :
    evaluate (pre ++ (n.chars ++ post)) = some .rejected := by
  have hns := reaches_numberString h hs
  rw [evaluate_of_reaches h, scan_append _ _ _ (numeral_no_nul hv), feedAll_numeral m hs hns hv]
  dsimp only
  refine congrArg some (scan_settle_none post (by simp) (fun _ => hpost) ?_)
  simp [settle, parseNumber, numeral_ne_nil hv, numeral_ne_minus hv, stoi_out_of_range hv hr]

/-- On a string with a run of digits whose value is above 2147483648, out of
range with and without a sign, `evaluate` does not return true. -/
theorem evaluate_out_of_range_not_accepted (pre : List Char) (hpre : NUL ∉ pre)
    (hend : endsWithDigit pre = false) {ds : List Char} (hne : ds ≠ [])
    (hds : ∀ c ∈ ds, isDigit c = true) (hbig : INT_MAX + 1 < (digitsValue ds : Int))
    {post : List Char} (hpost : noDigitAhead post) :
    evaluate (pre ++ (ds ++ post)) = some .rejected ∨
      evaluate (pre ++ (ds ++ post)) = some .uncaught ∨
      evaluate (pre ++ (ds ++ post)) = some .undefined := by
  cases hf : feedAll Machine.init pre with
  | error o =>
    rw [evaluate_eq_scan, scan_append _ _ _ hpre, hf]
    rcases feedAll_error hf with rfl | rfl | rfl
    · exact Or.inl rfl
    · exact Or.inr (Or.inl rfl)
    · exact Or.inr (Or.inr rfl)
  | ok m =>
    have hreach : Reaches pre m := ⟨hpre, hf⟩
    have hcases : m.state = .Expression ∨ m.state = .Evaluation ∨ m.state = .Number := by
      cases m.state
      · exact Or.inl rfl
      · exact Or.inr (Or.inl rfl)
      · exact Or.inr (Or.inr rfl)
    rcases hcases with hs | hs | hs
    · left
      have hv : (Numeral.mk false ds).Valid := ⟨hne, hds⟩
      have hr : ¬(Numeral.mk false ds).InRange := by
        simp only [Numeral.InRange, Numeral.value, INT_MAX, INT_MIN] at hbig ⊢
        simp only [Bool.false_eq_true, if_false]
        omega
      exact evaluate_out_of_range_of_reaches hreach hs hv hr hpost
    · cases ds with
      | nil => exact absurd rfl hne
      | cons d ds =>
        have hd := hds d (List.mem_cons_self _ _)
        rw [evaluate_of_reaches hreach, List.cons_append]
        rcases feed_digit_evaluation_error m hs hd with hfd | hfd
        · exact Or.inl (congrArg some (scan_cons_error _ hfd (isDigit_ne_nul hd)))
        · exact Or.inr (Or.inr (congrArg some (scan_cons_error _ hfd (isDigit_ne_nul hd))))
    · left
      have hbuf := sign_buffer_of_reaches hreach hs hend
      have hv : (Numeral.mk true ds).Valid := ⟨hne, hds⟩
      have hr : ¬(Numeral.mk true ds).InRange := by
        simp only [Numeral.InRange, Numeral.value, INT_MAX, INT_MIN] at hbig ⊢
        simp only [if_true]
        omega
      have hnul : NUL ∉ ds := fun h => absurd (hds NUL h) (by decide)
      rw [evaluate_of_reaches hreach, scan_append _ _ _ hnul, feedAll_digits m hs ds hds]
      dsimp only
      refine congrArg some (scan_settle_none post (by rw [hs]; simp) (fun _ => hpost) ?_)
      have hch : m.numberString ++ ds = (Numeral.mk true ds).chars := by
        rw [hbuf]
        rfl
      simp only [settle, hch]
      simp [parseNumber, numeral_ne_nil hv, numeral_ne_minus hv, stoi_out_of_range hv hr]

/-- The examples of C20: `99999999999` and `1 + 2147483648` return false, and
the boundary numerals `2147483647` and `-2147483648` are accepted. -/
theorem out_of_range_examples :
    evaluate "99999999999".toList = some .rejected ∧
    evaluate "1 + 2147483648".toList = some .rejected ∧
    evaluate "-2147483649".toList = some .rejected ∧
    evaluate "2147483647".toList = some (.accepted 2147483647) ∧
    evaluate "-2147483648".toList = some (.accepted (-2147483648)) := by
  decide

/-- Claim C20 says that `evaluate` fails on every input that contains a numeral
whose value is outside the range of `int`.  `1/(0)+99999999999` contains the
numeral `99999999999`, and `evaluate` does not return false: the exception of
the division by the group `(0)` leaves it before the numeral is read. -/
theorem evaluate_out_of_range_behind_group :
    "1/(0)+99999999999".toList =
      "1/(0)+".toList ++ ((Numeral.plain "99999999999".toList).chars ++ []) ∧
    (Numeral.plain "99999999999".toList).Valid ∧
    ¬(Numeral.plain "99999999999".toList).InRange ∧
    evaluate "1/(0)+99999999999".toList = some .uncaught :=
  ⟨by decide, by decide, by decide, by decide⟩

/-! ## The iterations of the loop (claims C18 and C19) -/

theorem iterations_succ (fuel : Nat) (m : Machine) (cs : List Char) :
    iterations (fuel + 1) m cs =
      (m, cs) ::
        match dispatch m (cs.headD NUL) with
        | .halt _ => []
        | .again m' => iterations fuel m' cs
        | .advance m' =>
          if cs.headD NUL = NUL then [] else iterations fuel m' cs.tail := rfl

/-- The three ways an iteration goes on: it was the last one, it asks for the
same character again, or it moves to the next character. -/
theorem iterations_cases (fuel : Nat) (m : Machine) (cs : List Char) :
    iterations (fuel + 1) m cs = [(m, cs)] ∨
    (∃ m', dispatch m (cs.headD NUL) = .again m' ∧
      iterations (fuel + 1) m cs = (m, cs) :: iterations fuel m' cs) ∨
    (∃ m' c t, cs = c :: t ∧ c ≠ NUL ∧ dispatch m c = .advance m' ∧
      iterations (fuel + 1) m cs = (m, cs) :: iterations fuel m' t) := by
  rw [iterations_succ]
  cases hd : dispatch m (cs.headD NUL) with
  | halt o => exact Or.inl rfl
  | again m' => exact Or.inr (Or.inl ⟨m', rfl, rfl⟩)
  | advance m' =>
    by_cases hc : cs.headD NUL = NUL
    · left
      dsimp only
      rw [if_pos hc]
    · right; right
      cases cs with
      | nil => exact absurd rfl hc
      | cons c t =>
        refine ⟨m', c, t, rfl, hc, hd, ?_⟩
        dsimp only
        rw [if_neg hc]
        rfl

theorem dispatch_again_char {m m' : Machine} {c : Char} (h : dispatch m c = .again m') :
    endsNumeral c := by
  have hs := (dispatch_again h).1
  unfold dispatch at h
  rw [hs] at h
  dsimp only at h
  unfold numberArm at h
  split_ifs at h with h1 h2 h3
  exact h2

theorem dispatch_advance_feed {m m' : Machine} {c : Char} (h : dispatch m c = .advance m') :
    feed m c = .ok m' := by
  unfold feed
  rw [h]

theorem dispatch_halt {m : Machine} {c : Char} {o : Outcome} (h : dispatch m c = .halt o) :
    o = .rejected ∨ o = .uncaught ∨ o = .undefined := by
  refine feed_error (m := m) (c := c) ?_
  unfold feed
  rw [h]

theorem dispatch_nul_stack {m m' : Machine} (h : dispatch m NUL = .advance m') :
    m'.stack = m.stack := by
  have hf := dispatch_advance_feed h
  have hs : m.state ≠ .Expression := by
    intro hs
    rw [feed_nul_expression hs] at hf
    cases hf
  rw [feed_nul_settle hs] at hf
  cases hset : settle m with
  | error o => rw [hset] at hf; cases hf
  | ok m₁ =>
    rw [hset] at hf
    injection hf with hf
    rw [← hf]
    exact (settle_props hset).2.2.1

/-- The loop runs at most twice for each character and for the terminator, and
once only for the current character unless it is in `State::Number`. -/
theorem iterations_length : ∀ (fuel : Nat) (m : Machine) (cs : List Char),
    (iterations fuel m cs).length ≤ 2 * cs.length + (if m.state = .Number then 2 else 1) := by
  intro fuel
  induction fuel with
  | zero =>
    intro m cs
    simp [iterations]
  | succ fuel ih =>
    intro m cs
    rcases iterations_cases fuel m cs with h | ⟨m', hd, h⟩ | ⟨m', c, t, rfl, -, -, h⟩
    · rw [h]
      simp only [List.length_singleton]
      split_ifs <;> omega
    · obtain ⟨hs, rfl⟩ := dispatch_again hd
      have := ih { m with state := .Evaluation } cs
      rw [h, List.length_cons, if_pos hs]
      rw [if_neg (by simp)] at this
      omega
    · have := ih m' t
      rw [h, List.length_cons, List.length_cons]
      split_ifs at this ⊢ <;> omega

/-- The loop never moves backwards. -/
theorem iterations_suffix : ∀ (fuel : Nat) (m : Machine) (cs : List Char),
    ∀ e ∈ iterations fuel m cs, e.2.length ≤ cs.length := by
  intro fuel
  induction fuel with
  | zero =>
    intro m cs e he
    simp [iterations] at he
  | succ fuel ih =>
    intro m cs e he
    rcases iterations_cases fuel m cs with h | ⟨m', -, h⟩ | ⟨m', c, t, rfl, -, -, h⟩
    · rw [h, List.mem_singleton] at he
      rw [he]
    · rw [h, List.mem_cons] at he
      rcases he with rfl | he
      · exact le_refl _
      · exact ih m' cs e he
    · rw [h, List.mem_cons] at he
      rcases he with rfl | he
      · exact le_refl _
      · have := ih m' t e he
        rw [List.length_cons]
        omega

/-- No position of the input is the current one in more than two iterations,
and the first position in more than one unless the loop is in
`State::Number`. -/
theorem iterations_count : ∀ (fuel : Nat) (m : Machine) (cs xs : List Char),
    ((iterations fuel m cs).map Prod.snd).count xs ≤ 2 ∧
      (m.state ≠ .Number → ((iterations fuel m cs).map Prod.snd).count cs ≤ 1) := by
  intro fuel
  induction fuel with
  | zero =>
    intro m cs xs
    simp [iterations]
  | succ fuel ih =>
    intro m cs xs
    rcases iterations_cases fuel m cs with h | ⟨m', hd, h⟩ | ⟨m', c, t, rfl, -, -, h⟩
    · rw [h]
      simp only [List.map_cons, List.map_nil, List.count_singleton]
      constructor
      · split_ifs <;> omega
      · intro _
        split_ifs <;> omega
    · obtain ⟨hs, rfl⟩ := dispatch_again hd
      rw [h, List.map_cons, List.count_cons, List.count_cons]
      have h1 := (ih { m with state := .Evaluation } cs cs).2 (by simp)
      have h2 := (ih { m with state := .Evaluation } cs xs).1
      constructor
      · by_cases hx : cs = xs
        · subst hx
          simp only [beq_self_eq_true, if_true]
          omega
        · have : (cs == xs) = false := by simpa using hx
          simp only [this]
          simpa using h2
      · intro hn
        exact absurd hs hn
    · have hzero : ((iterations fuel m' t).map Prod.snd).count (c :: t) = 0 := by
        refine List.count_eq_zero_of_not_mem ?_
        intro hmem
        obtain ⟨e, he, hsnd⟩ := List.mem_map.mp hmem
        have := iterations_suffix fuel m' t e he
        rw [hsnd, List.length_cons] at this
        omega
      rw [h, List.map_cons, List.count_cons, List.count_cons]
      have h2 := (ih m' t xs).1
      constructor
      · by_cases hx : c :: t = xs
        · subst hx
          rw [hzero]
          simp
        · have : (c :: t == xs) = false := by simpa using hx
          simp only [this]
          simpa using h2
      · intro _
        rw [hzero]
        simp

theorem iterations_head (fuel : Nat) (m : Machine) (cs : List Char) :
    ∀ b ∈ (iterations fuel m cs).head?, b = (m, cs) := by
  intro b hb
  cases fuel with
  | zero => simp [iterations] at hb
  | succ fuel =>
    rw [iterations_succ] at hb
    simpa using hb.symm

/-- Each iteration is at the character of the one before it or at the next
one, and it is at the same character only behind an iteration in
`State::Number` that ended a numeral. -/
theorem iterations_chain : ∀ (fuel : Nat) (m : Machine) (cs : List Char),
    List.Chain' Follows (iterations fuel m cs) := by
  intro fuel
  induction fuel with
  | zero =>
    intro m cs
    simp [iterations]
  | succ fuel ih =>
    intro m cs
    rcases iterations_cases fuel m cs with h | ⟨m', hd, h⟩ | ⟨m', c, t, rfl, hc, -, h⟩
    · rw [h]
      exact List.chain'_singleton _
    · rw [h, List.chain'_cons']
      refine ⟨?_, ih m' cs⟩
      intro b hb
      rw [iterations_head fuel m' cs b hb]
      exact Or.inr ⟨rfl, (dispatch_again hd).1, (dispatch_again hd).2, dispatch_again_char hd⟩
    · rw [h, List.chain'_cons']
      refine ⟨?_, ih m' t⟩
      intro b hb
      rw [iterations_head fuel m' t b hb]
      exact Or.inl ⟨by simp, hc, rfl⟩

/-- At the start of every iteration the stack has one frame for every `(` in
front of the current character that no `)` in front of it has closed. -/
theorem nested_iterations : ∀ (fuel : Nat) (m : Machine) (cs pre : List Char),
    Nested pre m → ∀ e ∈ iterations fuel m cs, ∃ p, pre ++ cs = p ++ e.2 ∧ Nested p e.1 := by
  intro fuel
  induction fuel with
  | zero =>
    intro m cs pre _ e he
    simp [iterations] at he
  | succ fuel ih =>
    intro m cs pre hn e he
    rcases iterations_cases fuel m cs with h | ⟨m', hd, h⟩ | ⟨m', c, t, rfl, -, hd, h⟩
    · rw [h, List.mem_singleton] at he
      subst he
      exact ⟨pre, rfl, hn⟩
    · rw [h, List.mem_cons] at he
      rcases he with rfl | he
      · exact ⟨pre, rfl, hn⟩
      · obtain ⟨-, rfl⟩ := dispatch_again hd
        exact ih { m with state := .Evaluation } cs pre hn e he
    · rw [h, List.mem_cons] at he
      rcases he with rfl | he
      · exact ⟨pre, rfl, hn⟩
      · obtain ⟨p, hp, hnest⟩ :=
          ih m' t (pre ++ [c]) (nested_step hn (dispatch_advance_feed hd)) e he
        refine ⟨p, ?_, hnest⟩
        rw [← hp]
        simp

theorem getLast_cons_of_some {α : Type} {a x : α} {l : List α} (h : l.getLast? = some x) :
    (a :: l).getLast? = some x := by
  cases l with
  | nil => simp at h
  | cons b l => rw [List.getLast?_cons_cons]; exact h

/-- An accepted run ends with an iteration on the terminator, and the code
behind the loop finds the stack empty. -/
theorem loop_accepted_last : ∀ (fuel : Nat) (m : Machine) (cs : List Char) (v : Int),
    loop fuel m cs = some (.accepted v) →
    ∃ m₁ cs₁ m', (iterations fuel m cs).getLast? = some (m₁, cs₁) ∧ cs₁.headD NUL = NUL ∧
      dispatch m₁ NUL = .advance m' ∧ finish m' = .accepted v := by
  intro fuel
  induction fuel with
  | zero =>
    intro m cs v h
    simp [loop] at h
  | succ fuel ih =>
    intro m cs v h
    rw [loop_succ] at h
    rw [iterations_succ]
    cases hd : dispatch m (cs.headD NUL) with
    | halt o =>
      rw [hd] at h
      simp only [Option.some.injEq] at h
      subst h
      rcases dispatch_halt hd with h | h | h <;> cases h
    | again m' =>
      rw [hd] at h
      obtain ⟨m₁, cs₁, m'', hlast, hc, hdn, hfin⟩ := ih m' cs v h
      exact ⟨m₁, cs₁, m'', getLast_cons_of_some hlast, hc, hdn, hfin⟩
    | advance m' =>
      rw [hd] at h
      dsimp only at h ⊢
      by_cases hc : cs.headD NUL = NUL
      · rw [if_pos hc] at h ⊢
        simp only [Option.some.injEq] at h
        rw [hc] at hd
        exact ⟨m, cs, m', rfl, hc, hd, h⟩
      · rw [if_neg hc] at h ⊢
        obtain ⟨m₁, cs₁, m'', hlast, hc', hdn, hfin⟩ := ih m' cs.tail v h
        exact ⟨m₁, cs₁, m'', getLast_cons_of_some hlast, hc', hdn, hfin⟩

theorem finish_accepted {m : Machine} {v : Int} (h : finish m = .accepted v) :
    m.stack = [] := by
  unfold finish at h
  split_ifs at h with hs
  exact hs

/-- Claim C18.  The depth of the frame stack is the nesting level: the stack is
empty at the start; at the start of every iteration of the loop, with `pre`
the characters consumed so far, the number of frames is the number of `(` in
`pre` minus the number of `)` in `pre`; and a successful evaluation ends with
an iteration on the terminator that starts and ends with an empty stack. -/
theorem stack_depth (s : List Char) :
    Machine.init.stack.length = 0 ∧
    (∀ fuel m cs, (m, cs) ∈ iterations fuel Machine.init s →
      ∃ pre, s = pre ++ cs ∧
        (m.stack.length : Int) = (pre.count '(' : Int) - (pre.count ')' : Int)) ∧
    (∀ v, evaluate s = some (.accepted v) →
      ∃ m cs m', (iterations (2 * (s.length + 1)) Machine.init s).getLast? = some (m, cs) ∧
        cs.headD NUL = NUL ∧ dispatch m NUL = .advance m' ∧ finish m' = .accepted v ∧
        m.stack.length = 0 ∧ m'.stack.length = 0) := by
  refine ⟨rfl, ?_, ?_⟩
  · intro fuel m cs h
    obtain ⟨p, hp, hn⟩ := nested_iterations fuel Machine.init s [] nested_init (m, cs) h
    refine ⟨p, by simpa using hp, ?_⟩
    unfold Nested at hn
    dsimp only at hn
    omega
  · intro v h
    obtain ⟨m, cs, m', hlast, hc, hd, hfin⟩ := loop_accepted_last _ _ _ _ h
    have hs := finish_accepted hfin
    refine ⟨m, cs, m', hlast, hc, hd, hfin, ?_, ?_⟩
    · rw [← dispatch_nul_stack hd, hs]
      rfl
    · rw [hs]
      rfl

theorem stack_depth_witness :
    ((⟨0, .Add, [(0, .Add)], .Number, ['1']⟩ : Machine), [')']) ∈
        iterations 8 Machine.init "(1)".toList ∧
      (∃ pre, "(1)".toList = pre ++ [')'] ∧
        (((⟨0, .Add, [(0, .Add)], .Number, ['1']⟩ : Machine).stack.length : Nat) : Int) =
          (pre.count '(' : Int) - (pre.count ')' : Int)) ∧
      evaluate "(1)".toList = some (.accepted 1) ∧
      ∃ m cs m', (iterations (2 * ("(1)".toList.length + 1)) Machine.init "(1)".toList).getLast? =
          some (m, cs) ∧
        cs.headD NUL = NUL ∧ dispatch m NUL = .advance m' ∧ finish m' = .accepted 1 ∧
        m.stack.length = 0 ∧ m'.stack.length = 0 :=
  ⟨by decide, (stack_depth "(1)".toList).2.1 8 _ _ (by decide), by decide,
    (stack_depth "(1)".toList).2.2 1 (by decide)⟩

/-- Claim C19.  The loop terminates on every input and never moves backwards:
`evaluate`, which allows two iterations for each of the `n` characters and for
the terminator, returns, and more iterations do not change what it returns;
however many iterations are allowed, the loop makes at most `2 * (n + 1)`; no
position of the input is the current one in more than two iterations; and each
iteration is at the next character behind the one before it, or at the same
character, and then the one before it was in `State::Number` on an operator,
`)` or the terminator and this one is in `State::Evaluation`. -/
theorem scan_terminates (s : List Char) :
    (∃ o, evaluate s = some o ∧
      ∀ k, loop (2 * (s.length + 1) + k) Machine.init s = some o) ∧
    (∀ fuel, (iterations fuel Machine.init s).length ≤ 2 * (s.length + 1)) ∧
    (∀ fuel cs, ((iterations fuel Machine.init s).map Prod.snd).count cs ≤ 2) ∧
    (∀ fuel, List.Chain' Follows (iterations fuel Machine.init s)) := by
  refine ⟨⟨scan Machine.init s, evaluate_eq_scan s, fun k => ?_⟩, fun fuel => ?_,
    fun fuel cs => (iterations_count fuel Machine.init s cs).1,
    fun fuel => iterations_chain fuel Machine.init s⟩
  · exact loop_eq_scan s Machine.init _ (Nat.le_add_right _ _)
  · have := iterations_length fuel Machine.init s
    rw [if_neg (by decide)] at this
    omega

/-! ## An operator and a numeral behind an accepted string (claim C3) -/

/-- The scan of an accepted string, an operator and a numeral. -/
theorem evaluate_operator_numeral (s : List Char) (v : Int) (o : Op) (n : Numeral)
    (hs : NUL ∉ s) (hv : evaluate s = some (.accepted v))
    (hn : n.Valid) (hr : n.InRange) (hz : o = .Divide → n.value ≠ 0)
    (hmin : ¬(o = .Divide ∧ v = INT_MIN ∧ n.value = -1)) :
    evaluate (s ++ opChar o :: n.chars) = some (.accepted (wrapInt (o.apply v n.value))) := by
  obtain ⟨m, hreach, hend⟩ := reaches_of_accepted hs hv
  obtain ⟨hstate, m', hset, hstack, hres⟩ := atEnd_accepted hend
  obtain ⟨hns, hst', -, -⟩ := settle_props hset
  have hahead : noDigitAhead (opChar o :: n.chars) := opChar_not_digit o
  have h1 : scan m (opChar o :: n.chars) = scan m' (opChar o :: n.chars) :=
    scan_settle _ hstate (fun _ => hahead) hset
  have h2 : feed m' (opChar o) = .ok { m' with op := o, state := .Expression } := by
    rw [feed_evaluation _ hst', parseNumber_settled hns]
    exact evaluationFeed_op m' o
  have hmin' : ¬(o = .Divide ∧ m'.result = INT_MIN ∧ n.value = -1) := by
    rw [hres]
    exact hmin
  obtain ⟨r, hr1, hr2⟩ := scan_numeral { m' with op := o, state := .Expression } []
    rfl hns hn hr (fun h => hz h.2 h.1) hmin' trivial
  have hr3 : r = wrapInt (o.apply v n.value) := by
    have := processNumber_eq_apply m'.result n.value o hz hmin'
    have hr1' : processNumber m'.result n.value o = .value r := hr1
    rw [this] at hr1'
    injection hr1' with hr1'
    rw [← hr1', hres]
  rw [evaluate_of_reaches hreach, h1, scan, if_neg (opChar_ne_nul o), h2]
  dsimp only
  have h3 : scan { m' with op := o, state := .Expression } n.chars =
      scan { m' with op := o, state := .Expression } (n.chars ++ []) := by
    rw [List.append_nil]
  rw [h3, hr2, scan]
  have h4 : atEnd { m' with result := r, op := o, state := .Evaluation } =
      finish { m' with result := r, op := o, state := .Evaluation } :=
    atEnd_settled rfl hns
  rw [h4, finish, hr3]
  simp [hstack]

/-- Claim C3, as amended. No operator precedence is honoured: when `evaluate`
succeeds on a string `s` (a C string, without NUL inside) with the value `v`,
then for every operator `o` and every numeral `n` in the range of `int` (not
zero when `o` is the division, and not `v` equal to `INT_MIN` with `n` equal
to `-1` when `o` is the division) it succeeds on `s` followed by `o` followed
by `n`, whatever operators `s` contains, with the value of `v o n` in 32-bit
arithmetic, which is the exact value of `v o n`, the division truncating
toward zero, whenever that is in the range of `int`. -/
theorem evaluate_append_operator_numeral (s : List Char) (v : Int) (o : Op) (n : Numeral)
    (hs : NUL ∉ s) (hv : evaluate s = some (.accepted v))
    (hn : n.Valid) (hr : n.InRange) (hz : o = .Divide → n.value ≠ 0)
    (hmin : ¬(o = .Divide ∧ v = INT_MIN ∧ n.value = -1)) :
    evaluate (s ++ opChar o :: n.chars) =
        some (.accepted (wrapInt (o.apply v n.value))) ∧
      (inInt (o.apply v n.value) →
        evaluate (s ++ opChar o :: n.chars) = some (.accepted (o.apply v n.value))) := by
  have key := evaluate_operator_numeral s v o n hs hv hn hr hz hmin
  refine ⟨key, fun hfit => ?_⟩
  rw [key, wrapInt_of_inInt hfit]

/-- The example of C3: `4 - 3 * 5 * 6 - 5` gives 25, and followed by `*8` it
gives 200, the product of 25 and 8. -/
theorem evaluate_append_operator_numeral_witness :
    NUL ∉ "4 - 3 * 5 * 6 - 5 ".toList ∧
    evaluate "4 - 3 * 5 * 6 - 5 ".toList = some (.accepted 25) ∧
    (Numeral.plain ['8']).Valid ∧ (Numeral.plain ['8']).InRange ∧
    Op.Multiply.apply 25 (Numeral.plain ['8']).value = 200 ∧
    evaluate ("4 - 3 * 5 * 6 - 5 ".toList ++ opChar .Multiply :: (Numeral.plain ['8']).chars)
      = some (.accepted (Op.Multiply.apply 25 (Numeral.plain ['8']).value)) :=
  ⟨by decide, by decide, by decide, by decide, by decide,
    (evaluate_append_operator_numeral "4 - 3 * 5 * 6 - 5 ".toList 25 .Multiply
      (Numeral.plain ['8']) (by decide) (by decide) (by decide) (by decide) (by decide)
      (by decide)).2 (by decide)⟩

/-- Claim C3 fails as stated. `evaluate` succeeds on `-2147483648` with the
value `INT_MIN`, the numeral `-1` is in the range of `int` and is not 0, and
on `-2147483648` followed by the division sign and `-1` `evaluate` does not
succeed: it divides `INT_MIN` by `-1`, which has no value. -/
theorem append_operator_numeral_undefined :
    NUL ∉ "-2147483648".toList ∧
    evaluate "-2147483648".toList = some (.accepted (-2147483648)) ∧
    (Numeral.mk true ['1']).Valid ∧ (Numeral.mk true ['1']).InRange ∧
    (Numeral.mk true ['1']).value ≠ 0 ∧
    evaluate ("-2147483648".toList ++ opChar .Divide :: (Numeral.mk true ['1']).chars) =
      some .undefined ∧
    ¬∃ r, evaluate ("-2147483648".toList ++ opChar .Divide :: (Numeral.mk true ['1']).chars) =
      some (.accepted r) :=
  ⟨by decide, by decide, by decide, by decide, by decide, by decide, by
    rw [show evaluate ("-2147483648".toList ++ opChar .Divide ::
      (Numeral.mk true ['1']).chars) = some .undefined by decide]
    rintro ⟨r, hr⟩
    cases hr⟩

end SimpleArithmeticParser
